import Mathlib

/-!
# Mini-Shell (sh61): command-graph construction and process orchestration

A shallow embedding of `src/sh61.cc`.

* The command list is a heap of `command` records addressed by index; a C++
  pointer is an `Option Nat` (`none` is `nullptr`), and `next` / `prev` are
  stored in the records exactly as the source stores them.
* The operating system is explicit state (`World`: descriptor table, working
  directory, process counter, log of system calls) plus an oracle (`Env`) for
  what the outside world answers.
* A function that can leave through `_exit`, replace the process image, or hit
  undefined behaviour returns an `Outcome`.
-/

set_option autoImplicit false

namespace Sh61

/-! ## Tokens and the command record -/

/-- Token types of `sh61.hh`, in the order of their numeric values. -/
inductive TokType where
  | NORMAL
  | REDIRECT_OP
  | SEQUENCE
  | BACKGROUND
  | PIPE
  | AND
  | OR
  deriving DecidableEq, Repr

/-- Modelled from the spec: the tokens handed over by the tokenizer, which is
not under `src/` ("typed tokens: word, redirect operator, sequence/background/
pipe/and/or operator").  Words and redirect operators carry their text; a link
operator is its own text. -/
inductive Token where
  | word (s : String)
  | redirect (s : String)
  | sequence
  | background
  | pipe
  | and_
  | or_
  deriving DecidableEq, Repr

/-- The `it.type()` of the source. -/
def Token.type : Token → TokType
  | .word _ => .NORMAL
  | .redirect _ => .REDIRECT_OP
  | .sequence => .SEQUENCE
  | .background => .BACKGROUND
  | .pipe => .PIPE
  | .and_ => .AND
  | .or_ => .OR

/-- The `it.str()` of the source. -/
def Token.str : Token → String
  | .word s => s
  | .redirect s => s
  | .sequence => ";"
  | .background => "&"
  | .pipe => "|"
  | .and_ => "&&"
  | .or_ => "||"

/-- A C++ `command*`: `none` is `nullptr`, `some i` addresses heap cell `i`. -/
abbrev Ptr := Option Nat

/-- The `struct command` of the source (lines 16-41).  `pfd` is `none` until
`pipe()` has filled it: the source leaves `int pfd[2]` uninitialised.  `status`
is likewise only meaningful after `waitpid` has stored into it; the code never
reads it earlier.  The field `in_` is the source's `in`. -/
structure command where
  args : List String := []
  pid : Int := -1
  status : Nat := 0
  pfd : Option (Nat × Nat) := none
  in_ : Bool := false
  out : Bool := false
  err : Bool := false
  inpath : String := ""
  outpath : String := ""
  errpath : String := ""
  next : Ptr := none
  prev : Ptr := none
  link : TokType := .SEQUENCE
  deriving DecidableEq, Repr

/-- Apply `f` to heap cell `p` (a write through a valid pointer). -/
def poke (h : List command) (p : Nat) (f : command → command) : List command :=
  match h[p]? with
  | some n => h.set p (f n)
  | none => h

/-! ## parse_line (lines 336-393) -/

/-- How `parse_line` can end. -/
inductive ParseResult where
  | ok (heap : List command) (chead : Ptr)
  | assert_failed
  | past_end
  | out_of_fuel
  deriving DecidableEq, Repr

/-- The three locals of `parse_line` together with the heap of nodes built so
far. -/
structure ParseState where
  heap : List command := []
  chead : Ptr := none
  clast : Ptr := none
  ccur : Ptr := none
  deriving DecidableEq, Repr

/-- One of the three `if (it.str() == op) { flag = true; ++it; path = it.str(); }`
blocks of the `TYPE_REDIRECT_OP` case.  `it` is the iterator as the list of
tokens from the current one on; `none` means the iterator was advanced onto the
end of the input and then read, which the absent tokenizer decides. -/
def redirect_if (op : String) (set : command → String → command)
    (h : List command) (clast : Nat) (it : List Token) :
    Option (List command × List Token) :=
  match it with
  | [] => none
  | t :: rest =>
    if t.str = op then
      match rest with
      | [] => none
      | p :: _ => some (poke h clast (fun n => set n p.str), rest)
    else some (h, it)

/-- The loop of `parse_line`; `fuel` bounds the number of iterations (every
iteration consumes at least one token). -/
def parse_loop : Nat → ParseState → List Token → ParseResult
  | _, st, [] => .ok st.heap st.chead
  | 0, _, _ :: _ => .out_of_fuel
  | fuel + 1, st, t :: rest =>
    match t.type with
    | .NORMAL =>
      -- if (!ccur) create a node and link it after clast
      let st1 : ParseState :=
        match st.ccur with
        | some _ => st
        | none =>
          let cnew := st.heap.length
          let h1 := st.heap ++ [({} : command)]
          match st.clast with
          | some l =>
            let h2 := poke h1 l (fun n => { n with next := some cnew })
            let h3 := poke h2 cnew (fun n => { n with prev := some l })
            { st with heap := h3, ccur := some cnew }
          | none => { st with heap := h1, chead := some cnew, ccur := some cnew }
      match st1.ccur with
      | none => .assert_failed
      | some c =>
        parse_loop fuel
          { st1 with heap := poke st1.heap c (fun n => { n with args := n.args ++ [t.str] }) }
          rest
    | .REDIRECT_OP =>
      match st.ccur with
      | none => .assert_failed
      | some c =>
        match redirect_if "<" (fun n p => { n with in_ := true, inpath := p }) st.heap c
            (t :: rest) with
        | none => .past_end
        | some (h1, it1) =>
          match redirect_if ">" (fun n p => { n with out := true, outpath := p }) h1 c it1 with
          | none => .past_end
          | some (h2, it2) =>
            match redirect_if "2>" (fun n p => { n with err := true, errpath := p }) h2 c
                it2 with
            | none => .past_end
            | some (h3, it3) =>
              match it3 with
              | [] => .past_end
              | u :: rest3 =>
                if u.type = .NORMAL then
                  parse_loop fuel { st with heap := h3, clast := some c } rest3
                else .assert_failed
    | _ =>
      match st.ccur with
      | none => .assert_failed
      | some c =>
        parse_loop fuel
          { st with heap := poke st.heap c (fun n => { n with link := t.type }),
                    clast := some c, ccur := none }
          rest

/-- The `parse_line` of the source, on the token sequence the tokenizer yields
for the line. -/
def parse_line (toks : List Token) : ParseResult :=
  parse_loop toks.length {} toks

/-! ## The operating system as explicit state -/

/-- What an open descriptor refers to.  A pipe is named by the node whose
`pfd` holds it. -/
inductive FileObj where
  | tty
  | pipe_read (node : Nat)
  | pipe_write (node : Nat)
  | file (path : String) (flags : Nat)
  deriving DecidableEq, Repr

/-- A system call made by a process, as logged in `World.trace`.  `fork` and
`waitpid` carry the node on whose behalf `command::run` / `run_pipeline` made
the call. -/
inductive Event where
  | pipe (node : Nat) (r : Nat) (w : Nat)
  | chdir (path : String) (ok : Bool)
  | fork (node : Nat) (pid : Nat)
  | fork_list (c : Nat) (c_tmp : Nat) (pid : Nat)
  | close (fd : Nat)
  | dup2 (src : Nat) (dst : Nat)
  | open_ (path : String) (flags : Nat) (fd : Nat)
  | waitpid (node : Nat) (pid : Nat) (status : Nat)
  | reap (pid : Nat)
  deriving DecidableEq, Repr

/-- The state of one process: its copy of the command heap, its descriptor
table, its working directory, the last process id handed out, the number of
system calls it has made, and the log of those calls. -/
structure World where
  heap : List command := []
  fds : List (Nat × FileObj) := [(0, .tty), (1, .tty), (2, .tty)]
  cwd : String := "/"
  last_pid : Nat := 0
  clock : Nat := 0
  trace : List Event := []
  deriving DecidableEq, Repr

/-- What the outside world answers: whether the `k`-th system call of a
process fails for an outside reason (EMFILE, EAGAIN, EINTR, ...), the wait
status of a process, the outcome of `chdir` from a directory to a path, whether
a path can be opened with given flags, whether a program can be executed, and
which terminated children a non-blocking `waitpid(-1)` collects. -/
structure Env where
  fails : Nat → Bool
  wstatus : Nat → Nat
  chdir : String → String → Option String
  can_open : String → Nat → Bool
  can_exec : List String → Bool
  zombies : Nat → List Nat

/-- How a piece of code can end: it returns, the process calls `_exit`, the
process image is replaced by `execvp`, an `assert` aborts the process, the code
has undefined behaviour (null or dangling pointer, vector index out of range,
read of an uninitialised `pfd`), or the model's fuel ran out. -/
inductive Outcome (α : Type) where
  | ok (a : α)
  | exited (code : Nat) (w : World)
  | execd (argv : List String) (w : World)
  | aborted (w : World)
  | undef (w : World)
  | out_of_fuel
  deriving DecidableEq, Repr

/-- Sequencing: continue with `f` after a normal return, stop otherwise. -/
def Outcome.bind {α β : Type} (o : Outcome α) (f : α → Outcome β) : Outcome β :=
  match o with
  | .ok a => f a
  | .exited c w => .exited c w
  | .execd a w => .execd a w
  | .aborted w => .aborted w
  | .undef w => .undef w
  | .out_of_fuel => .out_of_fuel

/-- The state of the process when the code ended (none when fuel ran out). -/
def Outcome.final {α : Type} (proj : α → World) : Outcome α → Option World
  | .ok a => some (proj a)
  | .exited _ w => some w
  | .execd _ w => some w
  | .aborted w => some w
  | .undef w => some w
  | .out_of_fuel => none

/-- Descriptor number of standard input. -/
def STDIN_FILENO : Nat := 0
/-- Descriptor number of standard output. -/
def STDOUT_FILENO : Nat := 1
/-- Descriptor number of standard error. -/
def STDERR_FILENO : Nat := 2
/-- Flag of `open` in `<fcntl.h>` (Linux value): read only. -/
def O_RDONLY : Nat := 0
/-- Flag of `open` in `<fcntl.h>` (Linux value): write only. -/
def O_WRONLY : Nat := 1
/-- Flag of `open` in `<fcntl.h>` (Linux value, octal 100): create the file. -/
def O_CREAT : Nat := 64
/-- Flag of `open` in `<fcntl.h>` (Linux value, octal 1000): truncate the file. -/
def O_TRUNC : Nat := 512
/-- Exit status of `<cstdlib>`. -/
def EXIT_SUCCESS : Nat := 0
/-- Exit status of `<cstdlib>`. -/
def EXIT_FAILURE : Nat := 1

/-- The `WIFEXITED` of `<sys/wait.h>`: the low seven bits (the terminating
signal) are zero. -/
def WIFEXITED (status : Nat) : Bool := status % 128 == 0
/-- The `WEXITSTATUS` of `<sys/wait.h>`: bits 8-15. -/
def WEXITSTATUS (status : Nat) : Nat := (status / 256) % 256

/-- Search for the lowest number not in `used`, starting at `k`. -/
def lowest_free_from (used : List Nat) : Nat → Nat → Nat
  | 0, k => k
  | fuel + 1, k => if k ∈ used then lowest_free_from used fuel (k + 1) else k

/-- The lowest descriptor number that is not open (POSIX allocation rule). -/
def lowest_free (used : List Nat) : Nat := lowest_free_from used used.length 0

/-- The open descriptor numbers of a process. -/
def World.open_fds (w : World) : List Nat := w.fds.map Prod.fst

/-- The automatic `pipe(this->pfd)`: two fresh descriptors, stored into the
node's `pfd`; `none` is the return value -1. -/
def sys_pipe (env : Env) (w : World) (node : Nat) : Option World :=
  if env.fails w.clock then none
  else
    let r := lowest_free w.open_fds
    let wr := lowest_free (r :: w.open_fds)
    some { w with
      heap := poke w.heap node (fun n => { n with pfd := some (r, wr) }),
      fds := w.fds ++ [(r, .pipe_read node), (wr, .pipe_write node)],
      clock := w.clock + 1,
      trace := w.trace ++ [.pipe node r wr] }

/-- The system call `close(fd)`: fails on a descriptor that is not open. -/
def sys_close (env : Env) (w : World) (fd : Nat) : Option World :=
  if env.fails w.clock then none
  else if fd ∈ w.open_fds then
    some { w with
      fds := w.fds.filter (fun e => e.1 != fd),
      clock := w.clock + 1,
      trace := w.trace ++ [.close fd] }
  else none

/-- The system call `dup2(src, dst)`: `dst` is made to refer to what `src`
refers to (closing what it referred to before); nothing changes when they are
equal; fails when `src` is not open. -/
def sys_dup2 (env : Env) (w : World) (src dst : Nat) : Option World :=
  if env.fails w.clock then none
  else
    match w.fds.lookup src with
    | none => none
    | some obj =>
      some { w with
        fds := if src = dst then w.fds
               else (dst, obj) :: w.fds.filter (fun e => e.1 != dst),
        clock := w.clock + 1,
        trace := w.trace ++ [.dup2 src dst] }

/-- The system call `open(path, flags, 0666)`, returning the new descriptor. -/
def sys_open (env : Env) (w : World) (path : String) (flags : Nat) : Option (World × Nat) :=
  if env.fails w.clock || !env.can_open path flags then none
  else
    let fd := lowest_free w.open_fds
    some ({ w with
      fds := w.fds ++ [(fd, .file path flags)],
      clock := w.clock + 1,
      trace := w.trace ++ [.open_ path flags fd] }, fd)

/-- The system call `chdir(path)`, returning the new state and 0 or -1. -/
def sys_chdir (env : Env) (w : World) (path : String) : World × Int :=
  match env.chdir w.cwd path with
  | some d => ({ w with cwd := d, trace := w.trace ++ [.chdir path true] }, 0)
  | none => ({ w with trace := w.trace ++ [.chdir path false] }, -1)

/-- The system call `fork()`: `none` is the return value -1; otherwise the new
process id, the state of the parent (which logs `ev pid`) and the state of the
child, a copy that starts its own log. -/
def sys_fork (env : Env) (w : World) (ev : Nat → Event) : Option (Nat × World × World) :=
  if env.fails w.clock then none
  else
    let pid := w.last_pid + 1
    some (pid,
      { w with last_pid := pid, clock := w.clock + 1, trace := w.trace ++ [ev pid] },
      { w with last_pid := pid, clock := w.clock + 1, trace := [] })

/-- The system call `waitpid(pid, &status, 0)`, returning the stored status. -/
def sys_waitpid (env : Env) (w : World) (node pid : Nat) : Option (World × Nat) :=
  if env.fails w.clock then none
  else
    some ({ w with clock := w.clock + 1,
                   trace := w.trace ++ [.waitpid node pid (env.wstatus pid)] },
          env.wstatus pid)

/-- The `error_msg` of the source (lines 61-64): report and `_exit(EXIT_FAILURE)`. -/
def error_msg {α : Type} (w : World) : Outcome α := .exited EXIT_FAILURE w

/-- The `redir` of the source (lines 66-77). -/
def redir (env : Env) (w : World) (path : String) (flags : Nat) (data_stream : Nat) :
    Outcome World :=
  match sys_open env w path flags with
  | none => error_msg w
  | some (w1, n) =>
    match sys_dup2 env w1 n data_stream with
    | none => error_msg w1
    | some w2 =>
      match sys_close env w2 n with
      | none => error_msg w2
      | some w3 => .ok w3

/-- The `connect_pipes` of the source (lines 79-86); `c` is a valid pointer at
both call sites, `c->pfd` may be uninitialised. -/
def connect_pipes (env : Env) (w : World) (c : Nat) (pfd_end : Nat) (data_stream : Nat) :
    Outcome World :=
  match w.heap[c]? with
  | none => .undef w
  | some n =>
    match n.pfd with
    | none => .undef w
    | some (r, wr) =>
      let fd := if pfd_end = 0 then r else wr
      match sys_dup2 env w fd data_stream with
      | none => error_msg w
      | some w1 =>
        match sys_close env w1 fd with
        | none => error_msg w1
        | some w2 => .ok w2

/-! ## command::run (lines 114-200) -/

/-- Lines 115-131 of `command::run`: the two assertions, the creation of the
pipe when `link == TYPE_PIPE`, and the `chdir` of a `cd` command.  Returns the
state reached just before `fork()` and the local `m`. -/
def run_before_fork (env : Env) (w : World) (this : Nat) : Outcome (World × Int) :=
  match w.heap[this]? with
  | none => .undef w
  | some n =>
    if n.pid ≠ -1 then .aborted w
    else if n.args.length = 0 then .aborted w
    else
      let piped : Outcome World :=
        if n.link = .PIPE then
          match sys_pipe env w this with
          | none => error_msg w
          | some w1 => .ok w1
        else .ok w
      piped.bind fun w1 =>
        if n.args[0]? = some "cd" then
          match n.args[1]? with
          | none => .undef w1
          | some path => .ok (sys_chdir env w1 path)
        else .ok (w1, 0)

/-- Lines 139-183 of `command::run`: what the forked child does.  It never
returns: it ends in `_exit`, in `execvp`, or in undefined behaviour. -/
def run_child (env : Env) (w : World) (this : Nat) (m : Int) : Outcome World :=
  match w.heap[this]? with
  | none => .undef w
  | some n =>
    if n.args[0]? = some "cd" then
      if m = -1 then .exited EXIT_FAILURE w else .exited EXIT_SUCCESS w
    else
      let wired_in : Outcome World :=
        match n.prev with
        | none => .ok w
        | some p =>
          match w.heap[p]? with
          | none => .undef w
          | some pn =>
            if pn.link = .PIPE then connect_pipes env w p 0 STDIN_FILENO else .ok w
      let wired_out : Outcome World :=
        wired_in.bind fun w1 =>
          if n.link = .PIPE then
            (connect_pipes env w1 this 1 STDOUT_FILENO).bind fun w2 =>
              match n.pfd with
              | none => .undef w2
              | some (r, _) =>
                match sys_close env w2 r with
                | none => error_msg w2
                | some w3 => .ok w3
          else .ok w1
      let redirected : Outcome World :=
        wired_out.bind fun w1 =>
          (if n.in_ then redir env w1 n.inpath O_RDONLY STDIN_FILENO else .ok w1).bind
            fun w2 =>
          (if n.out then redir env w2 n.outpath (O_CREAT ||| O_WRONLY) STDOUT_FILENO
           else .ok w2).bind fun w3 =>
          (if n.err then redir env w3 n.errpath (O_WRONLY ||| O_CREAT ||| O_TRUNC) STDERR_FILENO
           else .ok w3)
      redirected.bind fun w1 =>
        if env.can_exec n.args then .execd n.args w1 else error_msg w1

/-- Lines 185-199 of `command::run`: what the parent does after `fork()`
returned `child_pid`. -/
def run_parent (env : Env) (w : World) (this : Nat) (child_pid : Nat) : Outcome World :=
  let w0 : World := { w with heap := poke w.heap this (fun n => { n with pid := child_pid }) }
  match w0.heap[this]? with
  | none => .undef w0
  | some n =>
    let closed_prev : Outcome World :=
      match n.prev with
      | none => .ok w0
      | some p =>
        match w0.heap[p]? with
        | none => .undef w0
        | some pn =>
          if pn.link = .PIPE then
            match pn.pfd with
            | none => .undef w0
            | some (r, _) =>
              match sys_close env w0 r with
              | none => error_msg w0
              | some w1 => .ok w1
          else .ok w0
    closed_prev.bind fun w1 =>
      if n.link = .PIPE then
        match n.pfd with
        | none => .undef w1
        | some (_, wr) =>
          match sys_close env w1 wr with
          | none => error_msg w1
          | some w2 => .ok w2
      else .ok w1

/-- The `command::run` of the source as seen by its caller: the code before
`fork()`, the `fork()`, and the parent's code after it.  The forked child runs
`run_child` on its copy of the state. -/
def command.run (env : Env) (w : World) (this : Nat) : Outcome World :=
  (run_before_fork env w this).bind fun (w1, _) =>
    match sys_fork env w1 (Event.fork this) with
    | none => error_msg w1
    | some (child_pid, wp, _) => run_parent env wp this child_pid

/-- The state in which the child forked by `command::run` on node `this`
starts (a copy of the launching process at the `fork()`), together with its
copy of the local `m`; `none` when the launching process does not get to a
successful `fork()`. -/
def child_start (env : Env) (w : World) (this : Nat) : Option (World × Int) :=
  match run_before_fork env w this with
  | .ok (w1, m) =>
    match sys_fork env w1 (Event.fork this) with
    | some (_, _, wc) => some (wc, m)
    | none => none
  | _ => none

/-! ## run_pipeline, run_conditional, scan, run_list (lines 227-325) -/

/-- The `run_pipeline` of the source (lines 227-242); the result carries the
updated reference parameter `c`. -/
def run_pipeline (env : Env) : Nat → World → Ptr → Outcome (World × Ptr)
  | 0, _, _ => .out_of_fuel
  | _ + 1, w, none => .undef w
  | fuel + 1, w, some i =>
    match w.heap[i]? with
    | none => .undef w
    | some n =>
      if n.link = .PIPE then
        (command.run env w i).bind fun w1 =>
          match w1.heap[i]? with
          | none => .undef w1
          | some n1 => run_pipeline env fuel w1 n1.next
      else
        (command.run env w i).bind fun w1 =>
          match w1.heap[i]? with
          | none => .undef w1
          | some n1 =>
            match sys_waitpid env w1 i n1.pid.toNat with
            | none => error_msg w1
            | some (w2, st) =>
              .ok ({ w2 with heap := poke w2.heap i (fun n => { n with status := st }) },
                   some i)

/-- The two skipping loops of `run_conditional`:
`while (c && (c->link == t || c->link == TYPE_PIPE)) c = c->next;`. -/
def skip_links (w : World) (t : TokType) : Nat → Ptr → Outcome Ptr
  | 0, _ => .out_of_fuel
  | _ + 1, none => .ok none
  | fuel + 1, some i =>
    match w.heap[i]? with
    | none => .undef w
    | some n =>
      if n.link = t ∨ n.link = .PIPE then skip_links w t fuel n.next else .ok (some i)

/-- Lines 251-271 of `run_conditional`: the decision taken from the status of
the pipeline that just ran, as the new value of `c`. -/
def apply_logic (w : World) (fuel : Nat) (c : Nat) (n : command) : Outcome Ptr :=
  if WIFEXITED n.status then
    if WEXITSTATUS n.status ≠ 0 ∧ n.link = .AND then skip_links w .AND fuel (some c)
    else if WEXITSTATUS n.status = 0 ∧ n.link = .OR then skip_links w .OR fuel (some c)
    else .ok (some c)
  else
    if n.link = .AND ∧ WEXITSTATUS n.status = 0 then .exited EXIT_FAILURE w
    else if n.link = .OR ∧ WEXITSTATUS n.status ≠ 0 then .ok n.next
    else .ok (some c)

/-- The `run_conditional` of the source (lines 244-278); the result carries the
updated reference parameter `c`. -/
def run_conditional (env : Env) : Nat → World → Ptr → Outcome (World × Ptr)
  | 0, _, _ => .out_of_fuel
  | _ + 1, w, none => .ok (w, none)
  | fuel + 1, w, some i =>
    (run_pipeline env fuel w (some i)).bind fun (w1, c1) =>
      match c1 with
      | none => .undef w1
      | some j =>
        match w1.heap[j]? with
        | none => .undef w1
        | some n =>
          (apply_logic w1 fuel j n).bind fun c2 =>
            match c2 with
            | none => .undef w1
            | some k =>
              match w1.heap[k]? with
              | none => .undef w1
              | some n2 =>
                if n2.link = .SEQUENCE then .ok (w1, some k)
                else run_conditional env fuel w1 n2.next

/-- The `scan` of the source (lines 281-290). -/
def scan (w : World) : Nat → Ptr → Outcome Ptr
  | 0, _ => .out_of_fuel
  | _ + 1, none => .ok none
  | fuel + 1, some i =>
    match w.heap[i]? with
    | none => .undef w
    | some n =>
      if n.link ≠ .SEQUENCE ∧ n.link ≠ .BACKGROUND then scan w fuel n.next else .ok (some i)

/-- Lines 302-307 of `run_list`: what the process forked for a background unit
does with its copy of the state: cut the list after `c_tmp`, run the
conditional, `_exit(0)`. -/
def background_child (env : Env) (fuel : Nat) (w : World) (c : Ptr) (c_tmp : Nat) :
    Outcome World :=
  let w0 : World := { w with heap := poke w.heap c_tmp (fun n => { n with next := none }) }
  (run_conditional env fuel w0 c).bind fun (w1, _) => .exited 0 w1

/-- Lines 320-324 of `run_list`: collect the children that have terminated. -/
def reap_zombies (env : Env) (w : World) : World :=
  { w with trace := w.trace ++ (env.zombies w.clock).map Event.reap }

/-- The `run_list` of the source (lines 292-325), in the scheduling process.
The process forked for a background unit runs `background_child`. -/
def run_list (env : Env) : Nat → World → Ptr → Outcome World
  | 0, _, _ => .out_of_fuel
  | _ + 1, w, none => .ok (reap_zombies env w)
  | fuel + 1, w, some i =>
    (scan w fuel (some i)).bind fun c_tmp =>
      match c_tmp with
      | none => .undef w
      | some j =>
        match w.heap[j]? with
        | none => .undef w
        | some n =>
          if n.link = .BACKGROUND then
            match sys_fork env w (Event.fork_list i j) with
            | none => error_msg w
            | some (_, wp, _) => run_list env fuel wp n.next
          else
            (run_conditional env fuel w (some i)).bind fun (w1, c1) =>
              match c1 with
              | none => run_list env fuel w1 none
              | some k =>
                match w1.heap[k]? with
                | none => .undef w1
                | some n1 => run_list env fuel w1 n1.next

/-! ## Vocabulary of the statements -/

/-- A link-operator token: one of `;`, `&`, `|`, `&&`, `||`. -/
def is_link (t : Token) : Bool :=
  match t with
  | .word _ => false
  | .redirect _ => false
  | _ => true

/-- Two link operators stand next to each other somewhere in the sequence. -/
def adj_links : List Token → Bool
  | a :: b :: rest => (is_link a && is_link b) || adj_links (b :: rest)
  | _ => false

/-- An outside world in which every system call succeeds, every process ends
with the wait status `st` gives its pid, and every directory, file and program
exists. -/
def calm_env (st : Nat → Nat) : Env :=
  { fails := fun _ => false, wstatus := st, chdir := fun _ p => some p,
    can_open := fun _ _ => true, can_exec := fun _ => true, zombies := fun _ => [] }

/-- The flags of every `open` of `path` in a log. -/
def opened_with (t : List Event) (path : String) : List Nat :=
  t.filterMap fun e =>
    match e with
    | .open_ p flags _ => if p = path then some flags else none
    | _ => none

/-- The spec's reading of graph building: the words split at the link
operators, each group with the type of the operator that ended it; a last
group that no operator ends gets `SEQUENCE`.  `acc` holds the words of the
group being collected. -/
def split_at_ops : List String → List Token → List (List String × TokType)
  | acc, [] => if acc = [] then [] else [(acc, .SEQUENCE)]
  | acc, .word s :: rest => split_at_ops (acc ++ [s]) rest
  | acc, t :: rest => (acc, t.type) :: split_at_ops [] rest

/-- The node expected at position `i` of a chain of `len` groups. -/
def group_node (len i : Nat) (g : List String × TokType) : command :=
  { args := g.1, link := g.2,
    prev := if i = 0 then none else some (i - 1),
    next := if i + 1 < len then some (i + 1) else none }

/-- The chain expected for a list of groups. -/
def chain_of (gs : List (List String × TokType)) : List command :=
  gs.enum.map fun p => group_node gs.length p.1 p.2

/-- Only words and link operators occur, and every link operator directly
follows a word; the flag says whether the token before the list was a word. -/
def ops_follow_words : Bool → List Token → Bool
  | _, [] => true
  | _, .word _ :: rest => ops_follow_words true rest
  | b, t :: rest => is_link t && b && ops_follow_words false rest

/-- A word token. -/
def is_word (t : Token) : Bool :=
  match t with
  | .word _ => true
  | _ => false

/-- The fork and wait events of a log, in order. -/
def procs (t : List Event) : List Event :=
  t.filter fun e =>
    match e with
    | .fork _ _ => true
    | .waitpid _ _ _ => true
    | _ => false

/-- The nodes launched (`fork` in `command::run`) in a log, in order. -/
def launches (t : List Event) : List Nat :=
  t.filterMap fun e =>
    match e with
    | .fork n _ => some n
    | _ => none

/-- The waits (`waitpid` in `run_pipeline`) of a log, in order, as pairs of the
node waited for and the status obtained. -/
def waits (t : List Event) : List (Nat × Nat) :=
  t.filterMap fun e =>
    match e with
    | .waitpid n _ st => some (n, st)
    | _ => none

/-- A node with the fields that execution writes (`pid`, `status`, `pfd`)
blanked: what parsing fixed. -/
def command.shape (n : command) : command :=
  { n with pid := -1, status := 0, pfd := none }

/-- The state `w1` comes from `w` by system calls whose fork and wait events
are `P`: the parsed part of every node is as before, the log has grown, and the
nodes outside `touched` are exactly as before. -/
def Did (w w1 : World) (P : List Event) (touched : Nat → Prop) : Prop :=
  w1.heap.map command.shape = w.heap.map command.shape ∧
  (∃ ev, w1.trace = w.trace ++ ev ∧ procs ev = P) ∧
  ∀ k, ¬ touched k → w1.heap[k]? = w.heap[k]?

/-- The code ends in a way that satisfies `Pok` when it returns and `Pbad` on
the state in which the process otherwise stops; running out of fuel is
admitted only under `T`. -/
def Outcome.sat {α : Type} (Pok : α → Prop) (Pbad : World → Prop) (T : Prop) :
    Outcome α → Prop
  | .ok a => Pok a
  | .exited _ w => Pbad w
  | .execd _ w => Pbad w
  | .aborted w => Pbad w
  | .undef w => Pbad w
  | .out_of_fuel => T

/-- The link of node `k` of a heap. -/
def link_at (S : List command) (k : Nat) : Option TokType := (S[k]?).map (·.link)

/-- The nodes `0 .. e` of the heap form a list in index order that ends at
node `e`: `next` of node `k < e` is node `k + 1`, `next` of node `e` is null,
and `prev` of node `k` is node `k - 1` (null for node 0). -/
def Chain (S : List command) (e : Nat) : Prop :=
  e < S.length ∧
  ∀ k n, S[k]? = some n → k ≤ e →
    n.next = (if k < e then some (k + 1) else none) ∧
    n.prev = (if k = 0 then none else some (k - 1))

/-- The status and link after which `run_conditional` skips: a normal exit with
a nonzero code before `&&`, or with code 0 before `||`. -/
def skip_cond (st : Nat) (t : TokType) : Prop :=
  WIFEXITED st = true ∧ ((WEXITSTATUS st ≠ 0 ∧ t = .AND) ∨ (WEXITSTATUS st = 0 ∧ t = .OR))

/-- The status and link after which `run_conditional` runs the next pipeline:
a normal exit with code 0 before `&&`, or with a nonzero code before `||`. -/
def next_cond (st : Nat) (t : TokType) : Prop :=
  WIFEXITED st = true ∧ ((WEXITSTATUS st = 0 ∧ t = .AND) ∨ (WEXITSTATUS st ≠ 0 ∧ t = .OR))

/-- Short-circuit, read off a log: after a wait on node `j` that meets
`skip_cond`, no node `m > j` is launched as long as every node strictly between
`j` and `m` has the link of `j` or `PIPE`, which is to say up to and including
the first node after `j` whose link is neither. -/
def Skips (S : List command) (P : List Event) : Prop :=
  ∀ j st t, (j, st) ∈ waits P → link_at S j = some t → skip_cond st t →
    ∀ m, j < m →
      (∀ q, j < q → q < m → link_at S q = some t ∨ link_at S q = some .PIPE) →
      m ∉ launches P

/-- All launches and waits of a log concern nodes `lo .. hi`. -/
def Inside (lo hi : Nat) (P : List Event) : Prop :=
  (∀ m ∈ launches P, lo ≤ m ∧ m ≤ hi) ∧ (∀ x ∈ waits P, lo ≤ x.1 ∧ x.1 ≤ hi)

/-- Where `run_conditional`, started on node `i`, leaves `c`: on the first node
from `i` on whose link is `SEQUENCE`, or on null when the chain has none. -/
def Pos (S : List command) (i e : Nat) (c : Ptr) : Prop :=
  (∀ k, c = some k → i ≤ k ∧ k ≤ e ∧ link_at S k = some .SEQUENCE ∧
    ∀ m, i ≤ m → m < k → link_at S m ≠ some .SEQUENCE) ∧
  (c = none → ∀ m, i ≤ m → m ≤ e → link_at S m ≠ some .SEQUENCE)

/-- What a node needs for `command::run` to get through its assertions and its
`cd` test: at least one argument, and a path after `cd`. -/
def Launchable (n : command) : Prop :=
  n.args ≠ [] ∧ (n.args[0]? = some "cd" → (n.args[1]?).isSome = true)

/-- The state `w1` just before `fork()` in a successful `command::run` on node
`i`, which was `n` in the state `w` at the call: a pipe was created exactly
when the link of the node is `PIPE`, from two descriptors that were not open,
and stored in the node. -/
def BeforeFork (w : World) (i : Nat) (n : command) (w1 : World) : Prop :=
  w1.last_pid = w.last_pid ∧ (∀ k, k ≠ i → w1.heap[k]? = w.heap[k]?) ∧
  ((n.link ≠ .PIPE ∧ w1.heap[i]? = some n ∧ w1.fds = w.fds) ∨
   (n.link = .PIPE ∧ ∃ r wr, w1.heap[i]? = some { n with pfd := some (r, wr) } ∧
      r ∉ w.open_fds ∧ wr ∉ w.open_fds ∧ r ≠ wr ∧
      w1.fds = w.fds ++ [(r, .pipe_read i), (wr, .pipe_write i)]))

/-- The read end of the pipe that the predecessor of `n` created, when the
predecessor's link is `PIPE`. -/
def prev_read_end (w : World) (n : command) : Option Nat :=
  match n.prev with
  | none => none
  | some p =>
    match w.heap[p]? with
    | none => none
    | some pn => if pn.link = .PIPE then pn.pfd.map (·.1) else none

/-- The read end of the pipe that node `n` holds, when its link is `PIPE`. -/
def own_read_end (n : command) : Option Nat :=
  if n.link = .PIPE then n.pfd.map (·.1) else none

/-- The predecessor of node `i` (which is `n`) is another node of the heap and,
when its link is `PIPE`, the read end of its pipe is open. -/
def PrevReady (w : World) (i : Nat) (n : command) : Prop :=
  ∀ p, n.prev = some p → p ≠ i ∧ ∃ pn, w.heap[p]? = some pn ∧
    (pn.link = .PIPE → ∃ r wr, pn.pfd = some (r, wr) ∧ r ∈ w.open_fds)

/-- The state `w1` after a successful `command::run` on node `i`, which was `n`
in the state `w` at the call. -/
def Launched (w : World) (i : Nat) (n : command) (w1 : World) : Prop :=
  w1.last_pid = w.last_pid + 1 ∧
  (∀ k, k ≠ i → w1.heap[k]? = w.heap[k]?) ∧
  ∃ n1, w1.heap[i]? = some n1 ∧ n1.shape = n.shape ∧ n1.pid = ((w.last_pid + 1 : Nat) : Int) ∧
    n1.status = n.status ∧
    (n.link = .PIPE → ∃ r wr, n1.pfd = some (r, wr) ∧ r ∉ w.open_fds) ∧
    (n.link ≠ .PIPE → n1.pfd = n.pfd) ∧
    ∀ fd, fd ∈ w1.open_fds ↔
      (fd ∈ w.open_fds ∧ some fd ≠ prev_read_end w n) ∨ some fd = own_read_end n1

/-- The state and the new value of `c` after `run_pipeline` ran the pipeline of
the nodes `i .. i + len` to its end: the forks of the nodes in order, then one
wait, on the last node, whose status is stored in that node; the descriptors
open afterwards are those open before, less the read end of a pipe from a
predecessor of node `i`. -/
def PipelineRan (env : Env) (w : World) (i len : Nat) (r : World × Ptr) : Prop :=
  r.2 = some (i + len) ∧
  Did w r.1
    ((List.range (len + 1)).map (fun d => Event.fork (i + d) (w.last_pid + 1 + d)) ++
      [Event.waitpid (i + len) (w.last_pid + 1 + len) (env.wstatus (w.last_pid + 1 + len))])
    (fun k => i ≤ k ∧ k ≤ i + len) ∧
  r.1.last_pid = w.last_pid + 1 + len ∧
  (∃ n, r.1.heap[i + len]? = some n ∧ n.status = env.wstatus (w.last_pid + 1 + len) ∧
    n.pid = ((w.last_pid + 1 + len : Nat) : Int)) ∧
  ∀ n, w.heap[i]? = some n →
    ∀ fd, fd ∈ r.1.open_fds ↔ fd ∈ w.open_fds ∧ some fd ≠ prev_read_end w n

instance (n : command) : Decidable (Launchable n) := by
  unfold Launchable
  exact inferInstance

/-- A decidable form of `Chain`. -/
def chain_ok (h : List command) (e : Nat) : Bool :=
  decide (e < h.length) &&
  (List.range (e + 1)).all fun k =>
    match h[k]? with
    | none => false
    | some n =>
      decide (n.next = (if k < e then some (k + 1) else none)) &&
      decide (n.prev = (if k = 0 then none else some (k - 1)))

/-- Running on, read off a log: after a wait on node `j` that meets
`next_cond`, every node of the pipeline that starts right after `j` is
launched. -/
def Runs (S : List command) (e : Nat) (P : List Event) : Prop :=
  ∀ j st t, (j, st) ∈ waits P → link_at S j = some t → next_cond st t →
    ∀ m, j < m → m ≤ e → (∀ q, j < q → q < m → link_at S q = some .PIPE) → m ∈ launches P

/-- What `run_conditional`, started on node `i` in state `w`, has done when it
ends in state `w1`: it ran on after every wait that asked for it, and it
launched the whole pipeline that starts at `i` if the predecessor of `i` was
ready. -/
def Live (S : List command) (e : Nat) (w : World) (i : Nat) (w1 : World) : Prop :=
  ∃ P, Did w w1 P (fun k => i ≤ k ∧ k ≤ e) ∧ Runs S e P ∧
    ((∀ n, w.heap[i]? = some n → PrevReady w i n) →
      ∀ m, i ≤ m → m ≤ e → (∀ q, i ≤ q → q < m → link_at S q = some .PIPE) → m ∈ launches P)

/-- The chain of the line `true && false && echo X`. -/
def and_line : List command :=
  [{ args := ["true"], link := .AND, next := some 1 },
   { args := ["false"], link := .AND, prev := some 0, next := some 2 },
   { args := ["echo", "X"], prev := some 1 }]

/-- The chain of the line `false || echo X`. -/
def or_line : List command :=
  [{ args := ["false"], link := .OR, next := some 1 },
   { args := ["echo", "X"], prev := some 0 }]

/-- The process of `true` (pid 1) exits with code 0, the process of `false`
(pid 2) with code 1. -/
def and_env : Env := calm_env fun p => if p = 2 then 256 else 0

/-- The process of `false` (pid 1) exits with code 1, every other with 0. -/
def or_env : Env := calm_env fun p => if p = 1 then 256 else 0

/-- The chain of the line `a & b`. -/
def bg_line : List command :=
  [{ args := ["a"], link := .BACKGROUND, next := some 1 },
   { args := ["b"], prev := some 0 }]

/-- The calls by which the child of node `n` connects its pipes (lines
149-159), read off the state `w` in which it starts: the read end of the
predecessor's pipe onto standard input, then the write end of its own pipe onto
standard output. -/
def wiring_calls (w : World) (n : command) : List Event :=
  (match prev_read_end w n with
   | some r => [.dup2 r STDIN_FILENO, .close r]
   | none => []) ++
  (if n.link = .PIPE then
     match n.pfd with
     | some (r, wr) => [.dup2 wr STDOUT_FILENO, .close wr, .close r]
     | none => []
   else [])

/-- The calls of one `redir` (lines 66-77) whose `open` returned `fd`. -/
def redir_calls (path : String) (flags data_stream fd : Nat) : List Event :=
  [.open_ path flags fd, .dup2 fd data_stream, .close fd]

/-- The chain of the line `a | b < f > g | c`. -/
def piped_line : List command :=
  [{ args := ["a"], link := .PIPE, next := some 1 },
   { args := ["b"], in_ := true, inpath := "f", out := true, outpath := "g", link := .PIPE,
     prev := some 0, next := some 2 },
   { args := ["c"], prev := some 1 }]

/-- The launching process of `piped_line` after `command::run` on node 0. -/
def piped_line_started : World :=
  { heap := [{ args := ["a"], link := .PIPE, next := some 1, pid := 1, pfd := some (3, 4) },
             { args := ["b"], in_ := true, inpath := "f", out := true, outpath := "g",
               link := .PIPE, prev := some 0, next := some 2 },
             { args := ["c"], prev := some 1 }],
    fds := [(0, .tty), (1, .tty), (2, .tty), (3, .pipe_read 0)],
    last_pid := 1, clock := 3,
    trace := [.pipe 0 3 4, .fork 0 1, .close 4] }

/-- The chain of the line `a | cd /tmp < f`. -/
def cd_piped_line : List command :=
  [{ args := ["a"], link := .PIPE, next := some 1 },
   { args := ["cd", "/tmp"], in_ := true, inpath := "f", prev := some 0 }]

/-- The chain of the line `a | cat < f`. -/
def cat_piped_line : List command :=
  [{ args := ["a"], link := .PIPE, next := some 1 },
   { args := ["cat"], in_ := true, inpath := "f", prev := some 0 }]

/-- What a logged call did to processes and descriptors; the descriptor of a
`close` is resolved to the object it referred to when it was closed. -/
inductive Step where
  | piped (node : Nat)
  | forked (node : Nat)
  | closed (obj : FileObj)
  | waited (node : Nat)
  | other
  deriving DecidableEq, Repr

/-- The descriptor table after one logged call, as the system calls of the
model change it. -/
def table_step (fds : List (Nat × FileObj)) : Event → List (Nat × FileObj)
  | .pipe node r wr => fds ++ [(r, .pipe_read node), (wr, .pipe_write node)]
  | .close fd => fds.filter (fun e => e.1 != fd)
  | .dup2 src dst =>
    match fds.lookup src with
    | some obj => if src = dst then fds else (dst, obj) :: fds.filter (fun e => e.1 != dst)
    | none => fds
  | .open_ path flags fd => fds ++ [(fd, .file path flags)]
  | _ => fds

/-- The step that one logged call makes when the descriptor table is `fds`;
`chdir` is neither a process nor a descriptor call and makes none. -/
def step_of (fds : List (Nat × FileObj)) : Event → List Step
  | .pipe node _ _ => [.piped node]
  | .fork node _ => [.forked node]
  | .close fd =>
    match fds.lookup fd with
    | some obj => [.closed obj]
    | none => [.other]
  | .waitpid node _ _ => [.waited node]
  | .chdir _ _ => []
  | _ => [.other]

/-- The steps of a log that starts with the descriptor table `fds`. -/
def story : List (Nat × FileObj) → List Event → List Step
  | _, [] => []
  | fds, e :: t => step_of fds e ++ story (table_step fds e) t

/-- What the launching process does for node `i + d` of the pipeline
`i .. i + len`: it creates the node's pipe unless the node is the last, forks,
closes the read end of the predecessor's pipe unless the node is the first, and
closes the write end of the node's pipe unless the node is the last. -/
def launch_steps (i len d : Nat) : List Step :=
  (if d < len then [Step.piped (i + d)] else []) ++ [Step.forked (i + d)] ++
  (if 0 < d then [Step.closed (.pipe_read (i + d - 1))] else []) ++
  (if d < len then [Step.closed (.pipe_write (i + d))] else [])

/-- What the launching process does for the pipeline `i .. i + len`: the steps
for each node from left to right, then the wait for the last. -/
def pipeline_steps (i len : Nat) : List Step :=
  (List.range (len + 1)).flatMap (launch_steps i len) ++ [Step.waited (i + len)]

/-- The state `w1` comes from `w` by calls whose steps are `L`, and its
descriptor table is the one these calls leave. -/
def Acts (w w1 : World) (L : List Step) : Prop :=
  ∃ ev, w1.trace = w.trace ++ ev ∧ story w.fds ev = L ∧ w1.fds = ev.foldl table_step w.fds

/-- The table entry of a read end that the launching process still holds: that
of the pipe of node `p`, as descriptor `r`. -/
def pending_entry (pend : Option (Nat × Nat)) : List (Nat × FileObj) :=
  match pend with
  | some (p, r) => [(r, .pipe_read p)]
  | none => []

/-- The step that closes the read end that the launching process still holds. -/
def pending_close (pend : Option (Nat × Nat)) : List Step :=
  match pend with
  | some (p, _) => [.closed (.pipe_read p)]
  | none => []

/-- The chain of the line `a | b | c`. -/
def abc_line : List command :=
  [{ args := ["a"], link := .PIPE, next := some 1 },
   { args := ["b"], link := .PIPE, prev := some 0, next := some 2 },
   { args := ["c"], prev := some 1 }]

/-! ## Theorems -/

/-! ### parse_line: empty commands (C8) -/

theorem adj_links_of_append (pre post : List Token) (a b : Token)
    (ha : is_link a = true) (hb : is_link b = true) :
    adj_links (pre ++ a :: b :: post) = true := by
  induction pre with
  | nil => simp [adj_links, ha, hb]
  | cons x pre ih =>
    cases pre with
    | nil =>
      simp only [List.cons_append, List.nil_append] at ih ⊢
      rw [adj_links, ih]; simp
    | cons y pre =>
      simp only [List.cons_append] at ih ⊢
      rw [adj_links, ih]; simp

theorem adj_links_tail (x : Token) (l : List Token) (hx : is_link x = false)
    (h : adj_links (x :: l) = true) : adj_links l = true := by
  cases l with
  | nil => simp [adj_links] at h
  | cons y l => simpa [adj_links, hx] using h

theorem redirect_if_shape (op : String) (set : command → String → command)
    (h : List command) (c : Nat) (it : List Token) (h1 : List command) (it1 : List Token)
    (hop : op = "<" ∨ op = ">" ∨ op = "2>")
    (hr : redirect_if op set h c it = some (h1, it1)) :
    it1.length ≤ it.length ∧ it1 ≠ [] ∧ (adj_links it = true → adj_links it1 = true) := by
  cases it with
  | nil => simp [redirect_if] at hr
  | cons t rest =>
    by_cases hstr : t.str = op
    · cases rest with
      | nil => simp [redirect_if, hstr] at hr
      | cons p rest2 =>
        simp only [redirect_if, hstr, if_true, Option.some.injEq, Prod.mk.injEq] at hr
        obtain ⟨_, rfl⟩ := hr
        refine ⟨by simp, by simp, ?_⟩
        have hx : is_link t = false := by
          cases t <;> simp [is_link, Token.str] at hstr ⊢ <;>
            (rcases hop with rfl | rfl | rfl <;> simp at hstr)
        exact adj_links_tail t _ hx
    · simp only [redirect_if, hstr, if_false, Option.some.injEq, Prod.mk.injEq] at hr
      obtain ⟨_, rfl⟩ := hr
      exact ⟨le_refl _, by simp, fun x => x⟩

theorem parse_loop_empty_command (fuel : Nat) :
    ∀ (st : ParseState) (it : List Token), it.length ≤ fuel →
      ((st.ccur = none ∧ ∃ t rest, it = t :: rest ∧ is_link t = true) ∨ adj_links it = true) →
      parse_loop fuel st it = .assert_failed ∨ parse_loop fuel st it = .past_end := by
  induction fuel with
  | zero =>
    intro st it hlen hbad
    cases it with
    | nil => rcases hbad with ⟨_, t, rest, h, _⟩ | h <;> simp [adj_links] at h
    | cons t rest => simp at hlen
  | succ fuel ih =>
    intro st it hlen hbad
    cases it with
    | nil => rcases hbad with ⟨_, t, rest, h, _⟩ | h <;> simp [adj_links] at h
    | cons t rest =>
      have hrest : rest.length ≤ fuel := by simpa using hlen
      -- what the rest of the input inherits after a link operator was consumed
      have hafter_link : is_link t = true → adj_links (t :: rest) = true →
          (∃ u rest2, rest = u :: rest2 ∧ is_link u = true) ∨ adj_links rest = true := by
        intro ht hadj
        cases rest with
        | nil => simp [adj_links] at hadj
        | cons u rest2 =>
          simp only [adj_links, ht, Bool.true_and, Bool.or_eq_true] at hadj
          rcases hadj with hu | hadj
          · exact Or.inl ⟨u, rest2, rfl, hu⟩
          · exact Or.inr hadj
      have link_case : is_link t = true →
          (match st.ccur with
            | none => ParseResult.assert_failed
            | some c =>
              parse_loop fuel
                { st with heap := poke st.heap c (fun n => { n with link := t.type }),
                          clast := some c, ccur := none }
                rest) = .assert_failed ∨
          (match st.ccur with
            | none => ParseResult.assert_failed
            | some c =>
              parse_loop fuel
                { st with heap := poke st.heap c (fun n => { n with link := t.type }),
                          clast := some c, ccur := none }
                rest) = .past_end := by
        intro ht
        cases hc : st.ccur with
        | none => simp
        | some c =>
          simp only
          apply ih _ _ hrest
          rcases hbad with ⟨hnone, _⟩ | hadj
          · simp [hc] at hnone
          · rcases hafter_link ht hadj with h | h
            · exact Or.inl ⟨rfl, h⟩
            · exact Or.inr h
      cases t with
      | word s =>
        have hadj : adj_links rest = true := by
          rcases hbad with ⟨_, t, rest2, h, ht⟩ | h
          · simp only [List.cons.injEq] at h
            obtain ⟨rfl, _⟩ := h
            simp [is_link] at ht
          · exact adj_links_tail _ _ (by simp [is_link]) h
        simp only [parse_loop, Token.type]
        split
        · exact Or.inl rfl
        · exact ih _ _ hrest (Or.inr hadj)
      | redirect s =>
        have hadj : adj_links (Token.redirect s :: rest) = true := by
          rcases hbad with ⟨_, t, rest2, h, ht⟩ | h
          · simp only [List.cons.injEq] at h
            obtain ⟨rfl, _⟩ := h
            simp [is_link] at ht
          · exact h
        simp only [parse_loop, Token.type]
        cases hc : st.ccur with
        | none => simp
        | some c =>
          simp only
          split
          · exact Or.inr rfl
          · rename_i h1 it1 e1
            have s1 := redirect_if_shape _ _ _ _ _ _ _ (Or.inl rfl) e1
            split
            · exact Or.inr rfl
            · rename_i h2 it2 e2
              have s2 := redirect_if_shape _ _ _ _ _ _ _ (Or.inr (Or.inl rfl)) e2
              split
              · exact Or.inr rfl
              · rename_i h3 it3 e3
                have s3 := redirect_if_shape _ _ _ _ _ _ _ (Or.inr (Or.inr rfl)) e3
                split
                · exact Or.inr rfl
                · rename_i u rest3
                  split
                  · rename_i hu
                    have hlen3 : rest3.length ≤ fuel := by
                      have := s1.1; have := s2.1; have := s3.1
                      simp only [List.length_cons] at *
                      omega
                    apply ih _ _ hlen3
                    refine Or.inr (adj_links_tail u _ ?_ (s3.2.2 (s2.2.2 (s1.2.2 hadj))))
                    cases u <;> simp [Token.type, is_link] at hu ⊢
                  · exact Or.inl rfl
      | sequence => simpa only [parse_loop, Token.type] using link_case rfl
      | background => simpa only [parse_loop, Token.type] using link_case rfl
      | pipe => simpa only [parse_loop, Token.type] using link_case rfl
      | and_ => simpa only [parse_loop, Token.type] using link_case rfl
      | or_ => simpa only [parse_loop, Token.type] using link_case rfl

/-- C8: a link operator that is the first token, or that directly follows
another link operator, makes `parse_line` fail (an assertion aborts it, or the
iterator runs off the input) instead of returning a chain; the empty token
sequence is accepted and yields the empty chain. -/
theorem parse_line_rejects_empty_command :
    (∀ toks : List Token,
      ((∃ t rest, toks = t :: rest ∧ is_link t = true) ∨
       (∃ pre a b post, toks = pre ++ a :: b :: post ∧ is_link a = true ∧ is_link b = true)) →
      parse_line toks = .assert_failed ∨ parse_line toks = .past_end) ∧
    parse_line [] = .ok [] none := by
  refine ⟨?_, rfl⟩
  intro toks hbad
  apply parse_loop_empty_command _ _ _ (le_refl _)
  rcases hbad with h | ⟨pre, a, b, post, rfl, ha, hb⟩
  · exact Or.inl ⟨rfl, h⟩
  · exact Or.inr (adj_links_of_append pre post a b ha hb)

/-- A use of C8: the line `a ; ; b`. -/
theorem parse_line_rejects_empty_command_witness :
    parse_line [.word "a", .sequence, .sequence, .word "b"] = .assert_failed ∨
    parse_line [.word "a", .sequence, .sequence, .word "b"] = .past_end :=
  parse_line_rejects_empty_command.1 _
    (Or.inr ⟨[.word "a"], .sequence, .sequence, [.word "b"], rfl, rfl, rfl⟩)

/-! ### parse_line: graph building (C5) -/

theorem poke_getElem? (h : List command) (p : Nat) (f : command → command) (i : Nat) :
    (poke h p f)[i]? = if i = p then (h[i]?).map f else h[i]? := by
  unfold poke
  cases hp : h[p]? with
  | none =>
    by_cases hi : i = p
    · subst hi; simp [hp]
    · simp [hi]
  | some n =>
    by_cases hi : i = p
    · subst hi; simp [hp, List.getElem?_set]
      have := List.getElem?_eq_some.1 hp
      obtain ⟨hlt, _⟩ := this
      simp [hlt]
    · simp [hi, List.getElem?_set, Ne.symm hi]

theorem poke_length (h : List command) (p : Nat) (f : command → command) :
    (poke h p f).length = h.length := by
  unfold poke; cases h[p]? <;> simp

theorem chain_of_getElem? (gs : List (List String × TokType)) (i : Nat) :
    (chain_of gs)[i]? = (gs[i]?).map (group_node gs.length i) := by
  simp [chain_of, List.getElem?_map, List.getElem?_enum]
  cases gs[i]? <;> simp

theorem chain_of_length (gs : List (List String × TokType)) : (chain_of gs).length = gs.length := by
  simp [chain_of]

theorem snoc_getElem? {α : Type} (G : List α) (x : α) (i : Nat) :
    (G ++ [x])[i]? = if i < G.length then G[i]? else if i = G.length then some x else none := by
  by_cases h : i < G.length
  · simp [h, List.getElem?_append_left h]
  · have h2 : G.length ≤ i := Nat.le_of_not_lt h
    rw [List.getElem?_append_right h2]
    by_cases h3 : i = G.length
    · subst h3; simp
    · have : i - G.length ≠ 0 := by omega
      simp [h, h3]
      omega

theorem chain_of_set_link (G : List (List String × TokType)) (acc : List String) (t : TokType) :
    poke (chain_of (G ++ [(acc, TokType.SEQUENCE)])) G.length (fun n => { n with link := t })
      = chain_of (G ++ [(acc, t)]) := by
  apply List.ext_getElem?
  intro i
  simp only [poke_getElem?, chain_of_getElem?, snoc_getElem?, List.length_append,
    List.length_singleton]
  rcases Nat.lt_trichotomy i G.length with h | h | h
  · have : i ≠ G.length := by omega
    simp [h, this]
  · subst h; simp [group_node]
  · have h1 : ¬ i < G.length := by omega
    have h2 : i ≠ G.length := by omega
    simp [h1, h2]

theorem chain_of_push_arg (G : List (List String × TokType)) (acc : List String) (s : String) :
    poke (chain_of (G ++ [(acc, TokType.SEQUENCE)])) G.length
        (fun n => { n with args := n.args ++ [s] })
      = chain_of (G ++ [(acc ++ [s], TokType.SEQUENCE)]) := by
  apply List.ext_getElem?
  intro i
  simp only [poke_getElem?, chain_of_getElem?, snoc_getElem?, List.length_append,
    List.length_singleton]
  rcases Nat.lt_trichotomy i G.length with h | h | h
  · have : i ≠ G.length := by omega
    simp [h, this]
  · subst h; simp [group_node]
  · have h1 : ¬ i < G.length := by omega
    have h2 : i ≠ G.length := by omega
    simp [h1, h2]

theorem chain_of_new_node (G : List (List String × TokType)) (s : String) (hG : G ≠ []) :
    poke (poke (poke (chain_of G ++ [({} : command)]) (G.length - 1)
            (fun n => { n with next := some G.length }))
          G.length (fun n => { n with prev := some (G.length - 1) }))
        G.length (fun n => { n with args := n.args ++ [s] })
      = chain_of (G ++ [([s], TokType.SEQUENCE)]) := by
  have hpos : 0 < G.length := List.length_pos.2 hG
  apply List.ext_getElem?
  intro i
  simp only [poke_getElem?, chain_of_getElem?, snoc_getElem?, List.length_append,
    List.length_singleton, chain_of_length]
  rcases Nat.lt_trichotomy i G.length with h | h | h
  · have h0 : i ≠ G.length := by omega
    simp only [h, h0, if_true, if_false]
    by_cases h1 : i = G.length - 1
    · have : ¬ (i + 1 < G.length) := by omega
      have h3 : i + 1 < G.length + 1 := by omega
      simp only [h1, if_true]
      cases hg : G[G.length - 1]? with
      | none => simp
      | some g =>
        have e : G.length - 1 + 1 = G.length := by omega
        simp [group_node, e]
    · simp only [h1, if_false]
      cases hg : G[i]? with
      | none => simp
      | some g =>
        have : i + 1 < G.length := by omega
        have h3 : i + 1 < G.length + 1 := by omega
        simp [group_node, this, h3]
  · subst h
    have h1 : G.length ≠ G.length - 1 := by omega
    have h2 : G.length ≠ 0 := by omega
    simp [group_node, h1, h2]
  · have h1 : ¬ i < G.length := by omega
    have h2 : i ≠ G.length := by omega
    have h3 : i ≠ G.length - 1 := by omega
    simp [h1, h2, h3]

theorem parse_loop_groups (it : List Token) :
    ∀ (fuel : Nat) (G : List (List String × TokType)) (acc : List String) (st : ParseState),
      it.length ≤ fuel →
      ops_follow_words (decide (acc ≠ [])) it = true →
      st.heap = chain_of (G ++ (if acc = [] then [] else [(acc, TokType.SEQUENCE)])) →
      st.ccur = (if acc = [] then none else some G.length) →
      st.clast = (if G = [] then none else some (G.length - 1)) →
      st.chead = (if G = [] ∧ acc = [] then none else some 0) →
      parse_loop fuel st it
        = .ok (chain_of (G ++ split_at_ops acc it))
              (if G = [] ∧ acc = [] ∧ it = [] then none else some 0) := by
  induction it with
  | nil =>
    intro fuel G acc st _ _ hheap _ _ hhead
    cases fuel <;> simp [parse_loop, split_at_ops, hheap, hhead]
  | cons t rest ih =>
    intro fuel G acc st hlen hwf hheap hcur hlast hhead
    obtain ⟨heap, chead, clast, ccur⟩ := st
    simp only at hheap hcur hlast hhead
    cases fuel with
    | zero => simp at hlen
    | succ fuel =>
      have hrest : rest.length ≤ fuel := by simpa using hlen
      have link_case : is_link t = true → t.type ≠ .NORMAL → t.type ≠ .REDIRECT_OP →
          (match ccur with
            | none => ParseResult.assert_failed
            | some c =>
              parse_loop fuel
                { heap := poke heap c (fun n => { n with link := t.type }),
                  chead := chead, clast := some c, ccur := none }
                rest)
            = .ok (chain_of (G ++ (acc, t.type) :: split_at_ops [] rest)) (some 0) := by
        intro ht _ _
        have hacc : acc ≠ [] := by
          intro h0
          subst h0
          cases t <;> simp [ops_follow_words, is_link] at hwf ht
        have hwf2 : ops_follow_words false rest = true := by
          cases t <;> simp [ops_follow_words, is_link] at hwf ht <;> exact hwf.2
        simp only [hacc, if_false] at hheap hcur
        subst hcur
        simp only
        have := ih fuel (G ++ [(acc, t.type)]) [] 
          { heap := poke heap G.length (fun n => { n with link := t.type }),
            chead := chead, clast := some G.length, ccur := none } hrest
          (by simpa using hwf2)
          (by simp [hheap, chain_of_set_link])
          (by simp) (by simp) (by simp [hhead, hacc])
        simpa using this
      cases t with
      | word s =>
        have hwf2 : ops_follow_words true rest = true := by
          simpa [ops_follow_words] using hwf
        by_cases hacc : acc = []
        · subst hacc
          simp only [if_true, List.append_nil] at hheap hcur
          subst hcur
          by_cases hG : G = []
          · subst hG
            simp only [if_true] at hlast
            subst hlast
            have := ih fuel [] [s]
              { heap := poke (heap ++ [({} : command)]) heap.length
                  (fun n => { n with args := n.args ++ [s] }),
                chead := some heap.length, clast := none, ccur := some heap.length } hrest
              (by simpa using hwf2)
              (by subst hheap; simp [chain_of, poke, group_node])
              (by subst hheap; simp [chain_of]) (by simp) (by simp [hheap, chain_of])
            simpa [parse_loop, Token.type, split_at_ops, Token.str] using this
          · simp only [hG, if_false] at hlast
            subst hlast
            have hl : heap.length = G.length := by rw [hheap, chain_of_length]
            have := ih fuel G [s]
              { heap := poke (poke (poke (heap ++ [({} : command)]) (G.length - 1)
                    (fun n => { n with next := some heap.length }))
                    heap.length (fun n => { n with prev := some (G.length - 1) }))
                    heap.length (fun n => { n with args := n.args ++ [s] }),
                chead := chead, clast := some (G.length - 1), ccur := some heap.length } hrest
              (by simpa using hwf2)
              (by rw [hl, hheap]; simpa using chain_of_new_node G s hG)
              (by simp [hl]) (by simp [hG]) (by simp [hhead, hG])
            simpa [parse_loop, Token.type, split_at_ops, Token.str, hG] using this
        · simp only [hacc, if_false] at hheap hcur
          subst hcur
          have := ih fuel G (acc ++ [s])
            { heap := poke heap G.length (fun n => { n with args := n.args ++ [s] }),
              chead := chead, clast := clast, ccur := some G.length } hrest
            (by simpa using hwf2)
            (by simp [hheap, chain_of_push_arg])
            (by simp) (by simp [hlast]) (by simp [hhead, hacc])
          simpa [parse_loop, Token.type, split_at_ops, Token.str, hacc] using this
      | redirect s => simp [ops_follow_words, is_link] at hwf
      | sequence =>
        simpa [parse_loop, Token.type, split_at_ops] using link_case rfl (by decide) (by decide)
      | background =>
        simpa [parse_loop, Token.type, split_at_ops] using link_case rfl (by decide) (by decide)
      | pipe =>
        simpa [parse_loop, Token.type, split_at_ops] using link_case rfl (by decide) (by decide)
      | and_ =>
        simpa [parse_loop, Token.type, split_at_ops] using link_case rfl (by decide) (by decide)
      | or_ =>
        simpa [parse_loop, Token.type, split_at_ops] using link_case rfl (by decide) (by decide)

theorem ops_follow_words_of (toks : List Token) :
    ∀ (b : Bool),
      (∀ t ∈ toks, is_word t = true ∨ is_link t = true) →
      (∀ i t, toks[i]? = some t → is_link t = true →
        (i = 0 ∧ b = true) ∨ ∃ j s, i = j + 1 ∧ toks[j]? = some (Token.word s)) →
      ops_follow_words b toks = true := by
  induction toks with
  | nil => intro b _ _; simp [ops_follow_words]
  | cons t rest ih =>
    intro b hk hp
    have hk2 : ∀ u ∈ rest, is_word u = true ∨ is_link u = true :=
      fun u hu => hk u (List.mem_cons_of_mem _ hu)
    have hp2 : ∀ (b2 : Bool), (is_word t = true → b2 = true) →
        ∀ i u, rest[i]? = some u → is_link u = true →
        (i = 0 ∧ b2 = true) ∨ ∃ j s, i = j + 1 ∧ rest[j]? = some (Token.word s) := by
      intro b2 hb2 i u hu hl
      rcases hp (i + 1) u (by simpa using hu) hl with ⟨h0, _⟩ | ⟨j, s, hj, hw⟩
      · omega
      · have hij : j = i := by omega
        subst hij
        cases j with
        | zero =>
          left
          refine ⟨rfl, hb2 ?_⟩
          simp only [List.getElem?_cons_zero, Option.some.injEq] at hw
          subst hw; rfl
        | succ j =>
          right
          exact ⟨j, s, rfl, by simpa using hw⟩
    cases t with
    | word s =>
      simp only [ops_follow_words]
      exact ih true hk2 (hp2 true (fun _ => rfl))
    | redirect s =>
      have := hk (Token.redirect s) (List.mem_cons_self _ _)
      simp [is_word, is_link] at this
    | sequence =>
      have hb : b = true := by
        rcases hp 0 Token.sequence (by simp) rfl with ⟨_, h⟩ | ⟨j, s, hj, _⟩
        · exact h
        · omega
      simp only [ops_follow_words, is_link, hb, Bool.and_self, Bool.true_and]
      exact ih false hk2 (hp2 false (by simp [is_word]))
    | background =>
      have hb : b = true := by
        rcases hp 0 Token.background (by simp) rfl with ⟨_, h⟩ | ⟨j, s, hj, _⟩
        · exact h
        · omega
      simp only [ops_follow_words, is_link, hb, Bool.and_self, Bool.true_and]
      exact ih false hk2 (hp2 false (by simp [is_word]))
    | pipe =>
      have hb : b = true := by
        rcases hp 0 Token.pipe (by simp) rfl with ⟨_, h⟩ | ⟨j, s, hj, _⟩
        · exact h
        · omega
      simp only [ops_follow_words, is_link, hb, Bool.and_self, Bool.true_and]
      exact ih false hk2 (hp2 false (by simp [is_word]))
    | and_ =>
      have hb : b = true := by
        rcases hp 0 Token.and_ (by simp) rfl with ⟨_, h⟩ | ⟨j, s, hj, _⟩
        · exact h
        · omega
      simp only [ops_follow_words, is_link, hb, Bool.and_self, Bool.true_and]
      exact ih false hk2 (hp2 false (by simp [is_word]))
    | or_ =>
      have hb : b = true := by
        rcases hp 0 Token.or_ (by simp) rfl with ⟨_, h⟩ | ⟨j, s, hj, _⟩
        · exact h
        · omega
      simp only [ops_follow_words, is_link, hb, Bool.and_self, Bool.true_and]
      exact ih false hk2 (hp2 false (by simp [is_word]))

theorem split_at_ops_nonempty (toks : List Token) :
    ∀ (acc : List String), ops_follow_words (decide (acc ≠ [])) toks = true →
      ∀ g ∈ split_at_ops acc toks, g.1 ≠ [] := by
  induction toks with
  | nil =>
    intro acc _ g hg
    by_cases hacc : acc = []
    · simp [split_at_ops, hacc] at hg
    · simp only [split_at_ops, hacc, if_false, List.mem_singleton] at hg
      subst hg; exact hacc
  | cons t rest ih =>
    intro acc hwf g hg
    have link_case : is_link t = true →
        g ∈ (acc, t.type) :: split_at_ops [] rest → g.1 ≠ [] := by
      intro ht hg
      have hacc : acc ≠ [] := by
        intro h0
        subst h0
        cases t <;> simp [ops_follow_words, is_link] at hwf ht
      have hwf2 : ops_follow_words false rest = true := by
        cases t <;> simp [ops_follow_words, is_link] at hwf ht <;> exact hwf.2
      rcases List.mem_cons.1 hg with rfl | hg
      · exact hacc
      · exact ih [] (by simpa using hwf2) g hg
    cases t with
    | word s =>
      simp only [split_at_ops] at hg
      simp only [ops_follow_words] at hwf
      exact ih (acc ++ [s]) (by simpa using hwf) g hg
    | redirect s => simp [ops_follow_words, is_link] at hwf
    | sequence => exact link_case rfl (by simpa only [split_at_ops] using hg)
    | background => exact link_case rfl (by simpa only [split_at_ops] using hg)
    | pipe => exact link_case rfl (by simpa only [split_at_ops] using hg)
    | and_ => exact link_case rfl (by simpa only [split_at_ops] using hg)
    | or_ => exact link_case rfl (by simpa only [split_at_ops] using hg)

/-- C5: for a token sequence made only of words and link operators in which
every link operator directly follows a word, `parse_line` returns the chain of
the groups obtained by splitting the words at the operators: node `i` holds the
words of group `i` in order (never none), its link is the operator that ended
the group (`SEQUENCE` for a last group that no operator ends), its `prev` is
node `i - 1`, its `next` is node `i + 1`, and the head is node 0. -/
theorem parse_line_splits_at_operators (toks : List Token)
    (hkinds : ∀ t ∈ toks, is_word t = true ∨ is_link t = true)
    (hprev : ∀ i t, toks[i]? = some t → is_link t = true →
      ∃ j s, i = j + 1 ∧ toks[j]? = some (Token.word s)) :
    ∃ h, parse_line toks = .ok h (if toks = [] then none else some 0) ∧
      h.length = (split_at_ops [] toks).length ∧
      ∀ i g, (split_at_ops [] toks)[i]? = some g →
        ∃ n, h[i]? = some n ∧ n.args = g.1 ∧ n.args ≠ [] ∧ n.link = g.2 ∧
          n.prev = (if i = 0 then none else some (i - 1)) ∧
          n.next = (if i + 1 < h.length then some (i + 1) else none) ∧
          n.pid = -1 ∧ n.in_ = false ∧ n.out = false ∧ n.err = false := by
  have hwf : ops_follow_words false toks = true :=
    ops_follow_words_of toks false hkinds (fun i t ht hl => Or.inr (hprev i t ht hl))
  have hrun := parse_loop_groups toks toks.length [] [] {} (le_refl _) (by simpa using hwf)
    (by simp [chain_of]) (by simp) (by simp) (by simp)
  refine ⟨chain_of (split_at_ops [] toks), ?_, chain_of_length _, ?_⟩
  · simpa [parse_line] using hrun
  · intro i g hg
    refine ⟨group_node (split_at_ops [] toks).length i g, ?_, rfl, ?_, rfl, rfl, ?_, rfl, rfl, rfl, rfl⟩
    · simp [chain_of_getElem?, hg]
    · exact split_at_ops_nonempty toks [] (by simpa using hwf) g (List.getElem?_mem hg)
    · simp [group_node, chain_of_length]

/-- A use of C5: the line `a b | c`. -/
theorem parse_line_splits_at_operators_witness :
    ∃ h, parse_line [.word "a", .word "b", .pipe, .word "c"] = .ok h (some 0) ∧
      h.length = 2 ∧
      ∀ i g, (split_at_ops [] [.word "a", .word "b", .pipe, .word "c"])[i]? = some g →
        ∃ n, h[i]? = some n ∧ n.args = g.1 ∧ n.args ≠ [] ∧ n.link = g.2 ∧
          n.prev = (if i = 0 then none else some (i - 1)) ∧
          n.next = (if i + 1 < h.length then some (i + 1) else none) ∧
          n.pid = -1 ∧ n.in_ = false ∧ n.out = false ∧ n.err = false :=
  parse_line_splits_at_operators [.word "a", .word "b", .pipe, .word "c"]
    (by decide)
    (by
      intro i t ht hl
      match i, ht with
      | 0, ht => simp at ht; subst ht; simp [is_link] at hl
      | 1, ht => simp at ht; subst ht; simp [is_link] at hl
      | 2, ht => exact ⟨1, "b", rfl, rfl⟩
      | 3, ht => simp at ht; subst ht; simp [is_link] at hl
      | n + 4, ht => simp at ht)

/-! ### Evaluations at concrete inputs (C6, C7, C10, C9) -/

/-- C6, at the line `a |`: `parse_line` accepts it and returns a one-node chain
whose last link is `PIPE`, not `SEQUENCE` or `BACKGROUND`; `scan` then finds no
terminating node and `run_list` dereferences the null `c_tmp`. -/
theorem trailing_pipe_leaves_chain_open :
    parse_line [.word "a", .pipe] = .ok [{ args := ["a"], link := .PIPE }] (some 0) ∧
    scan { heap := [{ args := ["a"], link := .PIPE }] } 3 (some 0) = .ok none ∧
    run_list (calm_env fun _ => 0) 3 { heap := [{ args := ["a"], link := .PIPE }] } (some 0)
      = .undef { heap := [{ args := ["a"], link := .PIPE }] } := by
  decide

/-- C7, at the line `a < ">" x` (the path of the input redirection is the
quoted word `>`): the second `if` of the redirect case fires on the path word,
so `parse_line` records an output redirection to `x` although the command has
no output redirect operator, and `x` is not among the arguments.  At the line
`a < ">" ; b` the same `if` takes the `;` for a path and the assertion on the
token type then fails, although each redirect operator is followed by one
word. -/
theorem redirect_path_taken_for_operator :
    parse_line [.word "a", .redirect "<", .word ">", .word "x"]
      = .ok [{ args := ["a"], in_ := true, inpath := ">", out := true, outpath := "x" }]
          (some 0) ∧
    parse_line [.word "a", .redirect "<", .word ">", .sequence, .word "b"]
      = .assert_failed := by
  decide

/-- C10, at a node with an output redirection to `f` and an error redirection
to `g`: the child opens `f` with `O_CREAT | O_WRONLY`, in which the truncate
flag is not set, and `g` with `O_WRONLY | O_CREAT | O_TRUNC`. -/
theorem output_redirection_does_not_truncate :
    ((run_child (calm_env fun _ => 0)
        { heap := [{ args := ["echo", "hi"], out := true, outpath := "f",
                     err := true, errpath := "g" }] } 0 0).final id).map
      (fun w => (opened_with w.trace "f", opened_with w.trace "g"))
      = some ([O_CREAT ||| O_WRONLY], [O_WRONLY ||| O_CREAT ||| O_TRUNC]) ∧
    (O_CREAT ||| O_WRONLY) &&& O_TRUNC = 0 ∧
    (O_WRONLY ||| O_CREAT ||| O_TRUNC) &&& O_TRUNC = O_TRUNC := by
  decide

/-- C9 fails at the node `cd /tmp` launched from the directory `/` when
`/tmp` exists: when `command::run` has returned, the launching process itself
is in `/tmp`. -/
theorem cd_moves_launching_process :
    ({ heap := [{ args := ["cd", "/tmp"] }], cwd := "/" } : World).cwd = "/" ∧
    ((command.run (calm_env fun _ => 0) { heap := [{ args := ["cd", "/tmp"] }], cwd := "/" }
        0).bind fun w1 => Outcome.ok w1.cwd) = .ok "/tmp" := by
  decide

/-! ### Every way a run can end: its launches, its waits, what it leaves untouched -/

theorem Outcome.sat_bind {α β : Type} {P : α → Prop} {Q : β → Prop} {B : World → Prop}
    {T : Prop} {o : Outcome α} {f : α → Outcome β}
    (h1 : o.sat P B T) (h2 : ∀ a, P a → (f a).sat Q B T) : (o.bind f).sat Q B T := by
  cases o <;> simp_all [Outcome.sat, Outcome.bind]

theorem Outcome.sat_mono {α : Type} {P1 P2 : α → Prop} {B1 B2 : World → Prop} {T1 T2 : Prop}
    {o : Outcome α} (h : o.sat P1 B1 T1) (hp : ∀ a, P1 a → P2 a) (hb : ∀ w, B1 w → B2 w)
    (ht : T1 → T2) : o.sat P2 B2 T2 := by
  cases o <;> simp_all [Outcome.sat]

theorem procs_append (a b : List Event) : procs (a ++ b) = procs a ++ procs b := by
  simp [procs]

theorem launches_append (a b : List Event) : launches (a ++ b) = launches a ++ launches b := by
  simp [launches]

theorem waits_append (a b : List Event) : waits (a ++ b) = waits a ++ waits b := by
  simp [waits]

theorem Did.refl (w : World) (t : Nat → Prop) : Did w w [] t :=
  ⟨rfl, ⟨[], by simp, rfl⟩, fun _ _ => rfl⟩

theorem Did.trans {w w1 w2 : World} {P1 P2 : List Event} {t1 t2 t : Nat → Prop}
    (h1 : Did w w1 P1 t1) (h2 : Did w1 w2 P2 t2)
    (ht1 : ∀ k, t1 k → t k) (ht2 : ∀ k, t2 k → t k) : Did w w2 (P1 ++ P2) t := by
  obtain ⟨a1, ⟨e1, b1, c1⟩, d1⟩ := h1
  obtain ⟨a2, ⟨e2, b2, c2⟩, d2⟩ := h2
  refine ⟨a2.trans a1, ⟨e1 ++ e2, by rw [b2, b1, List.append_assoc], ?_⟩, ?_⟩
  · rw [procs_append, c1, c2]
  · intro k hk
    rw [d2 k (fun h => hk (ht2 k h)), d1 k (fun h => hk (ht1 k h))]

theorem Did.mono {w w1 : World} {P : List Event} {t1 t : Nat → Prop}
    (h1 : Did w w1 P t1) (ht : ∀ k, t1 k → t k) : Did w w1 P t := by
  have := Did.trans h1 (Did.refl w1 t) ht (fun _ h => h)
  simpa using this

theorem poke_shape (h : List command) (p : Nat) (f : command → command)
    (hf : ∀ n, (f n).shape = n.shape) :
    (poke h p f).map command.shape = h.map command.shape := by
  apply List.ext_getElem?
  intro i
  simp only [List.getElem?_map, poke_getElem?]
  by_cases hi : i = p
  · simp only [hi, if_true]
    cases h[p]? <;> simp [hf]
  · simp [hi]

/-- A write to node `p` that keeps its parsed part. -/
theorem did_poke (w : World) (p : Nat) (f : command → command)
    (hf : ∀ n, (f n).shape = n.shape) (t : Nat → Prop) (ht : t p) :
    Did w { w with heap := poke w.heap p f } [] t := by
  refine ⟨poke_shape _ _ _ hf, ⟨[], by simp, rfl⟩, ?_⟩
  intro k hk
  have : k ≠ p := fun h => hk (h ▸ ht)
  simp [poke_getElem?, this]

theorem sys_close_did (env : Env) (w w1 : World) (fd : Nat) (t : Nat → Prop)
    (h : sys_close env w fd = some w1) : Did w w1 [] t ∧ w1.cwd = w.cwd := by
  unfold sys_close at h
  split at h
  · simp at h
  · split at h
    · simp only [Option.some.injEq] at h
      subst h
      exact ⟨⟨rfl, ⟨[.close fd], rfl, rfl⟩, fun _ _ => rfl⟩, rfl⟩
    · simp at h

theorem sys_pipe_did (env : Env) (w w1 : World) (node : Nat) (t : Nat → Prop) (ht : t node)
    (h : sys_pipe env w node = some w1) : Did w w1 [] t ∧ w1.cwd = w.cwd := by
  unfold sys_pipe at h
  split at h
  · simp at h
  · simp only [Option.some.injEq] at h
    subst h
    refine ⟨⟨poke_shape _ _ _ (fun n => rfl), ⟨_, rfl, rfl⟩, ?_⟩, rfl⟩
    intro k hk
    have : k ≠ node := fun h => hk (h ▸ ht)
    simp [poke_getElem?, this]

theorem sys_chdir_did (env : Env) (w : World) (path : String) (t : Nat → Prop) :
    Did w (sys_chdir env w path).1 [] t := by
  unfold sys_chdir
  split
  · exact ⟨rfl, ⟨_, rfl, rfl⟩, fun _ _ => rfl⟩
  · exact ⟨rfl, ⟨_, rfl, rfl⟩, fun _ _ => rfl⟩

theorem sys_fork_did (env : Env) (w wp wc : World) (node pid : Nat) (t : Nat → Prop)
    (h : sys_fork env w (Event.fork node) = some (pid, wp, wc)) :
    Did w wp [.fork node pid] t ∧ wp.cwd = w.cwd ∧ pid = w.last_pid + 1 ∧
      wc = { w with last_pid := pid, clock := w.clock + 1, trace := [] } := by
  unfold sys_fork at h
  split at h
  · simp at h
  · simp only [Option.some.injEq, Prod.mk.injEq] at h
    obtain ⟨rfl, rfl, rfl⟩ := h
    exact ⟨⟨rfl, ⟨_, rfl, rfl⟩, fun _ _ => rfl⟩, rfl, rfl, rfl⟩

theorem sys_waitpid_did (env : Env) (w w1 : World) (node pid st : Nat) (t : Nat → Prop)
    (h : sys_waitpid env w node pid = some (w1, st)) :
    Did w w1 [.waitpid node pid st] t ∧ st = env.wstatus pid := by
  unfold sys_waitpid at h
  split at h
  · simp at h
  · simp only [Option.some.injEq, Prod.mk.injEq] at h
    obtain ⟨rfl, rfl⟩ := h
    exact ⟨⟨rfl, ⟨_, rfl, rfl⟩, fun _ _ => rfl⟩, rfl⟩

/-- Every way `run_parent` can end: no fork, no wait, only node `this` is
written, and the working directory stays. -/
theorem run_parent_did (env : Env) (w : World) (this pid : Nat) :
    (run_parent env w this pid).sat (fun w1 => Did w w1 [] (· = this) ∧ w1.cwd = w.cwd)
      (fun w1 => Did w w1 [] (· = this) ∧ w1.cwd = w.cwd) False := by
  have h0 : Did w { w with heap := poke w.heap this (fun n => { n with pid := (pid : Int) }) }
      [] (· = this) ∧
      ({ w with heap := poke w.heap this (fun n => { n with pid := (pid : Int) }) } : World).cwd
        = w.cwd :=
    ⟨did_poke w this (fun n => { n with pid := (pid : Int) }) (fun n => rfl) _ rfl, rfl⟩
  have step : ∀ {w1 w2 : World} {fd : Nat}, (Did w w1 [] (· = this) ∧ w1.cwd = w.cwd) →
      sys_close env w1 fd = some w2 → Did w w2 [] (· = this) ∧ w2.cwd = w.cwd := by
    intro w1 w2 fd h1 hc
    have hcl := sys_close_did env w1 w2 fd (· = this) hc
    exact ⟨by simpa using h1.1.trans hcl.1 (fun _ h => h) (fun _ h => h), hcl.2.trans h1.2⟩
  unfold run_parent
  simp only
  split
  · exact h0
  · rename_i n hn
    apply Outcome.sat_bind (P := fun w1 => Did w w1 [] (· = this) ∧ w1.cwd = w.cwd)
    · split
      · exact h0
      · split
        · exact h0
        · split
          · split
            · exact h0
            · split
              · exact h0
              · rename_i w1 hc
                exact step h0 hc
          · exact h0
    · intro w1 hw1
      split
      · split
        · exact hw1
        · split
          · exact hw1
          · rename_i w2 hc
            exact step hw1 hc
      · exact hw1

/-- Every way the code of `command::run` before `fork()` can end: no fork, no
wait, only node `this` is written. -/
theorem run_before_fork_did (env : Env) (w : World) (this : Nat) :
    (run_before_fork env w this).sat (fun r => Did w r.1 [] (· = this))
      (fun w1 => Did w w1 [] (· = this)) False := by
  unfold run_before_fork
  split
  · exact Did.refl _ _
  · rename_i n hn
    split
    · exact Did.refl _ _
    · split
      · exact Did.refl _ _
      · apply Outcome.sat_bind (P := fun w1 => Did w w1 [] (· = this))
        · split
          · split
            · exact Did.refl _ _
            · rename_i w1 hp
              exact (sys_pipe_did env w w1 this (· = this) rfl hp).1
          · exact Did.refl _ _
        · intro w1 hw1
          split
          · split
            · exact hw1
            · simpa using hw1.trans (sys_chdir_did env w1 _ (· = this)) (fun _ h => h)
                (fun _ h => h)
          · exact hw1

/-- Every way `command::run` can end in the launching process: it returns only
after exactly one fork, for node `this`; it makes no wait; it writes only node
`this`. -/
theorem run_did (env : Env) (w : World) (this : Nat) :
    (command.run env w this).sat
      (fun w1 => ∃ pid, Did w w1 [.fork this pid] (· = this))
      (fun w1 => Did w w1 [] (· = this) ∨ ∃ pid, Did w w1 [.fork this pid] (· = this))
      False := by
  unfold command.run
  apply Outcome.sat_bind (P := fun r => Did w r.1 [] (· = this))
  · exact Outcome.sat_mono (run_before_fork_did env w this) (fun _ h => h)
      (fun _ h => Or.inl h) (fun h => h)
  · intro r hr
    obtain ⟨w1, m⟩ := r
    simp only at hr ⊢
    split
    · exact Or.inl hr
    · rename_i pid wp wc hf
      have hfk := (sys_fork_did env w1 wp wc this pid (· = this) hf).1
      have h2 : Did w wp [.fork this pid] (· = this) := by
        simpa using hr.trans hfk (fun _ h => h) (fun _ h => h)
      refine Outcome.sat_mono (run_parent_did env wp this pid) ?_ ?_ (fun h => h)
      · intro w2 hw2
        exact ⟨pid, by simpa using h2.trans hw2.1 (fun _ h => h) (fun _ h => h)⟩
      · intro w2 hw2
        exact Or.inr ⟨pid, by simpa using h2.trans hw2.1 (fun _ h => h) (fun _ h => h)⟩

theorem shape_lookup {h S : List command} {k : Nat} {n : command}
    (hS : h.map command.shape = S) (hn : h[k]? = some n) : S[k]? = some n.shape := by
  rw [← hS, List.getElem?_map, hn]; rfl

theorem shape_link_at {h S : List command} {k : Nat} {n : command}
    (hS : h.map command.shape = S) (hn : h[k]? = some n) : link_at S k = some n.link := by
  rw [link_at, shape_lookup hS hn]; rfl

theorem chain_next {h S : List command} {k e : Nat} {n : command}
    (hch : Chain S e) (hS : h.map command.shape = S) (hn : h[k]? = some n) (hk : k ≤ e) :
    n.next = (if k < e then some (k + 1) else none) :=
  (hch.2 k n.shape (shape_lookup hS hn) hk).1

theorem chain_prev {h S : List command} {k e : Nat} {n : command}
    (hch : Chain S e) (hS : h.map command.shape = S) (hn : h[k]? = some n) (hk : k ≤ e) :
    n.prev = (if k = 0 then none else some (k - 1)) :=
  (hch.2 k n.shape (shape_lookup hS hn) hk).2

theorem launches_range_cons (i len : Nat) (pid : Nat) (P : List Event)
    (h : launches P = List.range' (i + 1) len) :
    launches (Event.fork i pid :: P) = List.range' i (len + 1) := by
  simp [launches, List.range'_succ] at h ⊢
  exact h

/-- Every way `run_pipeline` can end when started on node `i` of a chain
ending at `e`. -/
theorem run_pipeline_did (env : Env) (S : List command) (e : Nat) (hch : Chain S e)
    (fuel : Nat) :
    ∀ (w : World) (i : Nat), w.heap.map command.shape = S → i ≤ e →
      (run_pipeline env fuel w (some i)).sat
        (fun r => ∃ j pid st P, r.2 = some j ∧ i ≤ j ∧ j ≤ e ∧
          (∀ k, i ≤ k → k < j → link_at S k = some .PIPE) ∧ link_at S j ≠ some .PIPE ∧
          Did w r.1 (P ++ [.waitpid j pid st]) (fun k => i ≤ k ∧ k ≤ j) ∧
          launches P = List.range' i (j - i + 1) ∧ waits P = [] ∧
          ∃ n, r.1.heap[j]? = some n ∧ n.status = st)
        (fun w1 => ∃ P, Did w w1 P (fun k => i ≤ k ∧ k ≤ e) ∧ waits P = [] ∧
          ∀ m ∈ launches P, i ≤ m ∧ m ≤ e)
        (fuel < e - i + 2) := by
  induction fuel with
  | zero =>
    intro w i _ _
    simp [run_pipeline, Outcome.sat]
  | succ fuel ih =>
    intro w i hS hi
    have bad0 : ∃ P, Did w w P (fun k => i ≤ k ∧ k ≤ e) ∧ waits P = [] ∧
        ∀ m ∈ launches P, i ≤ m ∧ m ≤ e := ⟨[], Did.refl _ _, rfl, by simp [launches]⟩
    have bad1 : ∀ w1, (Did w w1 [] (· = i) ∨ ∃ pid, Did w w1 [.fork i pid] (· = i)) →
        ∃ P, Did w w1 P (fun k => i ≤ k ∧ k ≤ e) ∧ waits P = [] ∧
          ∀ m ∈ launches P, i ≤ m ∧ m ≤ e := by
      intro w1 h
      rcases h with h | ⟨pid, h⟩
      · exact ⟨[], h.mono (fun k hk => by subst hk; exact ⟨le_refl _, hi⟩), rfl,
          by simp [launches]⟩
      · exact ⟨_, h.mono (fun k hk => by subst hk; exact ⟨le_refl _, hi⟩), rfl,
          by simp [launches, hi]⟩
    unfold run_pipeline
    split
    · exact bad0
    · rename_i n hn
      have hlink := shape_link_at hS hn
      split
      · rename_i hpipe
        apply Outcome.sat_bind (Outcome.sat_mono (run_did env w i) (fun _ h => h) bad1
          (fun h => h.elim))
        intro w1 hw1
        obtain ⟨pid, hd⟩ := hw1
        have hS1 : w1.heap.map command.shape = S := hd.1.trans hS
        split
        · exact bad1 _ (Or.inr ⟨pid, hd⟩)
        · rename_i n1 hn1
          rw [chain_next hch hS1 hn1 hi]
          by_cases hlt : i < e
          · simp only [hlt, if_true]
            refine Outcome.sat_mono (ih w1 (i + 1) hS1 hlt) ?_ ?_ (by omega)
            · rintro ⟨w2, c2⟩ ⟨j, pid2, st, P, hc, hij, hje, hpipes, hlast, hd2, hl, hw, hst⟩
              refine ⟨j, pid2, st, Event.fork i pid :: P, hc, by omega, hje, ?_, hlast, ?_, ?_,
                ?_, hst⟩
              · intro k hk1 hk2
                by_cases hki : k = i
                · subst hki; rw [hlink, hpipe]
                · exact hpipes k (by omega) hk2
              · have := hd.trans hd2 (t := fun k => i ≤ k ∧ k ≤ j)
                  (fun k hk => by subst hk; exact ⟨le_refl _, by omega⟩)
                  (fun k hk => ⟨by omega, hk.2⟩)
                simpa using this
              · have e1 : j - i + 1 = (j - (i + 1) + 1) + 1 := by omega
                rw [e1]
                exact launches_range_cons i _ pid P hl
              · simpa [waits] using hw
            · rintro w2 ⟨P, hd2, hw, hl⟩
              refine ⟨Event.fork i pid :: P, ?_, ?_, ?_⟩
              · have := hd.trans hd2 (t := fun k => i ≤ k ∧ k ≤ e)
                  (fun k hk => by subst hk; exact ⟨le_refl _, hi⟩)
                  (fun k hk => ⟨by omega, hk.2⟩)
                simpa using this
              · simpa [waits] using hw
              · intro m hm
                simp only [launches, List.filterMap_cons, List.mem_cons] at hm
                rcases hm with rfl | hm
                · exact ⟨le_refl _, hi⟩
                · have := hl m hm
                  omega
          · simp only [hlt, if_false]
            cases fuel with
            | zero => simp [run_pipeline, Outcome.sat]
            | succ f =>
              simp only [run_pipeline, Outcome.sat]
              exact bad1 _ (Or.inr ⟨pid, hd⟩)
      · rename_i hnp
        apply Outcome.sat_bind (Outcome.sat_mono (run_did env w i) (fun _ h => h) bad1
          (fun h => h.elim))
        intro w1 hw1
        obtain ⟨pid, hd⟩ := hw1
        split
        · exact bad1 _ (Or.inr ⟨pid, hd⟩)
        · rename_i n1 hn1
          split
          · exact bad1 _ (Or.inr ⟨pid, hd⟩)
          · rename_i w2 st hwt
            have hwd := (sys_waitpid_did env w1 w2 i _ st (· = i) hwt).1
            have hpk := did_poke w2 i (fun n => { n with status := st }) (fun n => rfl)
              (· = i) rfl
            have h2 : w2.heap[i]? = some n1 := by
              have := hwd.2.2
              unfold sys_waitpid at hwt
              split at hwt
              · simp at hwt
              · simp only [Option.some.injEq, Prod.mk.injEq] at hwt
                obtain ⟨rfl, _⟩ := hwt
                exact hn1
            refine ⟨i, n1.pid.toNat, st, [Event.fork i pid], rfl, le_refl _, hi, ?_, ?_, ?_, ?_, rfl,
              ?_⟩
            · intro k hk1 hk2; omega
            · rw [hlink]; simpa using hnp
            · have := (hd.trans hwd (t := (· = i)) (fun _ h => h) (fun _ h => h)).trans hpk
                (t := fun k => i ≤ k ∧ k ≤ i) (fun k hk => by subst hk; simp)
                (fun k hk => by subst hk; simp)
              simpa using this
            · simp [launches]
            · exact ⟨{ n1 with status := st }, by simp [poke_getElem?, h2], rfl⟩

theorem chain_lookup {h S : List command} {k e : Nat} (hch : Chain S e)
    (hS : h.map command.shape = S) (hk : k ≤ e) : ∃ n, h[k]? = some n := by
  have hlen : k < h.length := by
    have := hch.1
    rw [← hS, List.length_map] at this
    omega
  exact ⟨h[k], List.getElem?_eq_getElem hlen⟩

/-- Every way a skipping loop of `run_conditional` can end when started on node
`j` of a chain ending at `e`: on the first node from `j` on whose link is
neither `t` nor `PIPE`, or on null when there is none. -/
theorem skip_links_spec (S : List command) (e : Nat) (hch : Chain S e) (t : TokType)
    (w : World) (hS : w.heap.map command.shape = S) (fuel : Nat) :
    ∀ (j : Nat), j ≤ e →
      (skip_links w t fuel (some j)).sat
        (fun c =>
          (∀ k, c = some k → j ≤ k ∧ k ≤ e ∧ link_at S k ≠ some t ∧ link_at S k ≠ some .PIPE ∧
            ∀ m, j ≤ m → m < k → link_at S m = some t ∨ link_at S m = some .PIPE) ∧
          (c = none → ∀ m, j ≤ m → m ≤ e → link_at S m = some t ∨ link_at S m = some .PIPE))
        (fun _ => False)
        (fuel < e - j + 2) := by
  induction fuel with
  | zero => intro j _; simp [skip_links, Outcome.sat]
  | succ fuel ih =>
    intro j hj
    unfold skip_links
    split
    · rename_i hnone
      obtain ⟨n, hn⟩ := chain_lookup hch hS hj
      rw [hn] at hnone
      simp at hnone
    · rename_i n hn
      have hlink := shape_link_at hS hn
      split
      · rename_i hm
        rw [chain_next hch hS hn hj]
        by_cases hlt : j < e
        · simp only [hlt, if_true]
          refine Outcome.sat_mono (ih (j + 1) hlt) ?_ (fun _ h => h) (by omega)
          rintro c ⟨h1, h2⟩
          have hjm : link_at S j = some t ∨ link_at S j = some .PIPE := by
            rw [hlink]; rcases hm with h | h <;> simp [h]
          constructor
          · intro k hk
            obtain ⟨a, b, c1, c2, d⟩ := h1 k hk
            refine ⟨by omega, b, c1, c2, ?_⟩
            intro m hm1 hm2
            by_cases hmj : m = j
            · subst hmj; exact hjm
            · exact d m (by omega) hm2
          · intro hc m hm1 hm2
            by_cases hmj : m = j
            · subst hmj; exact hjm
            · exact h2 hc m (by omega) hm2
        · simp only [hlt, if_false]
          have hje : j = e := by omega
          cases fuel with
          | zero => simp [skip_links, Outcome.sat]
          | succ f =>
            simp only [skip_links, Outcome.sat]
            refine ⟨fun k hk => by simp at hk, ?_⟩
            intro _ m hm1 hm2
            have : m = j := by omega
            subst this
            rw [hlink]; rcases hm with h | h <;> simp [h]
      · rename_i hm
        simp only [Outcome.sat]
        refine ⟨?_, fun h => by simp at h⟩
        intro k hk
        simp only [Option.some.injEq] at hk
        subst hk
        refine ⟨le_refl _, hj, ?_, ?_, fun m h1 h2 => by omega⟩
        · rw [hlink]; intro h; simp only [Option.some.injEq] at h; exact hm (Or.inl h)
        · rw [hlink]; intro h; simp only [Option.some.injEq] at h; exact hm (Or.inr h)

theorem apply_logic_spec (S : List command) (e : Nat) (hch : Chain S e)
    (w : World) (hS : w.heap.map command.shape = S) (fuel j : Nat) (n : command)
    (hn : w.heap[j]? = some n) (hj : j ≤ e) :
    (apply_logic w fuel j n).sat
      (fun c2 =>
        (∀ k, c2 = some k → j ≤ k ∧ k ≤ e ∧
          (∀ m, j ≤ m → m < k → link_at S m ≠ some .SEQUENCE) ∧
          (skip_cond n.status n.link → ∀ m, j < m →
            (∀ q, j < q → q < m → link_at S q = some n.link ∨ link_at S q = some .PIPE) →
            m ≤ k) ∧
          (next_cond n.status n.link → k = j)) ∧
        (c2 = none → (∀ m, j ≤ m → m ≤ e → link_at S m ≠ some .SEQUENCE) ∧
          ¬ next_cond n.status n.link))
      (fun w1 => w1 = w ∧ ¬ next_cond n.status n.link)
      (fuel < e - j + 2) := by
  have hlink := shape_link_at hS hn
  -- the outcome of a skipping loop for the link `t` of node `j`
  have skipping : ∀ t : TokType, n.link = t → (t = .AND ∨ t = .OR) →
      (skip_cond n.status n.link → True) →
      (next_cond n.status n.link → False) →
      (skip_links w t fuel (some j)).sat
        (fun c2 =>
          (∀ k, c2 = some k → j ≤ k ∧ k ≤ e ∧
            (∀ m, j ≤ m → m < k → link_at S m ≠ some .SEQUENCE) ∧
            (skip_cond n.status n.link → ∀ m, j < m →
              (∀ q, j < q → q < m → link_at S q = some n.link ∨ link_at S q = some .PIPE) →
              m ≤ k) ∧
            (next_cond n.status n.link → k = j)) ∧
          (c2 = none → (∀ m, j ≤ m → m ≤ e → link_at S m ≠ some .SEQUENCE) ∧
            ¬ next_cond n.status n.link))
        (fun w1 => w1 = w ∧ ¬ next_cond n.status n.link)
        (fuel < e - j + 2) := by
    intro t ht htt _ hnext
    refine Outcome.sat_mono (skip_links_spec S e hch t w hS fuel j hj) ?_
      (fun _ h => h.elim) (fun h => h)
    rintro c ⟨h1, h2⟩
    have notseq : ∀ m, (link_at S m = some t ∨ link_at S m = some .PIPE) →
        link_at S m ≠ some .SEQUENCE := by
      intro m hm
      rcases hm with h | h <;> rw [h] <;> rcases htt with rfl | rfl <;> simp
    constructor
    · intro k hk
      obtain ⟨a, b, c1, c2, d⟩ := h1 k hk
      refine ⟨a, b, fun m hm1 hm2 => notseq m (d m hm1 hm2), ?_, fun h => (hnext h).elim⟩
      intro _ m hm1 hm2
      by_contra hmk
      have hkj : j < k := by
        rcases Nat.lt_or_ge j k with h | h
        · exact h
        · have : k = j := by omega
          subst this
          rw [hlink, ht] at c1
          exact absurd rfl c1
      rcases hm2 k hkj (by omega) with h | h
      · rw [ht] at h; exact c1 h
      · exact c2 h
    · intro hc
      exact ⟨fun m hm1 hm2 => notseq m (h2 hc m hm1 hm2), hnext⟩
  have stay : (skip_cond n.status n.link → False) →
      (Outcome.ok (some j) : Outcome Ptr).sat
        (fun c2 =>
          (∀ k, c2 = some k → j ≤ k ∧ k ≤ e ∧
            (∀ m, j ≤ m → m < k → link_at S m ≠ some .SEQUENCE) ∧
            (skip_cond n.status n.link → ∀ m, j < m →
              (∀ q, j < q → q < m → link_at S q = some n.link ∨ link_at S q = some .PIPE) →
              m ≤ k) ∧
            (next_cond n.status n.link → k = j)) ∧
          (c2 = none → (∀ m, j ≤ m → m ≤ e → link_at S m ≠ some .SEQUENCE) ∧
            ¬ next_cond n.status n.link))
        (fun w1 => w1 = w ∧ ¬ next_cond n.status n.link)
        (fuel < e - j + 2) := by
    intro hns
    simp only [Outcome.sat]
    refine ⟨?_, fun h => by simp at h⟩
    intro k hk
    simp only [Option.some.injEq] at hk
    subst hk
    exact ⟨le_refl _, hj, fun m h1 h2 => by omega, fun h => (hns h).elim, fun _ => rfl⟩
  unfold apply_logic
  split
  · rename_i hex
    split
    · rename_i h1
      exact skipping .AND h1.2 (Or.inl rfl) (fun _ => trivial)
        (fun h => by
          rcases h.2 with ⟨a, _⟩ | ⟨_, b⟩
          · exact h1.1 a
          · rw [h1.2] at b; simp at b)
    · rename_i h1
      split
      · rename_i h2
        exact skipping .OR h2.2 (Or.inr rfl) (fun _ => trivial)
          (fun h => by
            rcases h.2 with ⟨_, b⟩ | ⟨a, _⟩
            · rw [h2.2] at b; simp at b
            · exact a h2.1)
      · rename_i h2
        exact stay (fun h => by
          rcases h.2 with ⟨a, b⟩ | ⟨a, b⟩
          · exact h1 ⟨a, b⟩
          · exact h2 ⟨a, b⟩)
  · rename_i hex
    have nsk : skip_cond n.status n.link → False := fun h => hex h.1
    have nnx : next_cond n.status n.link → False := fun h => hex h.1
    split
    · exact ⟨rfl, nnx⟩
    · split
      · rename_i h2
        rw [chain_next hch hS hn hj]
        simp only [Outcome.sat]
        have hjl : link_at S j ≠ some .SEQUENCE := by rw [hlink, h2.1]; simp
        by_cases hlt : j < e
        · simp only [hlt, if_true]
          refine ⟨?_, fun h => by simp at h⟩
          intro k hk
          simp only [Option.some.injEq] at hk
          subst hk
          refine ⟨by omega, hlt, ?_, fun h => (nsk h).elim, fun h => (nnx h).elim⟩
          intro m hm1 hm2
          have : m = j := by omega
          subst this; exact hjl
        · simp only [hlt, if_false]
          refine ⟨fun k hk => by simp at hk, fun _ => ⟨?_, nnx⟩⟩
          intro m hm1 hm2
          have : m = j := by omega
          subst this; exact hjl
      · exact stay nsk

theorem mem_launches_range {P : List Event} {i len m : Nat}
    (h : launches P = List.range' i len) (hm : m ∈ launches P) : i ≤ m ∧ m < i + len := by
  rw [h] at hm
  exact List.mem_range'_1.1 hm

/-- The short-circuit property after one more round of `run_conditional`: the
pipeline ending at `j` (events `Pl`, then the wait), after which `c` moved to
a node beyond `k`. -/
theorem skips_step (S : List command) (i j k e pid st : Nat) (Pl P2 : List Event)
    (hPl : ∀ m ∈ launches Pl, i ≤ m ∧ m ≤ j) (hwPl : waits Pl = [])
    (hk : ∀ t, link_at S j = some t → skip_cond st t → ∀ m, j < m →
      (∀ q, j < q → q < m → link_at S q = some t ∨ link_at S q = some .PIPE) → m ≤ k)
    (hjk : j ≤ k) (hP2 : Inside (k + 1) e P2) (hs : Skips S P2) :
    Skips S ((Pl ++ [Event.waitpid j pid st]) ++ P2) := by
  intro j1 st1 t hmem hl hc m hm hq
  have hw : waits ((Pl ++ [Event.waitpid j pid st]) ++ P2) = (j, st) :: waits P2 := by
    simp [waits_append, hwPl]; simp [waits]
  have hla : launches ((Pl ++ [Event.waitpid j pid st]) ++ P2) = launches Pl ++ launches P2 := by
    simp [launches_append]; simp [launches]
  rw [hw] at hmem
  rw [hla, List.mem_append]
  rcases List.mem_cons.1 hmem with heq | hmem2
  · simp only [Prod.mk.injEq] at heq
    obtain ⟨rfl, rfl⟩ := heq
    have hmk := hk t hl hc m hm hq
    rintro (h | h)
    · have := hPl m h; omega
    · have := hP2.1 m h; omega
  · have hj1 := hP2.2 _ hmem2
    simp only at hj1
    rintro (h | h)
    · have := hPl m h; omega
    · exact hs j1 st1 t hmem2 hl hc m hm hq h

theorem skips_alone (S : List command) (i j pid st : Nat) (Pl : List Event)
    (hPl : ∀ m ∈ launches Pl, i ≤ m ∧ m ≤ j) (hwPl : waits Pl = []) :
    Skips S (Pl ++ [Event.waitpid j pid st]) := by
  intro j1 st1 t hmem hl hc m hm hq
  have hw : waits (Pl ++ [Event.waitpid j pid st]) = [(j, st)] := by
    simp [waits_append, hwPl]; simp [waits]
  have hla : launches (Pl ++ [Event.waitpid j pid st]) = launches Pl := by
    simp [launches_append]; simp [launches]
  rw [hw] at hmem
  simp only [List.mem_singleton, Prod.mk.injEq] at hmem
  obtain ⟨rfl, rfl⟩ := hmem
  rw [hla]
  intro h
  have := hPl m h
  omega

theorem inside_step (i j k e pid st : Nat) (Pl P2 : List Event)
    (hPl : ∀ m ∈ launches Pl, i ≤ m ∧ m ≤ j) (hwPl : waits Pl = [])
    (hij : i ≤ j) (hjk : j ≤ k) (hke : j ≤ e) (hP2 : Inside (k + 1) e P2) :
    Inside i e ((Pl ++ [Event.waitpid j pid st]) ++ P2) := by
  have hw : waits ((Pl ++ [Event.waitpid j pid st]) ++ P2) = (j, st) :: waits P2 := by
    simp [waits_append, hwPl]; simp [waits]
  have hla : launches ((Pl ++ [Event.waitpid j pid st]) ++ P2) = launches Pl ++ launches P2 := by
    simp [launches_append]; simp [launches]
  constructor
  · intro m hm
    rw [hla, List.mem_append] at hm
    rcases hm with h | h
    · have := hPl m h; omega
    · have := hP2.1 m h; omega
  · intro x hx
    rw [hw] at hx
    rcases List.mem_cons.1 hx with rfl | h
    · exact ⟨hij, hke⟩
    · have := hP2.2 x h; omega

/-- Every way `run_conditional` can end when started on node `i` of a chain
ending at `e`. -/
theorem run_conditional_did (env : Env) (S : List command) (e : Nat) (hch : Chain S e)
    (fuel : Nat) :
    ∀ (w : World) (i : Nat), w.heap.map command.shape = S → i ≤ e →
      (run_conditional env fuel w (some i)).sat
        (fun r => ∃ P, Did w r.1 P (fun k => i ≤ k ∧ k ≤ e) ∧ Inside i e P ∧ Skips S P ∧
          Pos S i e r.2)
        (fun w1 => ∃ P, Did w w1 P (fun k => i ≤ k ∧ k ≤ e) ∧ Inside i e P ∧ Skips S P)
        (fuel < e - i + 3) := by
  induction fuel with
  | zero => intro w i _ _; simp [run_conditional, Outcome.sat]
  | succ fuel ih =>
    intro w i hS hi
    unfold run_conditional
    refine Outcome.sat_bind
      (Outcome.sat_mono (run_pipeline_did env S e hch fuel w i hS hi) (fun _ h => h) ?_
        (by omega)) ?_
    · rintro w1 ⟨P, hd, hw, hl⟩
      refine ⟨P, hd, ⟨hl, by simp [hw]⟩, ?_⟩
      intro j st t hmem
      simp [hw] at hmem
    · rintro ⟨w1, c1⟩ ⟨j, pid, st, Pl, hc, hij, hje, hpipes, hlast, hd, hl, hw, n0, hn0, hst⟩
      simp only at hc hd hn0 ⊢
      subst hc
      have hS1 : w1.heap.map command.shape = S := hd.1.trans hS
      have hPl : ∀ m ∈ launches Pl, i ≤ m ∧ m ≤ j := by
        intro m hm
        have := mem_launches_range hl hm
        omega
      -- the round alone, with nothing after it
      have alone : ∃ P, Did w w1 P (fun k => i ≤ k ∧ k ≤ e) ∧ Inside i e P ∧ Skips S P := by
        refine ⟨Pl ++ [Event.waitpid j pid st], ?_, ?_, skips_alone S i j pid st Pl hPl hw⟩
        · exact hd.mono (fun k hk => ⟨hk.1, le_trans hk.2 hje⟩)
        · simpa using inside_step i j j e pid st Pl [] hPl hw hij (le_refl _) hje
            ⟨by simp [launches], by simp [waits]⟩
      -- links of the pipeline that ran
      have hns : ∀ m, i ≤ m → m < j → link_at S m ≠ some .SEQUENCE := by
        intro m h1 h2
        rw [hpipes m h1 h2]; simp
      dsimp only
      split
      · exact alone
      · rename_i n hn
        have hnst : n.status = st := by
          rw [hn] at hn0
          simp only [Option.some.injEq] at hn0
          rw [hn0]; exact hst
        have hlinkj := shape_link_at hS1 hn
        refine Outcome.sat_bind
          (Outcome.sat_mono (apply_logic_spec S e hch w1 hS1 fuel j n hn hje) (fun _ h => h)
            (fun w2 h => by rw [h.1]; exact alone) (by omega)) ?_
        rintro c2 ⟨hk1, hk2⟩
        split
        · exact alone
        · rename_i k
          obtain ⟨hjk, hke, hnsk, hskip, _⟩ := hk1 k rfl
          split
          · exact alone
          · rename_i n2 hn2
            have hlinkk := shape_link_at hS1 hn2
            split
            · rename_i hseq
              obtain ⟨P, a, b, c⟩ := alone
              refine ⟨P, a, b, c, ?_, fun h => by simp at h⟩
              intro k1 hk1
              simp only [Option.some.injEq] at hk1
              subst hk1
              refine ⟨by omega, hke, by rw [hlinkk, hseq], ?_⟩
              intro m h1 h2
              by_cases hmj : m < j
              · exact hns m h1 hmj
              · exact hnsk m (by omega) h2
            · rename_i hseq
              have hkns : link_at S k ≠ some .SEQUENCE := by
                rw [hlinkk]; simpa using hseq
              have hall : ∀ m, i ≤ m → m ≤ k → link_at S m ≠ some .SEQUENCE := by
                intro m h1 h2
                by_cases hmj : m < j
                · exact hns m h1 hmj
                · by_cases hmk : m = k
                  · subst hmk; exact hkns
                  · exact hnsk m (by omega) (by omega)
              have hskip2 : ∀ t, link_at S j = some t → skip_cond st t → ∀ m, j < m →
                  (∀ q, j < q → q < m → link_at S q = some t ∨ link_at S q = some .PIPE) →
                  m ≤ k := by
                intro t ht hc m hm hq
                rw [hlinkj] at ht
                simp only [Option.some.injEq] at ht
                subst ht
                exact hskip (by rw [hnst]; exact hc) m hm hq
              rw [chain_next hch hS1 hn2 hke]
              -- the rest of the run, from the node after `k`
              have rest_ok : ∀ (r : World × Ptr) (P2 : List Event),
                  Did w1 r.1 P2 (fun q => k + 1 ≤ q ∧ q ≤ e) → Inside (k + 1) e P2 →
                  Skips S P2 → Pos S (k + 1) e r.2 →
                  ∃ P, Did w r.1 P (fun q => i ≤ q ∧ q ≤ e) ∧ Inside i e P ∧ Skips S P ∧
                    Pos S i e r.2 := by
                intro r P2 hd2 hin hs hpos
                refine ⟨(Pl ++ [Event.waitpid j pid st]) ++ P2, ?_, ?_, ?_, ?_⟩
                · exact hd.trans hd2 (fun q hq => ⟨hq.1, le_trans hq.2 hje⟩)
                    (fun q hq => ⟨by have := hq.1; omega, hq.2⟩)
                · exact inside_step i j k e pid st Pl P2 hPl hw hij hjk hje hin
                · exact skips_step S i j k e pid st Pl P2 hPl hw hskip2 hjk hin hs
                · constructor
                  · intro k1 hk1
                    obtain ⟨a, b, c, d⟩ := hpos.1 k1 hk1
                    refine ⟨by omega, b, c, ?_⟩
                    intro m h1 h2
                    by_cases hmk : m ≤ k
                    · exact hall m h1 hmk
                    · exact d m (by omega) h2
                  · intro hnone m h1 h2
                    by_cases hmk : m ≤ k
                    · exact hall m h1 hmk
                    · exact hpos.2 hnone m (by omega) h2
              have rest_bad : ∀ (w2 : World) (P2 : List Event),
                  Did w1 w2 P2 (fun q => k + 1 ≤ q ∧ q ≤ e) → Inside (k + 1) e P2 →
                  Skips S P2 →
                  ∃ P, Did w w2 P (fun q => i ≤ q ∧ q ≤ e) ∧ Inside i e P ∧ Skips S P := by
                intro w2 P2 hd2 hin hs
                refine ⟨(Pl ++ [Event.waitpid j pid st]) ++ P2, ?_, ?_, ?_⟩
                · exact hd.trans hd2 (fun q hq => ⟨hq.1, le_trans hq.2 hje⟩)
                    (fun q hq => ⟨by have := hq.1; omega, hq.2⟩)
                · exact inside_step i j k e pid st Pl P2 hPl hw hij hjk hje hin
                · exact skips_step S i j k e pid st Pl P2 hPl hw hskip2 hjk hin hs
              by_cases hlt : k < e
              · simp only [hlt, if_true]
                refine Outcome.sat_mono (ih w1 (k + 1) hS1 hlt) ?_ ?_ (by omega)
                · rintro r ⟨P2, a, b, c, d⟩
                  exact rest_ok r P2 a b c d
                · rintro w2 ⟨P2, a, b, c⟩
                  exact rest_bad w2 P2 a b c
              · simp only [hlt, if_false]
                cases fuel with
                | zero => simp [run_conditional, Outcome.sat]
                | succ f =>
                  simp only [run_conditional, Outcome.sat]
                  refine rest_ok (w1, none) [] (Did.refl _ _)
                    ⟨by simp [launches], by simp [waits]⟩
                    (by intro _ _ _ h; simp [waits] at h) ⟨fun k1 h => by simp at h, ?_⟩
                  intro _ m h1 h2
                  omega

/-! ### The path on which every system call succeeds -/

theorem lowest_free_from_not_mem (used : List Nat) (fuel : Nat) :
    ∀ k, (∀ j, j < k → j ∈ used) → k + fuel = used.length →
      lowest_free_from used fuel k ∉ used := by
  induction fuel with
  | zero =>
    intro k hall hlen hmem
    simp only [lowest_free_from] at hmem
    have hsub : List.range (k + 1) ⊆ used := by
      intro x hx
      have hx2 : x < k + 1 := List.mem_range.1 hx
      by_cases hxk : x = k
      · subst hxk; exact hmem
      · exact hall x (by omega)
    have := (List.subperm_of_subset (List.nodup_range (k + 1)) hsub).length_le
    simp only [List.length_range] at this
    omega
  | succ fuel ih =>
    intro k hall hlen
    simp only [lowest_free_from]
    split
    · rename_i hk
      apply ih (k + 1)
      · intro j hj
        by_cases hjk : j = k
        · subst hjk; exact hk
        · exact hall j (by omega)
      · omega
    · rename_i hk
      exact hk

theorem lowest_free_not_mem (used : List Nat) : lowest_free used ∉ used :=
  lowest_free_from_not_mem used used.length 0 (fun j hj => by omega) (by omega)

theorem sys_chdir_fields (env : Env) (w : World) (p : String) :
    (sys_chdir env w p).1.heap = w.heap ∧ (sys_chdir env w p).1.fds = w.fds ∧
      (sys_chdir env w p).1.last_pid = w.last_pid ∧ (sys_chdir env w p).1.clock = w.clock := by
  unfold sys_chdir
  split <;> exact ⟨rfl, rfl, rfl, rfl⟩

theorem before_fork_of_fields (w : World) (i : Nat) (n : command) (w1 w2 : World)
    (h : BeforeFork w i n w1) (hh : w2.heap = w1.heap) (hf : w2.fds = w1.fds)
    (hp : w2.last_pid = w1.last_pid) : BeforeFork w i n w2 := by
  unfold BeforeFork at *
  rw [hh, hf, hp]
  exact h

theorem run_before_fork_ok (env : Env) (hE : ∀ k, env.fails k = false) (w : World) (i : Nat)
    (n : command) (hn : w.heap[i]? = some n) (hpid : n.pid = -1) (hl : Launchable n) :
    (run_before_fork env w i).sat (fun r => BeforeFork w i n r.1) (fun _ => False) False := by
  obtain ⟨hargs, hcd⟩ := hl
  have hlen : n.args.length ≠ 0 := by
    intro h; exact hargs (List.length_eq_zero.1 h)
  unfold run_before_fork
  rw [hn]
  dsimp only
  rw [if_neg (by simpa using hpid), if_neg hlen]
  apply Outcome.sat_bind (P := fun w1 => BeforeFork w i n w1)
  · split
    · rename_i hp
      have hr := lowest_free_not_mem w.open_fds
      have hwr := lowest_free_not_mem (lowest_free w.open_fds :: w.open_fds)
      simp only [List.mem_cons, not_or] at hwr
      simp only [sys_pipe, hE, Bool.false_eq_true, if_false, Outcome.sat]
      refine ⟨rfl, ?_, Or.inr ⟨hp, _, _, ?_, hr, hwr.2, Ne.symm hwr.1, rfl⟩⟩
      · intro k hk
        simp [poke_getElem?, hk]
      · simp [poke_getElem?, hn]
    · rename_i hp
      exact ⟨rfl, fun _ _ => rfl, Or.inl ⟨hp, hn, rfl⟩⟩
  · intro w1 hw1
    split
    · rename_i hcd1
      obtain ⟨p, hp1⟩ := Option.isSome_iff_exists.1 (hcd hcd1)
      rw [hp1]
      obtain ⟨a, b, c, _⟩ := sys_chdir_fields env w1 p
      exact before_fork_of_fields w i n w1 _ hw1 a b c
    · exact hw1

theorem mem_open_fds_filter (fds : List (Nat × FileObj)) (fd x : Nat) :
    x ∈ (fds.filter (fun e => e.1 != fd)).map Prod.fst ↔ x ∈ fds.map Prod.fst ∧ x ≠ fd := by
  simp only [List.mem_map, List.mem_filter, bne_iff_ne, ne_eq]
  constructor
  · rintro ⟨a, ⟨h1, h2⟩, rfl⟩
    exact ⟨⟨a, h1, rfl⟩, h2⟩
  · rintro ⟨⟨a, h1, rfl⟩, h2⟩
    exact ⟨a, ⟨h1, h2⟩, rfl⟩

theorem sys_close_ok (env : Env) (hE : ∀ k, env.fails k = false) (w : World) (fd : Nat)
    (h : fd ∈ w.open_fds) :
    sys_close env w fd = some { w with
      fds := w.fds.filter (fun e => e.1 != fd),
      clock := w.clock + 1,
      trace := w.trace ++ [.close fd] } := by
  simp [sys_close, hE, h]

/-- With every system call succeeding, `command::run` returns on a launchable,
not yet launched node whose predecessor is ready. -/
theorem run_ok (env : Env) (hE : ∀ k, env.fails k = false) (w : World) (i : Nat)
    (n : command) (hn : w.heap[i]? = some n) (hpid : n.pid = -1) (hl : Launchable n)
    (hprev : PrevReady w i n) :
    (command.run env w i).sat (fun w1 => Launched w i n w1) (fun _ => False) False := by
  unfold command.run
  apply Outcome.sat_bind (run_before_fork_ok env hE w i n hn hpid hl)
  rintro ⟨w1, m⟩ ⟨hlp, hothers, hcase⟩
  simp only [sys_fork, hE, Bool.false_eq_true, if_false] at hlp hothers hcase ⊢
  -- the node as it is before the fork
  obtain ⟨n1, hn1, hshape, hn1pid, hn1st, hfd1⟩ : ∃ n1, w1.heap[i]? = some n1 ∧
      n1.shape = n.shape ∧ n1.pid = -1 ∧ n1.status = n.status ∧
      ((n.link ≠ .PIPE ∧ n1.pfd = n.pfd ∧ w1.fds = w.fds) ∨
       (n.link = .PIPE ∧ ∃ r wr, n1.pfd = some (r, wr) ∧
          r ∉ w.open_fds ∧ wr ∉ w.open_fds ∧ r ≠ wr ∧
          w1.fds = w.fds ++ [(r, .pipe_read i), (wr, .pipe_write i)])) := by
    rcases hcase with ⟨a, b, c⟩ | ⟨a, r, wr, b, c⟩
    · exact ⟨n, b, rfl, hpid, rfl, Or.inl ⟨a, rfl, c⟩⟩
    · exact ⟨_, b, rfl, hpid, rfl, Or.inr ⟨a, r, wr, rfl, c⟩⟩
  have hlink1 : n1.link = n.link :=
    show n1.shape.link = n.shape.link from congrArg command.link hshape
  have hprev1 : n1.prev = n.prev :=
    show n1.shape.prev = n.shape.prev from congrArg command.prev hshape
  unfold run_parent
  simp only [poke_getElem?, hn1, if_true, Option.map_some']
  rw [hprev1, hlink1]
  -- first stage: the read end of the predecessor's pipe
  apply Outcome.sat_bind (P := fun w2 =>
    w2.last_pid = w.last_pid + 1 ∧
    w2.heap = poke w1.heap i (fun n => { n with pid := ((w1.last_pid + 1 : Nat) : Int) }) ∧
    ∀ fd, fd ∈ w2.open_fds ↔ fd ∈ w1.open_fds ∧ some fd ≠ prev_read_end w n)
  · cases hp : n.prev with
    | none =>
      simp only [Outcome.sat, prev_read_end, hp]
      exact ⟨by rw [hlp], trivial, fun fd => by simp [World.open_fds]⟩
    | some p =>
      obtain ⟨hpi, pn, hpn, hready⟩ := hprev p hp
      have hpn1 : w1.heap[p]? = some pn := by rw [hothers p hpi, hpn]
      simp only [poke_getElem?, hpi, if_false, hpn1]
      by_cases hpl : pn.link = .PIPE
      · obtain ⟨r, wr, hpfd, hopen⟩ := hready hpl
        have hopen1 : r ∈ w1.open_fds := by
          rcases hfd1 with ⟨_, _, c⟩ | ⟨_, r2, wr2, _, _, _, _, c⟩
          · simpa [World.open_fds, c] using hopen
          · simp only [World.open_fds, c, List.map_append, List.mem_append]
            exact Or.inl hopen
        simp only [hpl, if_true, hpfd]
        rw [sys_close_ok env hE _ r (by simpa [World.open_fds] using hopen1)]
        simp only [Outcome.sat, prev_read_end, hp, hpn, hpl, if_true, hpfd, Option.map_some']
        refine ⟨by rw [hlp], trivial, fun fd => ?_⟩
        rw [World.open_fds, mem_open_fds_filter]
        simp [World.open_fds, eq_comm]
      · simp only [hpl, if_false, Outcome.sat, prev_read_end, hp, hpn]
        exact ⟨by rw [hlp], trivial, fun fd => by simp [World.open_fds]⟩
  · -- second stage: the write end of the node's own pipe
    rintro w2 ⟨h2p, h2h, h2f⟩
    have hn2 : w2.heap[i]? = some { n1 with pid := ((w1.last_pid + 1 : Nat) : Int) } := by
      rw [h2h, poke_getElem?]; simp [hn1]
    have hoth2 : ∀ k, k ≠ i → w2.heap[k]? = w.heap[k]? := by
      intro k hk
      rw [h2h, poke_getElem?]; simp [hk, hothers k hk]
    have hprfd : ∀ r, prev_read_end w n = some r → r ∈ w.open_fds := by
      intro r hr
      unfold prev_read_end at hr
      cases hp : n.prev with
      | none => simp [hp] at hr
      | some p =>
        obtain ⟨hpi, pn, hpn, hready⟩ := hprev p hp
        simp only [hp, hpn] at hr
        split at hr
        · rename_i hpl
          obtain ⟨r2, wr2, hpfd, hopen⟩ := hready hpl
          simp only [hpfd, Option.map_some', Option.some.injEq] at hr
          subst hr; exact hopen
        · simp at hr
    rcases hfd1 with ⟨a, b, c⟩ | ⟨a, r, wr, b, hr, hwr, hne, c⟩
    · simp only [a, if_false, Outcome.sat]
      refine ⟨h2p, hoth2, _, hn2, hshape, by rw [hlp], hn1st, fun h => absurd h a,
        fun _ => b, fun fd => ?_⟩
      rw [h2f]
      simp [own_read_end, hlink1, a, World.open_fds, c]
    · simp only [a, if_true, b]
      have hwr2 : wr ∈ w2.open_fds := by
        rw [h2f]
        refine ⟨by simp [World.open_fds, c], ?_⟩
        intro hcontra
        exact hwr (hprfd wr hcontra.symm)
      rw [sys_close_ok env hE w2 wr hwr2]
      simp only [Outcome.sat]
      refine ⟨h2p, hoth2, _, hn2, hshape, by rw [hlp], hn1st, fun _ => ⟨r, wr, b, hr⟩,
        fun h => absurd a h, fun fd => ?_⟩
      rw [World.open_fds, mem_open_fds_filter]
      have := h2f fd
      rw [World.open_fds] at this
      rw [this]
      simp only [own_read_end, hlink1, a, if_true, b, Option.map_some', Option.some.injEq,
        World.open_fds, c, List.map_append, List.map_cons, List.map_nil, List.mem_append,
        List.mem_cons, List.mem_singleton, List.not_mem_nil, or_false]
      constructor
      · rintro ⟨⟨h1 | h1 | h1, h2⟩, h3⟩
        · exact Or.inl ⟨h1, h2⟩
        · exact Or.inr h1
        · exact absurd h1 h3
      · rintro (⟨h1, h2⟩ | h1)
        · exact ⟨⟨Or.inl h1, h2⟩, fun h => hwr (h ▸ h1)⟩
        · refine ⟨⟨Or.inr (Or.inl h1), ?_⟩, by rw [h1]; exact hne⟩
          intro hcontra
          exact hr (h1 ▸ hprfd fd hcontra.symm)

theorem sys_close_last_pid (env : Env) (w w1 : World) (fd : Nat)
    (h : sys_close env w fd = some w1) : w1.last_pid = w.last_pid := by
  unfold sys_close at h
  split at h
  · simp at h
  · split at h
    · simp only [Option.some.injEq] at h
      subst h; rfl
    · simp at h

theorem run_parent_last_pid (env : Env) (w : World) (this pid : Nat) :
    (run_parent env w this pid).sat (fun w1 => w1.last_pid = w.last_pid)
      (fun w1 => w1.last_pid = w.last_pid) False := by
  unfold run_parent
  simp only
  split
  · rfl
  · apply Outcome.sat_bind (P := fun w1 => w1.last_pid = w.last_pid)
    · split
      · rfl
      · split
        · rfl
        · split
          · split
            · rfl
            · split
              · rfl
              · rename_i w1 hc
                exact (sys_close_last_pid _ _ _ _ hc).trans rfl
          · rfl
    · intro w1 hw1
      split
      · split
        · exact hw1
        · split
          · exact hw1
          · rename_i w2 hc
            exact (sys_close_last_pid _ _ _ _ hc).trans hw1
      · exact hw1

theorem Outcome.sat_and {α : Type} {P1 P2 : α → Prop} {B1 B2 : World → Prop} {T1 T2 : Prop}
    {o : Outcome α} (h1 : o.sat P1 B1 T1) (h2 : o.sat P2 B2 T2) :
    o.sat (fun a => P1 a ∧ P2 a) (fun w => B1 w ∧ B2 w) (T1 ∧ T2) := by
  cases o <;> exact ⟨h1, h2⟩

theorem Outcome.sat_ok {α : Type} {P : α → Prop} {o : Outcome α}
    (h : o.sat P (fun _ => False) False) : ∃ a, o = .ok a ∧ P a := by
  cases o <;> simp_all [Outcome.sat]

/-- When `command::run` returns, the process id it logged is the last one
handed out. -/
theorem run_did_pid (env : Env) (w : World) (this : Nat) :
    (command.run env w this).sat
      (fun w1 => Did w w1 [.fork this w1.last_pid] (· = this))
      (fun _ => True) False := by
  unfold command.run
  apply Outcome.sat_bind (P := fun r => Did w r.1 [] (· = this))
  · exact Outcome.sat_mono (run_before_fork_did env w this) (fun _ h => h)
      (fun _ _ => trivial) (fun h => h)
  · intro r hr
    obtain ⟨w1, m⟩ := r
    simp only at hr ⊢
    split
    · trivial
    · rename_i pid wp wc hf
      obtain ⟨hfk, _, hpid, _⟩ := sys_fork_did env w1 wp wc this pid (· = this) hf
      have hwp : wp.last_pid = pid := by
        unfold sys_fork at hf
        split at hf
        · simp at hf
        · simp only [Option.some.injEq, Prod.mk.injEq] at hf
          obtain ⟨rfl, rfl, _⟩ := hf
          rfl
      have h2 : Did w wp [.fork this pid] (· = this) := by
        simpa using hr.trans hfk (fun _ h => h) (fun _ h => h)
      refine Outcome.sat_mono
        (Outcome.sat_and (run_parent_did env wp this pid) (run_parent_last_pid env wp this pid))
        ?_ (fun _ _ => trivial) (fun h => h.1)
      rintro w2 ⟨⟨hw2, _⟩, hlp⟩
      rw [hlp, hwp]
      simpa using h2.trans hw2 (fun _ h => h) (fun _ h => h)

theorem range_succ_map_fork (i lp len : Nat) :
    (List.range (len + 1 + 1)).map (fun d => Event.fork (i + d) (lp + 1 + d)) =
      Event.fork i (lp + 1) ::
        (List.range (len + 1)).map (fun d => Event.fork (i + 1 + d) (lp + 1 + 1 + d)) := by
  rw [List.range_succ_eq_map]
  simp only [List.map_cons, List.map_map, Nat.add_zero, List.cons.injEq, true_and]
  apply List.map_congr_left
  intro d _
  simp only [Function.comp, Nat.succ_eq_add_one]
  congr 1 <;> omega

/-- With every system call succeeding, `run_pipeline` runs the pipeline of the
nodes `i .. i + len` to its end when these nodes are launchable and not yet
launched and the predecessor of node `i` is ready. -/
theorem run_pipeline_ok (env : Env) (hE : ∀ k, env.fails k = false) (S : List command)
    (e : Nat) (hch : Chain S e) (len : Nat) :
    ∀ (fuel : Nat) (w : World) (i : Nat), w.heap.map command.shape = S → i + len ≤ e →
      (∀ (k : Nat) (n : command), i ≤ k → k ≤ i + len → w.heap[k]? = some n → Launchable n) →
      (∀ k, i ≤ k → k < i + len → link_at S k = some .PIPE) →
      link_at S (i + len) ≠ some .PIPE →
      (∀ k n, i ≤ k → k ≤ i + len → w.heap[k]? = some n → n.pid = -1) →
      (∀ n, w.heap[i]? = some n → PrevReady w i n) →
      (run_pipeline env fuel w (some i)).sat (PipelineRan env w i len) (fun _ => False)
        (fuel < len + 1) := by
  induction len with
  | zero =>
    intro fuel w i hS hie hLa _ hlast hpids hprev
    cases fuel with
    | zero => simp [run_pipeline, Outcome.sat]
    | succ fuel =>
      obtain ⟨n, hn⟩ := chain_lookup hch hS (show i ≤ e by omega)
      have hnl : n.link ≠ .PIPE := by
        have := shape_link_at hS hn
        simp only [Nat.add_zero] at hlast
        rw [this] at hlast
        simpa using hlast
      unfold run_pipeline
      rw [hn]
      dsimp only
      rw [if_neg hnl]
      refine Outcome.sat_bind
        (Outcome.sat_mono
          (Outcome.sat_and (run_did_pid env w i)
            (run_ok env hE w i n hn (hpids i n (le_refl _) (by omega) hn)
              (hLa i n (le_refl _) (by omega) hn) (hprev n hn)))
          (fun _ h => h) (fun _ h => h.2) (fun h => h.2.elim)) ?_
      rintro w1 ⟨hd, hlp, hoth, n1, hn1, hsh, hpid1, hst1, _, _, hfds⟩
      rw [hn1]
      dsimp only
      have hpidn : n1.pid.toNat = w.last_pid + 1 := by rw [hpid1]; simp
      rw [hlp] at hd
      cases hwt : sys_waitpid env w1 i n1.pid.toNat with
      | none => simp [sys_waitpid, hE] at hwt
      | some r =>
        obtain ⟨w2, st⟩ := r
        obtain ⟨hwd, hst⟩ := sys_waitpid_did env w1 w2 i _ st (· = i) hwt
        rw [hpidn] at hwd hst
        subst hst
        have hw2 : w2.heap = w1.heap ∧ w2.fds = w1.fds ∧ w2.last_pid = w1.last_pid := by
          simp only [sys_waitpid, hE, Bool.false_eq_true, if_false, Option.some.injEq,
            Prod.mk.injEq] at hwt
          obtain ⟨rfl, _⟩ := hwt
          exact ⟨rfl, rfl, rfl⟩
        simp only [Outcome.sat, PipelineRan, Nat.add_zero]
        refine ⟨trivial, ?_, by rw [hw2.2.2, hlp], ?_, ?_⟩
        · have h3 := did_poke w2 i
            (fun n => { n with status := env.wstatus (w.last_pid + 1) }) (fun n => rfl)
            (· = i) rfl
          have := (hd.trans hwd (t := (· = i)) (fun _ h => h) (fun _ h => h)).trans h3
            (t := fun k => i ≤ k ∧ k ≤ i) (fun k hk => by subst hk; simp)
            (fun k hk => by subst hk; simp)
          simpa using this
        · refine ⟨{ n1 with status := env.wstatus (w.last_pid + 1) }, ?_, rfl, ?_⟩
          · simp [poke_getElem?, hw2.1, hn1]
          · simpa using hpid1
        · intro n2 hn2 fd
          rw [hn] at hn2
          simp only [Option.some.injEq] at hn2
          subst hn2
          have := hfds fd
          simp only [World.open_fds] at this ⊢
          rw [hw2.2.1, this]
          have hown : own_read_end n1 = none := by
            have : n1.link = n.link :=
              show n1.shape.link = n.shape.link from congrArg command.link hsh
            simp [own_read_end, this, hnl]
          simp [hown]
  | succ len ih =>
    intro fuel w i hS hie hLa hpipes hlast hpids hprev
    cases fuel with
    | zero => simp [run_pipeline, Outcome.sat]
    | succ fuel =>
      obtain ⟨n, hn⟩ := chain_lookup hch hS (show i ≤ e by omega)
      have hnl : n.link = .PIPE := by
        have := shape_link_at hS hn
        rw [hpipes i (le_refl _) (by omega)] at this
        simpa using this.symm
      unfold run_pipeline
      rw [hn]
      dsimp only
      rw [if_pos hnl]
      refine Outcome.sat_bind
        (Outcome.sat_mono
          (Outcome.sat_and (run_did_pid env w i)
            (run_ok env hE w i n hn (hpids i n (le_refl _) (by omega) hn)
              (hLa i n (le_refl _) (by omega) hn) (hprev n hn)))
          (fun _ h => h) (fun _ h => h.2) (fun h => h.2.elim)) ?_
      rintro w1 ⟨hd, hlp, hoth, n1, hn1, hsh, hpid1, hst1, hpfd, _, hfds⟩
      have hS1 : w1.heap.map command.shape = S := hd.1.trans hS
      obtain ⟨r, wr, hpfd1, hrfresh⟩ := hpfd hnl
      have hlink1 : n1.link = .PIPE := by
        have : n1.link = n.link :=
          show n1.shape.link = n.shape.link from congrArg command.link hsh
        rw [this, hnl]
      have hown : own_read_end n1 = some r := by
        simp [own_read_end, hlink1, hpfd1]
      rw [hn1]
      dsimp only
      rw [chain_next hch hS1 hn1 (by omega), if_pos (by omega)]
      rw [hlp] at hd
      have hprev1 : ∀ n2, w1.heap[i + 1]? = some n2 → PrevReady w1 (i + 1) n2 := by
        intro n2 hn2 p hp
        rw [chain_prev hch hS1 hn2 (by omega)] at hp
        simp only [Nat.add_eq_zero, one_ne_zero, and_false, if_false, Nat.add_sub_cancel,
          Option.some.injEq] at hp
        subst hp
        refine ⟨by omega, n1, hn1, fun _ => ⟨r, wr, hpfd1, ?_⟩⟩
        exact (hfds r).2 (Or.inr hown.symm)
      have hprE : ∀ n2, w1.heap[i + 1]? = some n2 → prev_read_end w1 n2 = some r := by
        intro n2 hn2
        unfold prev_read_end
        rw [chain_prev hch hS1 hn2 (by omega)]
        simp [hn1, hlink1, hpfd1]
      refine Outcome.sat_mono
        (ih fuel w1 (i + 1) hS1 (by omega)
          (fun k n2 h1 h2 hk => by
            rw [hoth k (by omega)] at hk
            exact hLa k n2 (by omega) (by omega) hk)
          (fun k h1 h2 => hpipes k (by omega) (by omega))
          (by
            have e1 : i + 1 + len = i + (len + 1) := by omega
            rw [e1]; exact hlast)
          (fun k n2 h1 h2 hk => by
            rw [hoth k (by omega)] at hk
            exact hpids k n2 (by omega) (by omega) hk)
          hprev1)
        ?_ (fun _ h => h) (by omega)
      rintro ⟨w2, c2⟩ ⟨hc, hd2, hlp2, hlast2, hfds2⟩
      simp only at hc hd2 hlp2 hlast2 hfds2
      have e1 : i + 1 + len = i + (len + 1) := by omega
      have e2 : w1.last_pid + 1 + len = w.last_pid + 1 + (len + 1) := by omega
      rw [e1, e2] at hd2
      rw [e1] at hc hlast2
      rw [e2] at hlp2 hlast2
      refine ⟨hc, ?_, hlp2, hlast2, ?_⟩
      · have := hd.trans hd2 (t := fun k => i ≤ k ∧ k ≤ i + (len + 1))
          (fun k hk => by subst hk; exact ⟨le_refl _, by omega⟩)
          (fun k hk => ⟨by have := hk.1; omega, hk.2⟩)
        rw [range_succ_map_fork]
        rw [hlp] at this
        simpa using this
      · intro n0 hn0 fd
        rw [hn] at hn0
        simp only [Option.some.injEq] at hn0
        subst hn0
        obtain ⟨n2, hn2⟩ := chain_lookup hch hS1 (show i + 1 ≤ e by omega)
        rw [hfds2 n2 hn2 fd, hprE n2 hn2, hfds fd, hown]
        constructor
        · rintro ⟨h1 | h1, h2⟩
          · exact h1
          · exact absurd h1 h2
        · intro h1
          refine ⟨Or.inl h1, ?_⟩
          intro h2
          simp only [Option.some.injEq] at h2
          exact hrfresh (h2 ▸ h1.1)

/-! ### run_pipeline (C3) -/

theorem link_at_shape (h : List command) (k : Nat) :
    link_at (h.map command.shape) k = link_at h k := by
  simp only [link_at, List.getElem?_map]
  cases h[k]? <;> rfl

theorem chain_shape {h : List command} {e : Nat} (hch : Chain h e) :
    Chain (h.map command.shape) e := by
  refine ⟨by simpa using hch.1, ?_⟩
  intro k n hk hke
  rw [List.getElem?_map] at hk
  cases hn : h[k]? with
  | none => simp [hn] at hk
  | some n0 =>
    simp only [hn, Option.map_some', Option.some.injEq] at hk
    subst hk
    exact hch.2 k n0 hn hke

theorem prev_ready_of_first {h : List command} {e i : Nat} (w : World) (hw : w.heap = h)
    (hch : Chain h e) (hie : i ≤ e)
    (hfirst : i = 0 ∨ link_at h (i - 1) ≠ some .PIPE) :
    ∀ n, w.heap[i]? = some n → PrevReady w i n := by
  intro n hn p hp
  rw [hw] at hn
  rw [(hch.2 i n hn hie).2] at hp
  rcases hfirst with h0 | hne
  · simp [h0] at hp
  · by_cases h0 : i = 0
    · simp [h0] at hp
    · simp only [h0, if_false, Option.some.injEq] at hp
      subst hp
      have hlt : i - 1 < h.length := by have := hch.1; omega
      refine ⟨by omega, h[i - 1], by rw [hw]; exact List.getElem?_eq_getElem hlt, ?_⟩
      intro hl
      exfalso
      apply hne
      simp [link_at, List.getElem?_eq_getElem hlt, hl]

/-- C3: on a pipeline of `len + 1` nodes, `i .. i + len`, the first `len` with
link `PIPE` and the last with another link, whose predecessor's link is not
`PIPE` (the run of pipes is maximal), whose nodes are launchable and not yet
launched, and with every system call succeeding, `run_pipeline` returns with
`c` on the last node; its fork and wait events are, in this order, one fork for
each node from left to right and then a single wait, on the process forked for
the last node; the status stored in the last node is the wait status of that
process, whatever the statuses of the other processes are. -/
theorem run_pipeline_launches_all_waits_last (env : Env) (w : World) (e i len fuel : Nat)
    (hsys : ∀ k, env.fails k = false)
    (hch : Chain w.heap e) (hie : i + len ≤ e)
    (hpipe : ∀ k, i ≤ k → k < i + len → link_at w.heap k = some .PIPE)
    (hlast : link_at w.heap (i + len) ≠ some .PIPE)
    (hfirst : i = 0 ∨ link_at w.heap (i - 1) ≠ some .PIPE)
    (hnodes : ∀ (k : Nat) (n : command), i ≤ k → k ≤ i + len → w.heap[k]? = some n →
      Launchable n ∧ n.pid = -1)
    (hfuel : len + 1 ≤ fuel) :
    ∃ w1, run_pipeline env fuel w (some i) = .ok (w1, some (i + len)) ∧
      (∃ ev, w1.trace = w.trace ++ ev ∧
        procs ev =
          (List.range (len + 1)).map (fun d => Event.fork (i + d) (w.last_pid + 1 + d)) ++
            [Event.waitpid (i + len) (w.last_pid + 1 + len)
              (env.wstatus (w.last_pid + 1 + len))]) ∧
      ∃ n, w1.heap[i + len]? = some n ∧ n.pid = ((w.last_pid + 1 + len : Nat) : Int) ∧
        n.status = env.wstatus (w.last_pid + 1 + len) := by
  have h := run_pipeline_ok env hsys (w.heap.map command.shape) e (chain_shape hch) len fuel w i
    rfl hie (fun k n h1 h2 hk => (hnodes k n h1 h2 hk).1)
    (fun k h1 h2 => by rw [link_at_shape]; exact hpipe k h1 h2)
    (by rw [link_at_shape]; exact hlast)
    (fun k n h1 h2 hk => (hnodes k n h1 h2 hk).2)
    (prev_ready_of_first w rfl hch (by omega) hfirst)
  obtain ⟨⟨w1, c1⟩, hrun, hc, hd, _, ⟨n, hn, hst, hpid⟩, _⟩ :=
    Outcome.sat_ok (Outcome.sat_mono h (fun _ h => h) (fun _ h => h) (fun h => by omega))
  simp only at hc hd hn
  subst hc
  exact ⟨w1, hrun, hd.2.1, n, hn, hpid, hst⟩

theorem chain_of_ok {h : List command} {e : Nat} (hok : chain_ok h e = true) : Chain h e := by
  simp only [chain_ok, Bool.and_eq_true, decide_eq_true_eq, List.all_eq_true, List.mem_range]
    at hok
  refine ⟨hok.1, ?_⟩
  intro k n hk hke
  have := hok.2 k (by omega)
  simp only [hk, Bool.and_eq_true, decide_eq_true_eq] at this
  exact this

theorem all_nodes {P : command → Prop} {h : List command} (hall : ∀ n ∈ h, P n) :
    ∀ (k : Nat) (n : command), h[k]? = some n → P n :=
  fun _ _ hk => hall _ (List.getElem?_mem hk)

/-- A use of C3: the pipeline `a | b`, where the process of `a` ends with
status 0 and the process of `b` with exit code 1. -/
theorem run_pipeline_launches_all_waits_last_witness :
    ∃ w1,
      run_pipeline (calm_env fun p => if p = 2 then 256 else 0) 2
        { heap := [{ args := ["a"], link := .PIPE, next := some 1 },
                   { args := ["b"], prev := some 0 }] } (some 0) = .ok (w1, some 1) ∧
      (∃ ev, w1.trace = [] ++ ev ∧
        procs ev = [Event.fork 0 1, Event.fork 1 2] ++ [Event.waitpid 1 2 256]) ∧
      ∃ n, w1.heap[1]? = some n ∧ n.pid = 2 ∧ n.status = 256 :=
  run_pipeline_launches_all_waits_last (calm_env fun p => if p = 2 then 256 else 0)
    { heap := [{ args := ["a"], link := .PIPE, next := some 1 },
               { args := ["b"], prev := some 0 }] } 1 0 1 2
    (fun _ => rfl) (chain_of_ok (by decide)) (by decide)
    (fun k h1 h2 => by
      have : k = 0 := by omega
      subst this; decide)
    (by decide) (Or.inl rfl)
    (fun k n _ _ hk => all_nodes (P := fun n => Launchable n ∧ n.pid = -1) (by decide) k n hk)
    (by decide)

/-! ### run_conditional: the next pipeline runs -/

theorem Outcome.sat_of_forall {α : Type} {P : α → Prop} {B : World → Prop} {T : Prop}
    (o : Outcome α) (hp : ∀ a, P a) (hb : ∀ w, B w) (ht : T) : o.sat P B T := by
  cases o <;> simp_all [Outcome.sat]

theorem exists_pipeline_end (S : List command) (e : Nat)
    (hlast : link_at S e ≠ some .PIPE) (d : Nat) :
    ∀ i, i + d = e →
      ∃ len, i + len ≤ e ∧ (∀ k, i ≤ k → k < i + len → link_at S k = some .PIPE) ∧
        link_at S (i + len) ≠ some .PIPE := by
  induction d with
  | zero =>
    intro i hi
    have : i = e := by omega
    subst this
    exact ⟨0, le_refl _, fun k h1 h2 => by omega, hlast⟩
  | succ d ih =>
    intro i hi
    by_cases hp : link_at S i = some .PIPE
    · obtain ⟨len, h1, h2, h3⟩ := ih (i + 1) (by omega)
      refine ⟨len + 1, by omega, ?_, ?_⟩
      · intro k hk1 hk2
        by_cases hki : k = i
        · subst hki; exact hp
        · exact h2 k (by omega) (by omega)
      · have e1 : i + (len + 1) = i + 1 + len := by omega
        rw [e1]; exact h3
    · exact ⟨0, by omega, fun k h1 h2 => by omega, hp⟩

/-- With every system call succeeding, on a chain of launchable nodes that does
not end in `PIPE`: every way `run_conditional` can end when started on node `i`
with the nodes from `i` on not yet launched. -/
theorem run_conditional_live (env : Env) (hE : ∀ k, env.fails k = false) (S : List command)
    (e : Nat) (hch : Chain S e) (hlast : link_at S e ≠ some .PIPE) (fuel : Nat) :
    ∀ (w : World) (i : Nat), w.heap.map command.shape = S → i ≤ e →
      (∀ (k : Nat) (n : command), i ≤ k → k ≤ e → w.heap[k]? = some n →
        Launchable n ∧ n.pid = -1) →
      (run_conditional env fuel w (some i)).sat (fun r => Live S e w i r.1)
        (fun w1 => Live S e w i w1) True := by
  induction fuel with
  | zero => intro w i _ _ _; simp [run_conditional, Outcome.sat]
  | succ fuel ih =>
    intro w i hS hi hnodes
    unfold run_conditional
    have hA := run_pipeline_did env S e hch fuel w i hS hi
    have hB : (run_pipeline env fuel w (some i)).sat (fun _ => True)
        (fun _ => ¬ ∀ n, w.heap[i]? = some n → PrevReady w i n) True := by
      by_cases hpr : ∀ n, w.heap[i]? = some n → PrevReady w i n
      · obtain ⟨len, h1, h2, h3⟩ := exists_pipeline_end S e hlast (e - i) i (by omega)
        exact Outcome.sat_mono
          (run_pipeline_ok env hE S e hch len fuel w i hS h1
            (fun k n a b hk => (hnodes k n a (by omega) hk).1) h2 h3
            (fun k n a b hk => (hnodes k n a (by omega) hk).2) hpr)
          (fun _ _ => trivial) (fun _ h => h.elim) (fun _ => trivial)
      · exact Outcome.sat_of_forall _ (fun _ => trivial) (fun _ => hpr) trivial
    refine Outcome.sat_bind
      (Outcome.sat_mono (Outcome.sat_and hA hB) (fun _ h => h.1) ?_ (fun _ => trivial)) ?_
    · rintro w1 ⟨⟨P, hd, hw, hl⟩, hnpr⟩
      refine ⟨P, hd, ?_, fun hpr => (hnpr hpr).elim⟩
      intro j st t hmem
      simp [hw] at hmem
    · rintro ⟨w1, c1⟩ ⟨j, pid, st, Pl, hc, hij, hje, hpipes, hlastj, hd, hl, hw, n0, hn0, hst⟩
      simp only at hc hd hn0 ⊢
      subst hc
      have hS1 : w1.heap.map command.shape = S := hd.1.trans hS
      have hwP : waits (Pl ++ [Event.waitpid j pid st]) = [(j, st)] := by
        simp [waits_append, hw]; simp [waits]
      have hlP : launches (Pl ++ [Event.waitpid j pid st]) = launches Pl := by
        simp [launches_append]; simp [launches]
      -- the pipeline that starts at `i` was launched whole
      have first : ∀ m, i ≤ m → m ≤ e → (∀ q, i ≤ q → q < m → link_at S q = some .PIPE) →
          m ∈ launches Pl := by
        intro m h1 h2 h3
        have hmj : m ≤ j := by
          by_contra hc
          exact hlastj (h3 j hij (by omega))
        rw [hl]
        exact List.mem_range'_1.2 ⟨h1, by omega⟩
      dsimp only
      rw [hn0]
      dsimp only
      have hlinkj := shape_link_at hS1 hn0
      -- when the wait does not ask to run on, the round alone is enough
      have alone : ¬ next_cond n0.status n0.link → Live S e w i w1 := by
        intro hnc
        refine ⟨Pl ++ [Event.waitpid j pid st],
          hd.mono (fun k hk => ⟨hk.1, le_trans hk.2 hje⟩), ?_, ?_⟩
        · intro j1 st1 t hmem hlt hcond
          rw [hwP] at hmem
          simp only [List.mem_singleton, Prod.mk.injEq] at hmem
          obtain ⟨rfl, rfl⟩ := hmem
          rw [hlinkj] at hlt
          simp only [Option.some.injEq] at hlt
          subst hlt
          rw [hst] at hnc
          exact (hnc hcond).elim
        · intro _ m h1 h2 h3
          rw [hlP]; exact first m h1 h2 h3
      refine Outcome.sat_bind
        (Outcome.sat_mono (apply_logic_spec S e hch w1 hS1 fuel j n0 hn0 hje) (fun _ h => h)
          (fun w2 h => by rw [h.1]; exact alone h.2) (fun _ => trivial)) ?_
      rintro c2 ⟨hk1, hk2⟩
      split
      · exact alone (hk2 rfl).2
      · rename_i k
        obtain ⟨hjk, hke, _, _, hnext⟩ := hk1 k rfl
        obtain ⟨n2, hn2⟩ := chain_lookup hch hS1 hke
        rw [hn2]
        dsimp only
        have hlinkk := shape_link_at hS1 hn2
        split
        · rename_i hseq
          apply alone
          intro hnc
          have hkj := hnext hnc
          subst hkj
          rw [hn0] at hn2
          simp only [Option.some.injEq] at hn2
          subst hn2
          rcases hnc.2 with ⟨_, h⟩ | ⟨_, h⟩ <;> rw [h] at hseq <;> simp at hseq
        · rw [chain_next hch hS1 hn2 hke]
          -- the rest of the run, from the node after `k`
          have rest : ∀ (w2 : World) (P2 : List Event),
              Did w1 w2 P2 (fun q => k + 1 ≤ q ∧ q ≤ e) → Runs S e P2 →
              (next_cond n0.status n0.link → ∀ m, j < m → m ≤ e →
                (∀ q, j < q → q < m → link_at S q = some .PIPE) → m ∈ launches P2) →
              Live S e w i w2 := by
            intro w2 P2 hd2 hr2 hnx
            refine ⟨(Pl ++ [Event.waitpid j pid st]) ++ P2, ?_, ?_, ?_⟩
            · exact hd.trans hd2 (fun q hq => ⟨hq.1, le_trans hq.2 hje⟩)
                (fun q hq => ⟨by have := hq.1; omega, hq.2⟩)
            · intro j1 st1 t hmem hlt hcond m hm1 hm2 hm3
              rw [launches_append, List.mem_append]
              rw [waits_append, hwP, List.mem_append] at hmem
              rcases hmem with hmem | hmem
              · simp only [List.mem_singleton, Prod.mk.injEq] at hmem
                obtain ⟨rfl, rfl⟩ := hmem
                rw [hlinkj] at hlt
                simp only [Option.some.injEq] at hlt
                subst hlt
                rw [← hst] at hcond
                exact Or.inr (hnx hcond m hm1 hm2 hm3)
              · exact Or.inr (hr2 j1 st1 t hmem hlt hcond m hm1 hm2 hm3)
            · intro _ m h1 h2 h3
              rw [launches_append, hlP, List.mem_append]
              exact Or.inl (first m h1 h2 h3)
          by_cases hlt : k < e
          · simp only [hlt, if_true]
            have hnodes1 : ∀ (q : Nat) (n : command), k + 1 ≤ q → q ≤ e →
                w1.heap[q]? = some n → Launchable n ∧ n.pid = -1 := by
              intro q n h1 h2 hq
              rw [hd.2.2 q (fun h => by have := h.2; omega)] at hq
              exact hnodes q n (by omega) h2 hq
            refine Outcome.sat_mono (ih w1 (k + 1) hS1 hlt hnodes1) ?_ ?_ (fun _ => trivial)
            · rintro ⟨w2, c3⟩ ⟨P2, a, b, c⟩
              refine rest w2 P2 a b ?_
              intro hnc m hm1 hm2 hm3
              have hkj := hnext hnc
              subst hkj
              refine c ?_ m hm1 hm2 (fun q h1 h2 => hm3 q (by omega) h2)
              intro n3 hn3 p hp
              rw [chain_prev hch hS1 hn3 hlt] at hp
              simp only [Nat.add_eq_zero, one_ne_zero, and_false, if_false,
                Nat.add_sub_cancel, Option.some.injEq] at hp
              subst hp
              refine ⟨by omega, n0, hn0, fun hpipe => ?_⟩
              exfalso
              rw [hlinkj, hpipe] at hlastj
              exact hlastj rfl
            · rintro w2 ⟨P2, a, b, c⟩
              refine rest w2 P2 a b ?_
              intro hnc m hm1 hm2 hm3
              have hkj := hnext hnc
              subst hkj
              refine c ?_ m hm1 hm2 (fun q h1 h2 => hm3 q (by omega) h2)
              intro n3 hn3 p hp
              rw [chain_prev hch hS1 hn3 hlt] at hp
              simp only [Nat.add_eq_zero, one_ne_zero, and_false, if_false,
                Nat.add_sub_cancel, Option.some.injEq] at hp
              subst hp
              refine ⟨by omega, n0, hn0, fun hpipe => ?_⟩
              exfalso
              rw [hlinkj, hpipe] at hlastj
              exact hlastj rfl
          · simp only [hlt, if_false]
            cases fuel with
            | zero => simp [run_conditional, Outcome.sat]
            | succ f =>
              simp only [run_conditional, Outcome.sat]
              refine rest w1 [] (Did.refl _ _) (by intro _ _ _ h; simp [waits] at h) ?_
              intro hnc m hm1 hm2 hm3
              have hkj := hnext hnc
              omega

/-! ### Short-circuit evaluation (C1, C2) -/

theorem launches_procs (ev : List Event) : launches (procs ev) = launches ev := by
  induction ev with
  | nil => rfl
  | cons x xs ih =>
    cases x <;> simp_all [launches, procs, List.filter_cons]

theorem waits_procs (ev : List Event) : waits (procs ev) = waits ev := by
  induction ev with
  | nil => rfl
  | cons x xs ih =>
    cases x <;> simp_all [waits, procs, List.filter_cons]

theorem Outcome.sat_final {α : Type} {proj : α → World} {Q : World → Prop} {T : Prop}
    {o : Outcome α} (h : o.sat (fun r => Q (proj r)) Q T) (w1 : World)
    (hf : o.final proj = some w1) : Q w1 := by
  cases o <;> simp_all [Outcome.sat, Outcome.final]

theorem Outcome.sat_fuel {α : Type} {P : α → Prop} {B : World → Prop} {T : Prop}
    {o : Outcome α} (h : o.sat P B T) (hT : ¬ T) : o ≠ .out_of_fuel := by
  cases o <;> simp_all [Outcome.sat]

/-- What the short-circuit claims share: on a chain that does not end in
`PIPE`, `run_conditional` ends (given fuel), and the events it adds to the log
concern nodes `i .. e`, obey `Skips`, and obey `Runs` when every system call
succeeds and the nodes are launchable and not yet launched. -/
theorem run_conditional_events (env : Env) (w : World) (e i fuel : Nat)
    (hch : Chain w.heap e) (hlast : link_at w.heap e ≠ some .PIPE) (hi : i ≤ e) :
    (e - i + 3 ≤ fuel → run_conditional env fuel w (some i) ≠ .out_of_fuel) ∧
    ∀ w1, (run_conditional env fuel w (some i)).final Prod.fst = some w1 →
      ∃ ev, w1.trace = w.trace ++ ev ∧ Inside i e ev ∧ Skips w.heap ev ∧
        ((∀ k, env.fails k = false) →
          (∀ (k : Nat) (n : command), i ≤ k → k ≤ e → w.heap[k]? = some n →
            Launchable n ∧ n.pid = -1) →
          Runs w.heap e ev) := by
  have hdid := run_conditional_did env (w.heap.map command.shape) e (chain_shape hch) fuel w i
    rfl hi
  refine ⟨fun hf => Outcome.sat_fuel hdid (by omega), ?_⟩
  intro w1 hfin
  have h1 : ∃ P, Did w w1 P (fun k => i ≤ k ∧ k ≤ e) ∧ Inside i e P ∧
      Skips (w.heap.map command.shape) P :=
    Outcome.sat_final (Q := fun w1 => ∃ P, Did w w1 P (fun k => i ≤ k ∧ k ≤ e) ∧ Inside i e P ∧
      Skips (w.heap.map command.shape) P)
      (Outcome.sat_mono hdid (fun r ⟨P, a, b, c, _⟩ => ⟨P, a, b, c⟩) (fun _ h => h)
        (fun h => h)) w1 hfin
  obtain ⟨P, ⟨_, ⟨ev, hev, hP⟩, _⟩, hin, hsk⟩ := h1
  subst hP
  refine ⟨ev, hev, ?_, ?_, ?_⟩
  · simpa [Inside, launches_procs, waits_procs] using hin
  · intro j st t hmem hl hc m hm hq
    rw [← launches_procs]
    rw [← waits_procs] at hmem
    rw [← link_at_shape] at hl
    exact hsk j st t hmem hl hc m hm (fun q h1 h2 => by
      have := hq q h1 h2
      rwa [← link_at_shape] at this)
  · intro hE hnodes
    have hlive := run_conditional_live env hE (w.heap.map command.shape) e (chain_shape hch)
      (by rw [link_at_shape]; exact hlast) fuel w i rfl hi hnodes
    obtain ⟨P2, ⟨_, ⟨ev2, hev2, hP2⟩, _⟩, hruns, _⟩ :=
      Outcome.sat_final (Q := Live (w.heap.map command.shape) e w i) hlive w1 hfin
    have : ev2 = ev := List.append_cancel_left (hev2.symm.trans hev)
    subst this
    subst hP2
    intro j st t hmem hl hc m hm hme hq
    rw [← launches_procs]
    rw [← waits_procs] at hmem
    rw [← link_at_shape] at hl
    exact hruns j st t hmem hl hc m hm hme (fun q h1 h2 => by
      have := hq q h1 h2
      rwa [← link_at_shape] at this)

/-- C1: `run_conditional` on node `i` of a chain whose last node `e` has link
`SEQUENCE` or `BACKGROUND` ends (given fuel), and in the events it adds to the
log, for every wait on a node `j` with link `AND` whose status is a normal
exit: with a nonzero code, no node `m` after `j` is launched as long as all
nodes strictly between `j` and `m` have link `AND` or `PIPE` (so none up to and
including the first node whose link is neither); with code 0, every node of the
pipeline that starts right after `j` is launched, provided the system calls
succeed and the nodes are launchable and not yet launched. -/
theorem and_short_circuit (env : Env) (w : World) (e i fuel : Nat)
    (hch : Chain w.heap e)
    (hlast : link_at w.heap e = some .SEQUENCE ∨ link_at w.heap e = some .BACKGROUND)
    (hi : i ≤ e) :
    (e - i + 3 ≤ fuel → run_conditional env fuel w (some i) ≠ .out_of_fuel) ∧
    ∀ w1, (run_conditional env fuel w (some i)).final Prod.fst = some w1 →
      ∃ ev, w1.trace = w.trace ++ ev ∧
        ∀ j st, (j, st) ∈ waits ev → link_at w.heap j = some .AND → WIFEXITED st = true →
          (WEXITSTATUS st ≠ 0 →
            ∀ m, j < m →
              (∀ q, j < q → q < m →
                link_at w.heap q = some .AND ∨ link_at w.heap q = some .PIPE) →
              m ∉ launches ev) ∧
          (WEXITSTATUS st = 0 → (∀ k, env.fails k = false) →
            (∀ (k : Nat) (n : command), i ≤ k → k ≤ e → w.heap[k]? = some n →
              Launchable n ∧ n.pid = -1) →
            ∀ m, j < m → (∀ q, j < q → q < m → link_at w.heap q = some .PIPE) →
              m ∈ launches ev) := by
  have hnp : link_at w.heap e ≠ some .PIPE := by
    rcases hlast with h | h <;> rw [h] <;> simp
  obtain ⟨hfuel, hev⟩ := run_conditional_events env w e i fuel hch hnp hi
  refine ⟨hfuel, ?_⟩
  intro w1 hfin
  obtain ⟨ev, htr, hin, hsk, hruns⟩ := hev w1 hfin
  refine ⟨ev, htr, ?_⟩
  intro j st hmem hl hex
  refine ⟨fun hne => hsk j st .AND hmem hl ⟨hex, Or.inl ⟨hne, rfl⟩⟩, ?_⟩
  intro hz hE hnodes m hm hq
  have hje := (hin.2 _ hmem).2
  simp only at hje
  have hjlt : j < e := by
    rcases Nat.lt_or_ge j e with h | h
    · exact h
    · have : j = e := by omega
      subst this
      rcases hlast with h | h <;> rw [h] at hl <;> simp at hl
  have hme : m ≤ e := by
    by_contra hc
    exact hnp (hq e hjlt (by omega))
  exact hruns hE hnodes j st .AND hmem hl ⟨hex, Or.inl ⟨hz, rfl⟩⟩ m hm hme hq

/-- C2: `run_conditional` on node `i` of a chain whose last node `e` has link
`SEQUENCE` or `BACKGROUND` ends (given fuel), and in the events it adds to the
log, for every wait on a node `j` with link `OR` whose status is a normal exit:
with a nonzero code, every node of the pipeline that starts right after `j` is
launched, provided the system calls succeed and the nodes are launchable and
not yet launched; with code 0, no node `m` after `j` is launched as long as all
nodes strictly between `j` and `m` have link `OR` or `PIPE` (so none up to and
including the first node whose link is neither). -/
theorem or_short_circuit (env : Env) (w : World) (e i fuel : Nat)
    (hch : Chain w.heap e)
    (hlast : link_at w.heap e = some .SEQUENCE ∨ link_at w.heap e = some .BACKGROUND)
    (hi : i ≤ e) :
    (e - i + 3 ≤ fuel → run_conditional env fuel w (some i) ≠ .out_of_fuel) ∧
    ∀ w1, (run_conditional env fuel w (some i)).final Prod.fst = some w1 →
      ∃ ev, w1.trace = w.trace ++ ev ∧
        ∀ j st, (j, st) ∈ waits ev → link_at w.heap j = some .OR → WIFEXITED st = true →
          (WEXITSTATUS st ≠ 0 → (∀ k, env.fails k = false) →
            (∀ (k : Nat) (n : command), i ≤ k → k ≤ e → w.heap[k]? = some n →
              Launchable n ∧ n.pid = -1) →
            ∀ m, j < m → (∀ q, j < q → q < m → link_at w.heap q = some .PIPE) →
              m ∈ launches ev) ∧
          (WEXITSTATUS st = 0 →
            ∀ m, j < m →
              (∀ q, j < q → q < m →
                link_at w.heap q = some .OR ∨ link_at w.heap q = some .PIPE) →
              m ∉ launches ev) := by
  have hnp : link_at w.heap e ≠ some .PIPE := by
    rcases hlast with h | h <;> rw [h] <;> simp
  obtain ⟨hfuel, hev⟩ := run_conditional_events env w e i fuel hch hnp hi
  refine ⟨hfuel, ?_⟩
  intro w1 hfin
  obtain ⟨ev, htr, hin, hsk, hruns⟩ := hev w1 hfin
  refine ⟨ev, htr, ?_⟩
  intro j st hmem hl hex
  refine ⟨?_, fun hz => hsk j st .OR hmem hl ⟨hex, Or.inr ⟨hz, rfl⟩⟩⟩
  intro hne hE hnodes m hm hq
  have hje := (hin.2 _ hmem).2
  simp only at hje
  have hjlt : j < e := by
    rcases Nat.lt_or_ge j e with h | h
    · exact h
    · have : j = e := by omega
      subst this
      rcases hlast with h | h <;> rw [h] at hl <;> simp at hl
  have hme : m ≤ e := by
    by_contra hc
    exact hnp (hq e hjlt (by omega))
  exact hruns hE hnodes j st .OR hmem hl ⟨hex, Or.inr ⟨hne, rfl⟩⟩ m hm hme hq

/-- A use of C1: the line `true && false && echo X` launches `true` and
`false` and never `echo X`. -/
theorem and_short_circuit_witness :
    parse_line [.word "true", .and_, .word "false", .and_, .word "echo", .word "X"]
      = .ok and_line (some 0) ∧
    Chain and_line 2 ∧
    run_conditional and_env 5 { heap := and_line } (some 0) ≠ .out_of_fuel ∧
    (∀ w1, (run_conditional and_env 5 { heap := and_line } (some 0)).final Prod.fst = some w1 →
      ∃ ev, w1.trace = ({ heap := and_line } : World).trace ++ ev ∧
        ∀ j st, (j, st) ∈ waits ev → link_at and_line j = some .AND → WIFEXITED st = true →
          (WEXITSTATUS st ≠ 0 →
            ∀ m, j < m →
              (∀ q, j < q → q < m →
                link_at and_line q = some .AND ∨ link_at and_line q = some .PIPE) →
              m ∉ launches ev) ∧
          (WEXITSTATUS st = 0 → (∀ k, and_env.fails k = false) →
            (∀ (k : Nat) (n : command), 0 ≤ k → k ≤ 2 → and_line[k]? = some n →
              Launchable n ∧ n.pid = -1) →
            ∀ m, j < m → (∀ q, j < q → q < m → link_at and_line q = some .PIPE) →
              m ∈ launches ev)) ∧
    ((run_conditional and_env 5 { heap := and_line } (some 0)).final Prod.fst).map
      (fun w1 => launches w1.trace) = some [0, 1] :=
  ⟨by decide, chain_of_ok (by decide),
   (and_short_circuit and_env { heap := and_line } 2 0 5 (chain_of_ok (by decide))
      (Or.inl (by decide)) (by decide)).1 (by decide),
   (and_short_circuit and_env { heap := and_line } 2 0 5 (chain_of_ok (by decide))
      (Or.inl (by decide)) (by decide)).2,
   by decide⟩

/-- A use of C2: the line `false || echo X` launches `false` and `echo X`;
with a first process that exits with code 0 (the line `true || echo X`) only
the first node is launched. -/
theorem or_short_circuit_witness :
    parse_line [.word "false", .or_, .word "echo", .word "X"] = .ok or_line (some 0) ∧
    Chain or_line 1 ∧
    run_conditional or_env 4 { heap := or_line } (some 0) ≠ .out_of_fuel ∧
    (∀ w1, (run_conditional or_env 4 { heap := or_line } (some 0)).final Prod.fst = some w1 →
      ∃ ev, w1.trace = ({ heap := or_line } : World).trace ++ ev ∧
        ∀ j st, (j, st) ∈ waits ev → link_at or_line j = some .OR → WIFEXITED st = true →
          (WEXITSTATUS st ≠ 0 → (∀ k, or_env.fails k = false) →
            (∀ (k : Nat) (n : command), 0 ≤ k → k ≤ 1 → or_line[k]? = some n →
              Launchable n ∧ n.pid = -1) →
            ∀ m, j < m → (∀ q, j < q → q < m → link_at or_line q = some .PIPE) →
              m ∈ launches ev) ∧
          (WEXITSTATUS st = 0 →
            ∀ m, j < m →
              (∀ q, j < q → q < m →
                link_at or_line q = some .OR ∨ link_at or_line q = some .PIPE) →
              m ∉ launches ev)) ∧
    ((run_conditional or_env 4 { heap := or_line } (some 0)).final Prod.fst).map
      (fun w1 => launches w1.trace) = some [0, 1] ∧
    ((run_conditional (calm_env fun _ => 0) 4 { heap := or_line } (some 0)).final Prod.fst).map
      (fun w1 => launches w1.trace) = some [0] :=
  ⟨by decide, chain_of_ok (by decide),
   (or_short_circuit or_env { heap := or_line } 1 0 4 (chain_of_ok (by decide))
      (Or.inl (by decide)) (by decide)).1 (by decide),
   (or_short_circuit or_env { heap := or_line } 1 0 4 (chain_of_ok (by decide))
      (Or.inl (by decide)) (by decide)).2,
   by decide, by decide⟩

/-! ### The `cd` builtin runs in the launching process (C9) -/

theorem Outcome.sat_final_exists {Q : World → Prop} {o : Outcome World}
    (h : o.sat Q Q False) : ∃ w1, o.final id = some w1 ∧ Q w1 := by
  cases o <;> simp_all [Outcome.sat, Outcome.final]

theorem run_before_fork_cd (env : Env) (hE : ∀ k, env.fails k = false) (w : World) (this : Nat)
    (n : command) (path : String) (rest : List String)
    (hn : w.heap[this]? = some n) (hargs : n.args = "cd" :: path :: rest) (hpid : n.pid = -1) :
    ∃ w0, run_before_fork env w this = .ok (sys_chdir env w0 path) ∧ w0.cwd = w.cwd ∧
      ∃ n0, w0.heap[this]? = some n0 ∧ n0.args = n.args := by
  unfold run_before_fork
  rw [hn]
  dsimp only
  rw [if_neg (by simpa using hpid), if_neg (by simp [hargs])]
  by_cases hp : n.link = .PIPE
  · simp only [hp, if_true, sys_pipe, hE, Bool.false_eq_true, if_false, Outcome.bind, hargs,
      List.getElem?_cons_zero, List.getElem?_cons_succ]
    exact ⟨_, rfl, rfl,
      { n with pfd := some (lowest_free w.open_fds,
          lowest_free (lowest_free w.open_fds :: w.open_fds)) },
      by simp [poke_getElem?, hn], hargs⟩
  · simp only [hp, if_false, Outcome.bind, hargs, List.getElem?_cons_zero,
      List.getElem?_cons_succ, if_true]
    exact ⟨w, rfl, rfl, n, hn, hargs⟩

/-- C9 as amended: on a node `cd path ...` that is not yet launched, with
every system call succeeding, `command::run` calls `chdir(path)` in the
launching process before it forks: at the fork the working directory of the
launching process is the new directory when `chdir` succeeded and the old one
when it failed, and it is still so when `command::run` ends; the forked child
starts in that same directory, changes nothing, and exits with status 0 when
the `chdir` of the launching process succeeded and 1 when it failed. -/
theorem cd_runs_in_launching_process (env cenv : Env) (w : World) (this : Nat) (n : command)
    (path : String) (rest : List String)
    (hn : w.heap[this]? = some n) (hargs : n.args = "cd" :: path :: rest) (hpid : n.pid = -1)
    (hsys : ∀ k, env.fails k = false) :
    ∃ w1 m pid wp wc,
      run_before_fork env w this = .ok (w1, m) ∧
      sys_fork env w1 (Event.fork this) = some (pid, wp, wc) ∧
      w1.cwd = (env.chdir w.cwd path).getD w.cwd ∧
      wp.cwd = w1.cwd ∧ wc.cwd = w1.cwd ∧
      run_child cenv wc this m
        = .exited (if (env.chdir w.cwd path).isSome then EXIT_SUCCESS else EXIT_FAILURE) wc ∧
      ∃ w2, (command.run env w this).final id = some w2 ∧ w2.cwd = w1.cwd := by
  obtain ⟨w0, hrun, hcwd, n0, hn0, hargs0⟩ :=
    run_before_fork_cd env hsys w this n path rest hn hargs hpid
  obtain ⟨hheap, _, _, _⟩ := sys_chdir_fields env w0 path
  have hn1 : (sys_chdir env w0 path).1.heap[this]? = some n0 := by rw [hheap]; exact hn0
  have hcd : n0.args[0]? = some "cd" := by rw [hargs0, hargs]; rfl
  have hm : (sys_chdir env w0 path).1.cwd = (env.chdir w.cwd path).getD w.cwd ∧
      (sys_chdir env w0 path).2 = (if (env.chdir w.cwd path).isSome then 0 else -1) := by
    unfold sys_chdir
    rw [hcwd]
    cases env.chdir w.cwd path <;> simp [hcwd]
  have hfork : sys_fork env (sys_chdir env w0 path).1 (Event.fork this) =
      some ((sys_chdir env w0 path).1.last_pid + 1,
        { (sys_chdir env w0 path).1 with
          last_pid := (sys_chdir env w0 path).1.last_pid + 1,
          clock := (sys_chdir env w0 path).1.clock + 1,
          trace := (sys_chdir env w0 path).1.trace ++
            [Event.fork this ((sys_chdir env w0 path).1.last_pid + 1)] },
        { (sys_chdir env w0 path).1 with
          last_pid := (sys_chdir env w0 path).1.last_pid + 1,
          clock := (sys_chdir env w0 path).1.clock + 1,
          trace := [] }) := by
    simp [sys_fork, hsys]
  refine ⟨(sys_chdir env w0 path).1, (sys_chdir env w0 path).2, _, _, _, hrun, hfork, hm.1,
    rfl, rfl, ?_, ?_⟩
  · unfold run_child
    simp only [hn1, hcd, if_true, hm.2]
    cases env.chdir w.cwd path <;> simp [EXIT_SUCCESS, EXIT_FAILURE]
  · have hfin : command.run env w this =
        run_parent env
          { (sys_chdir env w0 path).1 with
            last_pid := (sys_chdir env w0 path).1.last_pid + 1,
            clock := (sys_chdir env w0 path).1.clock + 1,
            trace := (sys_chdir env w0 path).1.trace ++
              [Event.fork this ((sys_chdir env w0 path).1.last_pid + 1)] }
          this ((sys_chdir env w0 path).1.last_pid + 1) := by
      unfold command.run
      rw [hrun]
      simp only [Outcome.bind, hfork]
    rw [hfin]
    obtain ⟨w2, h1, h2⟩ := Outcome.sat_final_exists (Q := fun w1 => _)
      (run_parent_did env _ this ((sys_chdir env w0 path).1.last_pid + 1))
    exact ⟨w2, h1, h2.2⟩

/-- A use of the amended C9: `cd /tmp` from `/` with an existing `/tmp`. -/
theorem cd_runs_in_launching_process_witness :
    ∃ w1 m pid wp wc,
      run_before_fork (calm_env fun _ => 0) { heap := [{ args := ["cd", "/tmp"] }] } 0
        = .ok (w1, m) ∧
      sys_fork (calm_env fun _ => 0) w1 (Event.fork 0) = some (pid, wp, wc) ∧
      w1.cwd = "/tmp" ∧
      wp.cwd = w1.cwd ∧ wc.cwd = w1.cwd ∧
      run_child (calm_env fun _ => 0) wc 0 m = .exited EXIT_SUCCESS wc ∧
      ∃ w2, (command.run (calm_env fun _ => 0) { heap := [{ args := ["cd", "/tmp"] }] } 0).final
        id = some w2 ∧ w2.cwd = w1.cwd :=
  cd_runs_in_launching_process (calm_env fun _ => 0) (calm_env fun _ => 0)
    { heap := [{ args := ["cd", "/tmp"] }] } 0 { args := ["cd", "/tmp"] } "/tmp" [] rfl rfl rfl
    (fun _ => rfl)

/-! ### run_conditional returns when every process exits normally -/

/-- After a pipeline that exited normally, `apply_logic` returns, on a node
from `j` on whose link is not `PIPE`. -/
theorem apply_logic_exited (S : List command) (e : Nat) (hch : Chain S e)
    (hlast : link_at S e = some .SEQUENCE ∨ link_at S e = some .BACKGROUND)
    (w : World) (hS : w.heap.map command.shape = S) (fuel j : Nat) (n : command)
    (hn : w.heap[j]? = some n) (hj : j ≤ e) (hnp : n.link ≠ .PIPE)
    (hex : WIFEXITED n.status = true) :
    (apply_logic w fuel j n).sat
      (fun c2 => ∃ k, c2 = some k ∧ j ≤ k ∧ k ≤ e ∧ link_at S k ≠ some .PIPE)
      (fun _ => False) (fuel < e - j + 2) := by
  have hlink := shape_link_at hS hn
  have skipping : ∀ t : TokType, (t = .AND ∨ t = .OR) →
      (skip_links w t fuel (some j)).sat
        (fun c2 => ∃ k, c2 = some k ∧ j ≤ k ∧ k ≤ e ∧ link_at S k ≠ some .PIPE)
        (fun _ => False) (fuel < e - j + 2) := by
    intro t ht
    refine Outcome.sat_mono (skip_links_spec S e hch t w hS fuel j hj) ?_ (fun _ h => h)
      (fun h => h)
    rintro c ⟨h1, h2⟩
    cases c with
    | none =>
      exfalso
      have := h2 rfl e hj (le_refl _)
      rcases hlast with h | h <;> rw [h] at this <;> rcases ht with rfl | rfl <;> simp at this
    | some k =>
      obtain ⟨a, b, _, c2, _⟩ := h1 k rfl
      exact ⟨k, rfl, a, b, c2⟩
  have stay : (Outcome.ok (some j) : Outcome Ptr).sat
      (fun c2 => ∃ k, c2 = some k ∧ j ≤ k ∧ k ≤ e ∧ link_at S k ≠ some .PIPE)
      (fun _ => False) (fuel < e - j + 2) := by
    refine ⟨j, rfl, le_refl _, hj, ?_⟩
    rw [hlink]; simpa using hnp
  unfold apply_logic
  rw [if_pos hex]
  split
  · exact skipping .AND (Or.inl rfl)
  · split
    · exact skipping .OR (Or.inr rfl)
    · exact stay

/-- With every system call succeeding and every process exiting normally, on a
chain of launchable nodes that ends in `SEQUENCE` or `BACKGROUND`,
`run_conditional` returns when it is started on a not yet launched node `i`
whose predecessor's link is not `PIPE`. -/
theorem run_conditional_returns (env : Env) (hE : ∀ k, env.fails k = false)
    (hst : ∀ p, WIFEXITED (env.wstatus p) = true) (S : List command) (e : Nat)
    (hch : Chain S e)
    (hlast : link_at S e = some .SEQUENCE ∨ link_at S e = some .BACKGROUND) (fuel : Nat) :
    ∀ (w : World) (i : Nat), w.heap.map command.shape = S → i ≤ e →
      (∀ (k : Nat) (n : command), i ≤ k → k ≤ e → w.heap[k]? = some n →
        Launchable n ∧ n.pid = -1) →
      (i = 0 ∨ link_at S (i - 1) ≠ some .PIPE) →
      (run_conditional env fuel w (some i)).sat (fun _ => True) (fun _ => False)
        (fuel < e - i + 3) := by
  have hnp : link_at S e ≠ some .PIPE := by
    rcases hlast with h | h <;> rw [h] <;> simp
  induction fuel with
  | zero => intro w i _ _ _ _; simp [run_conditional, Outcome.sat]
  | succ fuel ih =>
    intro w i hS hi hnodes hfirst
    unfold run_conditional
    obtain ⟨len, h1, h2, h3⟩ := exists_pipeline_end S e hnp (e - i) i (by omega)
    have hprev : ∀ n, w.heap[i]? = some n → PrevReady w i n := by
      intro n hn p hp
      rw [chain_prev hch hS hn hi] at hp
      rcases hfirst with h0 | hne
      · simp [h0] at hp
      · by_cases h0 : i = 0
        · simp [h0] at hp
        · simp only [h0, if_false, Option.some.injEq] at hp
          subst hp
          obtain ⟨pn, hpn⟩ := chain_lookup hch hS (show i - 1 ≤ e by omega)
          refine ⟨by omega, pn, hpn, fun hl => ?_⟩
          exfalso
          apply hne
          rw [shape_link_at hS hpn, hl]
    have hA := run_pipeline_did env S e hch fuel w i hS hi
    have hB := run_pipeline_ok env hE S e hch len fuel w i hS h1
      (fun k n a b hk => (hnodes k n a (by omega) hk).1) h2 h3
      (fun k n a b hk => (hnodes k n a (by omega) hk).2) hprev
    refine Outcome.sat_bind
      (Outcome.sat_mono (Outcome.sat_and hA hB) (fun _ h => h) (fun _ h => h.2)
        (fun h => by have := h.1; omega)) ?_
    rintro ⟨w1, c1⟩ ⟨⟨j, pid, st, Pl, hc, hij, hje, _, hlastj, hd, _, _, n0, hn0, hst0⟩,
      ⟨hc2, _, _, ⟨n1, hn1, hst1, _⟩, _⟩⟩
    simp only at hc hd hn0 hc2 hn1 ⊢
    subst hc
    have hS1 : w1.heap.map command.shape = S := hd.1.trans hS
    have hjl : j = i + len := by
      simp only [Option.some.injEq] at hc2
      exact hc2
    have hn1' : n0 = n1 := by
      have := hn1
      rw [← hjl] at this
      rw [hn0] at this
      simpa using this
    have hex : WIFEXITED n0.status = true := by
      rw [hn1', hst1]; exact hst _
    have hlinkj := shape_link_at hS1 hn0
    have hn0p : n0.link ≠ .PIPE := by
      intro h
      rw [hlinkj, h] at hlastj
      exact hlastj rfl
    dsimp only
    rw [hn0]
    dsimp only
    refine Outcome.sat_bind
      (Outcome.sat_mono
        (apply_logic_exited S e hch hlast w1 hS1 fuel j n0 hn0 hje hn0p hex)
        (fun _ h => h) (fun _ h => h) (by omega)) ?_
    rintro c2 ⟨k, hc, hjk, hke, hkp⟩
    subst hc
    dsimp only
    obtain ⟨n2, hn2⟩ := chain_lookup hch hS1 hke
    rw [hn2]
    dsimp only
    split
    · trivial
    · rw [chain_next hch hS1 hn2 hke]
      by_cases hlt : k < e
      · simp only [hlt, if_true]
        refine Outcome.sat_mono
          (ih w1 (k + 1) hS1 hlt
            (fun q n a b hq => by
              rw [hd.2.2 q (fun h => by have := h.2; omega)] at hq
              exact hnodes q n (by omega) b hq)
            (Or.inr (by simpa using hkp)))
          (fun _ h => h) (fun _ h => h) (by omega)
      · simp only [hlt, if_false]
        cases fuel with
        | zero => simp [run_conditional, Outcome.sat]
        | succ f => simp [run_conditional, Outcome.sat]

/-! ### run_list: units in the foreground and in the background (C4) -/

/-- Every way `scan` can end when started on node `i` of a chain ending at
`e`: on the first node from `i` on whose link is `SEQUENCE` or `BACKGROUND`, or
on null when there is none. -/
theorem scan_spec (S : List command) (e : Nat) (hch : Chain S e)
    (w : World) (hS : w.heap.map command.shape = S) (fuel : Nat) :
    ∀ (i : Nat), i ≤ e →
      (scan w fuel (some i)).sat
        (fun c =>
          (∀ k, c = some k → i ≤ k ∧ k ≤ e ∧
            (link_at S k = some .SEQUENCE ∨ link_at S k = some .BACKGROUND) ∧
            ∀ m, i ≤ m → m < k →
              link_at S m ≠ some .SEQUENCE ∧ link_at S m ≠ some .BACKGROUND) ∧
          (c = none → ∀ m, i ≤ m → m ≤ e →
            link_at S m ≠ some .SEQUENCE ∧ link_at S m ≠ some .BACKGROUND))
        (fun _ => False)
        (fuel < e - i + 2) := by
  induction fuel with
  | zero => intro i _; simp [scan, Outcome.sat]
  | succ fuel ih =>
    intro i hi
    unfold scan
    split
    · rename_i hnone
      obtain ⟨n, hn⟩ := chain_lookup hch hS hi
      rw [hn] at hnone
      simp at hnone
    · rename_i n hn
      have hlink := shape_link_at hS hn
      split
      · rename_i hm
        have him : link_at S i ≠ some .SEQUENCE ∧ link_at S i ≠ some .BACKGROUND := by
          rw [hlink]
          exact ⟨by simpa using hm.1, by simpa using hm.2⟩
        rw [chain_next hch hS hn hi]
        by_cases hlt : i < e
        · simp only [hlt, if_true]
          refine Outcome.sat_mono (ih (i + 1) hlt) ?_ (fun _ h => h) (by omega)
          rintro c ⟨h1, h2⟩
          constructor
          · intro k hk
            obtain ⟨a, b, c1, d⟩ := h1 k hk
            refine ⟨by omega, b, c1, ?_⟩
            intro m hm1 hm2
            by_cases hmi : m = i
            · subst hmi; exact him
            · exact d m (by omega) hm2
          · intro hc m hm1 hm2
            by_cases hmi : m = i
            · subst hmi; exact him
            · exact h2 hc m (by omega) hm2
        · simp only [hlt, if_false]
          have hie : i = e := by omega
          cases fuel with
          | zero => simp [scan, Outcome.sat]
          | succ f =>
            simp only [scan, Outcome.sat]
            refine ⟨fun k hk => by simp at hk, ?_⟩
            intro _ m hm1 hm2
            have : m = i := by omega
            subst this
            exact him
      · rename_i hm
        simp only [Outcome.sat]
        refine ⟨?_, fun h => by simp at h⟩
        intro k hk
        simp only [Option.some.injEq] at hk
        subst hk
        refine ⟨le_refl _, hi, ?_, fun m h1 h2 => by omega⟩
        rw [hlink]
        by_cases hs : n.link = .SEQUENCE
        · exact Or.inl (by rw [hs])
        · right
          have : n.link = .BACKGROUND := by
            by_contra hb
            exact hm ⟨hs, hb⟩
          rw [this]

theorem sys_fork_list_did (env : Env) (w wp wc : World) (i j pid : Nat) (t : Nat → Prop)
    (h : sys_fork env w (Event.fork_list i j) = some (pid, wp, wc)) :
    Did w wp [] t ∧ wp.heap = w.heap ∧ wp.trace = w.trace ++ [Event.fork_list i j pid] ∧
      wc.heap = w.heap ∧ wc.trace = [] := by
  unfold sys_fork at h
  split at h
  · simp at h
  · simp only [Option.some.injEq, Prod.mk.injEq] at h
    obtain ⟨rfl, rfl, rfl⟩ := h
    exact ⟨⟨rfl, ⟨_, rfl, rfl⟩, fun _ _ => rfl⟩, rfl, rfl, rfl, rfl⟩

theorem reap_zombies_did (env : Env) (w : World) (t : Nat → Prop) :
    Did w (reap_zombies env w) [] t := by
  refine ⟨rfl, ⟨_, rfl, ?_⟩, fun _ _ => rfl⟩
  simp [procs, List.filter_map, Function.comp_def]

theorem inside_nil (lo hi : Nat) : Inside lo hi [] :=
  ⟨by simp [launches], by simp [waits]⟩

theorem inside_append {lo hi : Nat} {a b : List Event} (ha : Inside lo hi a)
    (hb : Inside lo hi b) : Inside lo hi (a ++ b) := by
  constructor
  · intro m hm
    rw [launches_append, List.mem_append] at hm
    rcases hm with h | h
    · exact ha.1 m h
    · exact hb.1 m h
  · intro x hx
    rw [waits_append, List.mem_append] at hx
    rcases hx with h | h
    · exact ha.2 x h
    · exact hb.2 x h

theorem inside_mono {lo lo2 hi : Nat} {a : List Event} (ha : Inside lo2 hi a)
    (h : lo ≤ lo2) : Inside lo hi a :=
  ⟨fun m hm => by have := ha.1 m hm; omega, fun x hx => by have := ha.2 x hx; omega⟩

/-- Every way `run_list` can end in the scheduling process when started on
node `i` of a chain ending at `e`. -/
theorem run_list_did (env : Env) (S : List command) (e : Nat) (hch : Chain S e)
    (fuel : Nat) :
    ∀ (w : World) (i : Nat), w.heap.map command.shape = S → i ≤ e →
      (run_list env fuel w (some i)).sat
        (fun w1 => ∃ P, Did w w1 P (fun k => i ≤ k ∧ k ≤ e) ∧ Inside i e P)
        (fun w1 => ∃ P, Did w w1 P (fun k => i ≤ k ∧ k ≤ e) ∧ Inside i e P)
        (fuel < e - i + 4) := by
  induction fuel with
  | zero => intro w i _ _; simp [run_list, Outcome.sat]
  | succ fuel ih =>
    intro w i hS hi
    have here : ∃ P, Did w w P (fun k => i ≤ k ∧ k ≤ e) ∧ Inside i e P :=
      ⟨[], Did.refl _ _, inside_nil _ _⟩
    -- the rest of the list, from the node after `k`, in a state `w1` reached from `w`
    have rest : ∀ (w1 : World) (P : List Event) (k : Nat),
        Did w w1 P (fun q => i ≤ q ∧ q ≤ e) → Inside i e P → i ≤ k → k ≤ e →
        (run_list env fuel w1 (if k < e then some (k + 1) else none)).sat
          (fun w2 => ∃ P, Did w w2 P (fun q => i ≤ q ∧ q ≤ e) ∧ Inside i e P)
          (fun w2 => ∃ P, Did w w2 P (fun q => i ≤ q ∧ q ≤ e) ∧ Inside i e P)
          (fuel + 1 < e - i + 4) := by
      intro w1 P k hd hin hik hke
      have hS1 : w1.heap.map command.shape = S := hd.1.trans hS
      by_cases hlt : k < e
      · simp only [hlt, if_true]
        refine Outcome.sat_mono (ih w1 (k + 1) hS1 hlt) ?_ ?_ (by omega)
        · rintro w2 ⟨P2, hd2, hin2⟩
          exact ⟨P ++ P2, hd.trans hd2 (fun _ h => h) (fun q hq => ⟨by have := hq.1; omega, hq.2⟩),
            inside_append hin (inside_mono hin2 (by omega))⟩
        · rintro w2 ⟨P2, hd2, hin2⟩
          exact ⟨P ++ P2, hd.trans hd2 (fun _ h => h) (fun q hq => ⟨by have := hq.1; omega, hq.2⟩),
            inside_append hin (inside_mono hin2 (by omega))⟩
      · simp only [hlt, if_false]
        cases fuel with
        | zero => simp [run_list, Outcome.sat]
        | succ f =>
          simp only [run_list, Outcome.sat]
          refine ⟨P ++ [], ?_, by simpa using hin⟩
          exact hd.trans (reap_zombies_did env w1 (fun _ => False)) (fun _ h => h)
            (fun _ h => h.elim)
    unfold run_list
    refine Outcome.sat_bind
      (Outcome.sat_mono (scan_spec S e hch w hS fuel i hi) (fun _ h => h)
        (fun _ h => h.elim) (by omega)) ?_
    rintro c ⟨hk1, hk2⟩
    split
    · exact here
    · rename_i j
      obtain ⟨hij, hje, _, _⟩ := hk1 j rfl
      split
      · exact here
      · rename_i n hn
        split
        · split
          · exact here
          · rename_i pid wp wc hf
            obtain ⟨hd, _, _, _, _⟩ := sys_fork_list_did env w wp wc i j pid
              (fun q => i ≤ q ∧ q ≤ e) hf
            rw [chain_next hch hS hn hje]
            exact rest wp [] j hd (inside_nil _ _) hij hje
        · refine Outcome.sat_bind
            (Outcome.sat_mono (run_conditional_did env S e hch fuel w i hS hi) (fun _ h => h)
              (fun w1 ⟨P, a, b, _⟩ => ⟨P, a, b⟩) (by omega)) ?_
          rintro ⟨w1, c1⟩ ⟨P, hd, hin, _, hpos⟩
          simp only at hd hpos ⊢
          have hS1 : w1.heap.map command.shape = S := hd.1.trans hS
          split
          · cases fuel with
            | zero => simp [run_list, Outcome.sat]
            | succ f =>
              simp only [run_list, Outcome.sat]
              refine ⟨P ++ [], ?_, by simpa using hin⟩
              exact hd.trans (reap_zombies_did env w1 (fun _ => False)) (fun _ h => h)
                (fun _ h => h.elim)
          · rename_i k
            obtain ⟨hik, hke, _, _⟩ := hpos.1 k rfl
            split
            · exact ⟨P, hd, hin⟩
            · rename_i n1 hn1
              rw [chain_next hch hS1 hn1 hke]
              exact rest w1 P k hd hin hik hke

theorem chain_truncate {h : List command} {e j : Nat} (hch : Chain h e) (hj : j ≤ e) :
    Chain (poke h j (fun n => { n with next := none })) j := by
  refine ⟨by rw [poke_length]; have := hch.1; omega, ?_⟩
  intro k n hk hkj
  rw [poke_getElem?] at hk
  by_cases hkeq : k = j
  · subst hkeq
    simp only [if_true] at hk
    cases hn : h[k]? with
    | none => simp [hn] at hk
    | some n0 =>
      simp only [hn, Option.map_some', Option.some.injEq] at hk
      subst hk
      exact ⟨by simp, (hch.2 k n0 hn hj).2⟩
  · simp only [hkeq, if_false] at hk
    have := hch.2 k n hk (by omega)
    have hlt : k < j := by omega
    have hlt2 : k < e := by omega
    simpa [hlt, hlt2] using this

theorem inside_of_procs {lo hi : Nat} {ev : List Event} (h : Inside lo hi (procs ev)) :
    Inside lo hi ev := by
  simpa [Inside, launches_procs, waits_procs] using h

theorem Outcome.sat_final_bad {B : World → Prop} {o : Outcome World}
    (h : o.sat (fun _ => False) B True) (w2 : World) (hf : o.final id = some w2) : B w2 := by
  cases o <;> simp_all [Outcome.sat, Outcome.final]

/-- Every way the process forked for a background unit can end: it never
returns, and it launches and waits for nodes of the unit only. -/
theorem background_child_inside (env : Env) (fuel : Nat) (wc : World) (e i j : Nat)
    (hch : Chain wc.heap e) (hij : i ≤ j) (hje : j ≤ e) (htr : wc.trace = []) :
    (background_child env fuel wc (some i) j).sat (fun _ => False)
      (fun w2 => Inside i j w2.trace) True := by
  unfold background_child
  have hch2 : Chain
      (({ wc with heap := poke wc.heap j (fun n => { n with next := none }) } : World).heap.map
        command.shape) j := chain_shape (chain_truncate hch hje)
  have key : ∀ (w2 : World) (P : List Event),
      Did { wc with heap := poke wc.heap j (fun n => { n with next := none }) } w2 P
        (fun k => i ≤ k ∧ k ≤ j) → Inside i j P → Inside i j w2.trace := by
    intro w2 P hd hin
    obtain ⟨_, ⟨ev, hev, hP⟩, _⟩ := hd
    subst hP
    simp only [htr, List.nil_append] at hev
    rw [hev]
    exact inside_of_procs hin
  refine Outcome.sat_bind
    (Outcome.sat_mono (run_conditional_did env _ j hch2 fuel _ i rfl hij)
      (fun r ⟨P, a, b, _⟩ => key r.1 P a b) (fun w2 ⟨P, a, b, _⟩ => key w2 P a b)
      (fun _ => trivial)) ?_
  rintro ⟨w2, c2⟩ h
  exact h

/-- C4: on node `i` of a command list whose last node `e` has link `SEQUENCE`
or `BACKGROUND`, one round of `run_list` handles the unit `i .. j`, where `j`,
the node `scan` returns, is the first node from `i` on whose link is
`SEQUENCE` or `BACKGROUND`.
If the link of `j` is `BACKGROUND` and the fork succeeds, the scheduling
process logs the fork and nothing else, goes on with the node right after `j`,
and to the end of `run_list` launches and waits for nodes after `j` only; the
forked copy, whose log starts empty, runs `run_conditional` from `i` on the
list cut after `j` and then exits with status 0, it never returns, and it
launches and waits for nodes `i .. j` only.
If the link of `j` is `SEQUENCE`, `run_conditional` runs in the scheduling
process from `i`, does not run out of fuel, and when it returns it has left `c`
on `j`, after which `run_list` goes on with the node right after `j`; when it
does not return, `run_list` ends as `run_conditional` ended; and it does return
when every system call succeeds, every process exits normally, the nodes from
`i` on are launchable and not yet launched, and the link before `i` is not
`PIPE`. -/
theorem run_list_schedules_units (env : Env) (w : World) (e i fuel : Nat)
    (hch : Chain w.heap e)
    (hlast : link_at w.heap e = some .SEQUENCE ∨ link_at w.heap e = some .BACKGROUND)
    (hi : i ≤ e) (hfuel : e - i + 3 ≤ fuel) :
    ∃ j n, i ≤ j ∧ j ≤ e ∧ w.heap[j]? = some n ∧
      (n.link = .SEQUENCE ∨ n.link = .BACKGROUND) ∧
      (∀ m, i ≤ m → m < j →
        link_at w.heap m ≠ some .SEQUENCE ∧ link_at w.heap m ≠ some .BACKGROUND) ∧
      scan w fuel (some i) = .ok (some j) ∧
      n.next = (if j < e then some (j + 1) else none) ∧
      (n.link = .BACKGROUND →
        ∀ pid wp wc, sys_fork env w (Event.fork_list i j) = some (pid, wp, wc) →
          run_list env (fuel + 1) w (some i) = run_list env fuel wp n.next ∧
          wp.heap = w.heap ∧ wp.trace = w.trace ++ [Event.fork_list i j pid] ∧
          (∀ w2, (run_list env (fuel + 1) w (some i)).final id = some w2 →
            ∃ ev, w2.trace = w.trace ++ ev ∧
              (∀ m ∈ launches ev, j < m) ∧ (∀ x ∈ waits ev, j < x.1)) ∧
          wc.heap = w.heap ∧ wc.trace = [] ∧
          ∀ (cenv : Env) (cfuel : Nat),
            background_child cenv cfuel wc (some i) j =
              (run_conditional cenv cfuel
                { wc with heap := poke wc.heap j (fun n => { n with next := none }) }
                (some i)).bind (fun r => .exited 0 r.1) ∧
            (∀ w2, background_child cenv cfuel wc (some i) j ≠ .ok w2) ∧
            (∀ w2, (background_child cenv cfuel wc (some i) j).final id = some w2 →
              (∀ m ∈ launches w2.trace, i ≤ m ∧ m ≤ j) ∧
              (∀ x ∈ waits w2.trace, i ≤ x.1 ∧ x.1 ≤ j))) ∧
      (n.link = .SEQUENCE →
        run_conditional env fuel w (some i) ≠ .out_of_fuel ∧
        (∀ w1 c1, run_conditional env fuel w (some i) = .ok (w1, c1) →
          c1 = some j ∧
          run_list env (fuel + 1) w (some i) = run_list env fuel w1 n.next) ∧
        ((∀ r, run_conditional env fuel w (some i) ≠ .ok r) →
          (run_list env (fuel + 1) w (some i)).final id
            = (run_conditional env fuel w (some i)).final Prod.fst) ∧
        ((∀ k, env.fails k = false) → (∀ p, WIFEXITED (env.wstatus p) = true) →
          (∀ (k : Nat) (n : command), i ≤ k → k ≤ e → w.heap[k]? = some n →
            Launchable n ∧ n.pid = -1) →
          (i = 0 ∨ link_at w.heap (i - 1) ≠ some .PIPE) →
          ∃ w1, run_conditional env fuel w (some i) = .ok (w1, some j))) := by
  have hchS := chain_shape hch
  -- what `scan` returns
  obtain ⟨c, hscan, hc1, hc2⟩ := Outcome.sat_ok
    (Outcome.sat_mono (scan_spec (w.heap.map command.shape) e hchS w rfl fuel i hi)
      (fun _ h => h) (fun _ h => h) (fun h => by omega))
  cases c with
  | none =>
    exfalso
    have := hc2 rfl e hi (le_refl _)
    rw [link_at_shape] at this
    rcases hlast with h | h
    · exact this.1 h
    · exact this.2 h
  | some j =>
    obtain ⟨hij, hje, hjl, hbefore⟩ := hc1 j rfl
    obtain ⟨n, hn⟩ := chain_lookup hchS rfl hje
    have hnl : link_at w.heap j = some n.link := by simp [link_at, hn]
    have hnext := chain_next hchS rfl hn hje
    have hrl : run_list env (fuel + 1) w (some i) =
        if n.link = .BACKGROUND then
          match sys_fork env w (Event.fork_list i j) with
          | none => error_msg w
          | some (_, wp, _) => run_list env fuel wp n.next
        else
          (run_conditional env fuel w (some i)).bind fun (w1, c1) =>
            match c1 with
            | none => run_list env fuel w1 none
            | some k =>
              match w1.heap[k]? with
              | none => .undef w1
              | some n1 => run_list env fuel w1 n1.next := by
      rw [run_list, hscan]
      simp only [Outcome.bind, hn]
    refine ⟨j, n, hij, hje, hn, ?_, ?_, hscan, hnext, ?_, ?_⟩
    · rw [link_at_shape, hnl] at hjl
      simpa using hjl
    · intro m h1 h2
      have := hbefore m h1 h2
      rwa [link_at_shape] at this
    · -- a unit for the background
      intro hbg pid wp wc hf
      obtain ⟨hd, hwph, hwpt, hwch, hwct⟩ := sys_fork_list_did env w wp wc i j pid
        (fun _ => False) hf
      have hrun : run_list env (fuel + 1) w (some i) = run_list env fuel wp n.next := by
        rw [hrl, if_pos hbg, hf]
      refine ⟨hrun, hwph, hwpt, ?_, hwch, hwct, ?_⟩
      · intro w2 hfin
        rw [hrun, hnext] at hfin
        by_cases hlt : j < e
        · simp only [hlt, if_true] at hfin
          have hS1 : wp.heap.map command.shape = w.heap.map command.shape := by rw [hwph]
          obtain ⟨P, ⟨_, ⟨ev, hev, hP⟩, _⟩, hin⟩ :=
            Outcome.sat_final (Q := fun w2 => ∃ P, Did wp w2 P (fun k => j + 1 ≤ k ∧ k ≤ e) ∧
              Inside (j + 1) e P)
              (run_list_did env _ e hchS fuel wp (j + 1) hS1 hlt) w2 hfin
          subst hP
          have hin2 := inside_of_procs hin
          refine ⟨Event.fork_list i j pid :: ev, by rw [hev, hwpt]; simp, ?_, ?_⟩
          · intro m hm
            simp only [launches, List.filterMap_cons] at hm
            have := hin2.1 m hm
            omega
          · intro x hx
            simp only [waits, List.filterMap_cons] at hx
            have := hin2.2 x hx
            omega
        · simp only [hlt, if_false] at hfin
          cases fuel with
          | zero => omega
          | succ f =>
            simp only [run_list, Outcome.final, Option.some.injEq] at hfin
            subst hfin
            refine ⟨Event.fork_list i j pid :: (env.zombies wp.clock).map Event.reap,
              by simp [reap_zombies, hwpt], ?_, ?_⟩
            · intro m hm
              simp [launches, List.filterMap_map, Function.comp_def] at hm
            · intro x hx
              simp [waits, List.filterMap_map, Function.comp_def] at hx
      · intro cenv cfuel
        have hsat := background_child_inside cenv cfuel wc e i j (by rw [hwch]; exact hch)
          hij hje hwct
        refine ⟨rfl, ?_, ?_⟩
        · intro w2 hok
          rw [hok] at hsat
          exact hsat
        · intro w2 hfin
          exact Outcome.sat_final_bad hsat w2 hfin
    · -- a unit for the foreground
      intro hseq
      have hnbg : n.link ≠ .BACKGROUND := by rw [hseq]; simp
      have hdid := run_conditional_did env (w.heap.map command.shape) e hchS fuel w i rfl hi
      have hpos : ∀ w1 c1, run_conditional env fuel w (some i) = .ok (w1, c1) →
          c1 = some j ∧ w1.heap.map command.shape = w.heap.map command.shape := by
        intro w1 c1 hok
        rw [hok] at hdid
        obtain ⟨P, hd, _, _, hpos⟩ := hdid
        simp only at hd hpos
        have hjseq : link_at (w.heap.map command.shape) j = some .SEQUENCE := by
          rw [link_at_shape, hnl, hseq]
        refine ⟨?_, hd.1⟩
        cases c1 with
        | none => exact absurd hjseq (hpos.2 rfl j hij hje)
        | some k =>
          obtain ⟨hik, hke, hks, hkb⟩ := hpos.1 k rfl
          have h1 : ¬ k < j := fun h => (hbefore k hik h).1 hks
          have h2 : ¬ j < k := fun h => hkb j hij h hjseq
          have : k = j := by omega
          rw [this]
      refine ⟨Outcome.sat_fuel hdid (by omega), ?_, ?_, ?_⟩
      · intro w1 c1 hok
        rw [hok] at hdid
        obtain ⟨P, hd, _, _, hpos⟩ := hdid
        simp only at hd hpos
        have hS1 : w1.heap.map command.shape = w.heap.map command.shape := hd.1
        have hjseq : link_at (w.heap.map command.shape) j = some .SEQUENCE := by
          rw [link_at_shape, hnl, hseq]
        have hcj : c1 = some j := by
          cases c1 with
          | none => exact absurd hjseq (hpos.2 rfl j hij hje)
          | some k =>
            obtain ⟨hik, hke, hks, hkb⟩ := hpos.1 k rfl
            have h1 : ¬ k < j := fun h => (hbefore k hik h).1 hks
            have h2 : ¬ j < k := fun h => hkb j hij h hjseq
            have : k = j := by omega
            rw [this]
        refine ⟨hcj, ?_⟩
        subst hcj
        obtain ⟨n1, hn1⟩ := chain_lookup hchS hS1 hje
        rw [hrl, if_neg hnbg, hok]
        simp only [Outcome.bind, hn1]
        rw [chain_next hchS hS1 hn1 hje, hnext]
      · intro hnot
        rw [hrl, if_neg hnbg]
        cases hr : run_conditional env fuel w (some i) with
        | ok r => exact absurd hr (hnot r)
        | exited c w1 => rfl
        | execd a w1 => rfl
        | aborted w1 => rfl
        | undef w1 => rfl
        | out_of_fuel => rfl
      · intro hE hst hnodes hfirst
        obtain ⟨⟨w1, c1⟩, hok, _⟩ := Outcome.sat_ok
          (Outcome.sat_mono
            (run_conditional_returns env hE hst (w.heap.map command.shape) e hchS
              (by rw [link_at_shape]; exact hlast) fuel w i rfl hi hnodes
              (by rw [link_at_shape]; exact hfirst))
            (fun _ h => h) (fun _ h => h) (fun h => by omega))
        have := (hpos w1 c1 hok).1
        subst this
        exact ⟨w1, hok⟩

/-- A use of C4: the line `a & b`, whose first unit is `a &`.  The scheduling
process forks once for the unit and then launches and waits for `b` only; the
forked copy launches and waits for `a`; on the second unit, `b`,
`run_conditional` returns with `c` on `b`. -/
theorem run_list_schedules_units_witness :
    parse_line [.word "a", .background, .word "b"] = .ok bg_line (some 0) ∧
    Chain bg_line 1 ∧
    (∃ j n, 0 ≤ j ∧ j ≤ 1 ∧ bg_line[j]? = some n ∧
      (n.link = .SEQUENCE ∨ n.link = .BACKGROUND) ∧
      (∀ m, 0 ≤ m → m < j →
        link_at bg_line m ≠ some .SEQUENCE ∧ link_at bg_line m ≠ some .BACKGROUND) ∧
      scan { heap := bg_line } 4 (some 0) = .ok (some j) ∧
      n.next = (if j < 1 then some (j + 1) else none) ∧
      (n.link = .BACKGROUND →
        ∀ pid wp wc,
          sys_fork (calm_env fun _ => 0) { heap := bg_line } (Event.fork_list 0 j)
            = some (pid, wp, wc) →
          run_list (calm_env fun _ => 0) (4 + 1) { heap := bg_line } (some 0)
            = run_list (calm_env fun _ => 0) 4 wp n.next ∧
          wp.heap = bg_line ∧
          wp.trace = ({ heap := bg_line } : World).trace ++ [Event.fork_list 0 j pid] ∧
          (∀ w2, (run_list (calm_env fun _ => 0) (4 + 1) { heap := bg_line } (some 0)).final id
              = some w2 →
            ∃ ev, w2.trace = ({ heap := bg_line } : World).trace ++ ev ∧
              (∀ m ∈ launches ev, j < m) ∧ (∀ x ∈ waits ev, j < x.1)) ∧
          wc.heap = bg_line ∧ wc.trace = [] ∧
          ∀ (cenv : Env) (cfuel : Nat),
            background_child cenv cfuel wc (some 0) j =
              (run_conditional cenv cfuel
                { wc with heap := poke wc.heap j (fun n => { n with next := none }) }
                (some 0)).bind (fun r => .exited 0 r.1) ∧
            (∀ w2, background_child cenv cfuel wc (some 0) j ≠ .ok w2) ∧
            (∀ w2, (background_child cenv cfuel wc (some 0) j).final id = some w2 →
              (∀ m ∈ launches w2.trace, 0 ≤ m ∧ m ≤ j) ∧
              (∀ x ∈ waits w2.trace, 0 ≤ x.1 ∧ x.1 ≤ j))) ∧
      (n.link = .SEQUENCE →
        run_conditional (calm_env fun _ => 0) 4 { heap := bg_line } (some 0) ≠ .out_of_fuel ∧
        (∀ w1 c1,
          run_conditional (calm_env fun _ => 0) 4 { heap := bg_line } (some 0) = .ok (w1, c1) →
          c1 = some j ∧
          run_list (calm_env fun _ => 0) (4 + 1) { heap := bg_line } (some 0)
            = run_list (calm_env fun _ => 0) 4 w1 n.next) ∧
        ((∀ r, run_conditional (calm_env fun _ => 0) 4 { heap := bg_line } (some 0) ≠ .ok r) →
          (run_list (calm_env fun _ => 0) (4 + 1) { heap := bg_line } (some 0)).final id
            = (run_conditional (calm_env fun _ => 0) 4 { heap := bg_line }
                (some 0)).final Prod.fst) ∧
        ((∀ k, (calm_env fun _ => 0).fails k = false) →
          (∀ p, WIFEXITED ((calm_env fun _ => 0).wstatus p) = true) →
          (∀ (k : Nat) (n : command), 0 ≤ k → k ≤ 1 → bg_line[k]? = some n →
            Launchable n ∧ n.pid = -1) →
          (0 = 0 ∨ link_at bg_line (0 - 1) ≠ some .PIPE) →
          ∃ w1, run_conditional (calm_env fun _ => 0) 4 { heap := bg_line } (some 0)
            = .ok (w1, some j)))) ∧
    ((run_list (calm_env fun _ => 0) 5 { heap := bg_line } (some 0)).final id).map World.trace
      = some [Event.fork_list 0 0 1, Event.fork 1 2, Event.waitpid 1 2 0] ∧
    ((background_child (calm_env fun _ => 0) 4
        { heap := bg_line, last_pid := 1, clock := 1 } (some 0) 0).final id).map World.trace
      = some [Event.fork 0 2, Event.waitpid 0 2 0] ∧
    (run_conditional (calm_env fun _ => 0) 4 { heap := bg_line } (some 1)).bind
        (fun r => Outcome.ok r.2)
      = .ok (some 1) :=
  ⟨by decide, chain_of_ok (by decide),
   run_list_schedules_units (calm_env fun _ => 0) { heap := bg_line } 1 0 4
     (chain_of_ok (by decide)) (Or.inl (by decide)) (by decide) (by decide),
   by decide, by decide, by decide⟩

/-! ### Descriptor tables -/

theorem lookup_cons_if (t : List (Nat × FileObj)) (k x : Nat) (o : FileObj) :
    ((k, o) :: t).lookup x = if x = k then some o else t.lookup x := by
  rw [List.lookup_cons]
  by_cases hx : x = k
  · subst hx; simp
  · have : (x == k) = false := by simpa using hx
    simp [this, hx]

theorem lookup_filter_ne (fds : List (Nat × FileObj)) (fd x : Nat) :
    (fds.filter (fun e => e.1 != fd)).lookup x = if x = fd then none else fds.lookup x := by
  induction fds with
  | nil => simp
  | cons a t ih =>
    obtain ⟨k, o⟩ := a
    by_cases hk : k = fd
    · subst hk
      simp only [List.filter, bne_self_eq_false, ih, lookup_cons_if]
      by_cases hx : x = k <;> simp [hx]
    · have : (k != fd) = true := by simpa using hk
      simp only [List.filter, this, lookup_cons_if, ih]
      by_cases hx : x = k
      · subst hx; simp [hk]
      · simp [hx]

theorem lookup_snoc (fds : List (Nat × FileObj)) (fd x : Nat) (o : FileObj)
    (h : fds.lookup fd = none) :
    (fds ++ [(fd, o)]).lookup x = if x = fd then some o else fds.lookup x := by
  rw [List.lookup_append]
  by_cases hx : x = fd
  · subst hx; simp [h]
  · simp only [hx, if_false, lookup_cons_if, List.lookup_nil]
    cases fds.lookup x <;> simp

theorem mem_open_fds_iff (w : World) (fd : Nat) :
    fd ∈ w.open_fds ↔ w.fds.lookup fd ≠ none := by
  simp only [World.open_fds, ne_eq, List.lookup_eq_none_iff, List.mem_map]
  constructor
  · rintro ⟨a, ha, rfl⟩ h
    simpa using h a ha
  · intro h
    simp only [not_forall] at h
    obtain ⟨a, ha, h2⟩ := h
    refine ⟨a, ha, ?_⟩
    simp only [bne_iff_ne, ne_eq, not_not] at h2
    exact h2.symm

theorem sys_dup2_ok (env : Env) (hE : ∀ k, env.fails k = false) (w : World) (src dst : Nat)
    (obj : FileObj) (h : w.fds.lookup src = some obj) :
    sys_dup2 env w src dst = some { w with
      fds := if src = dst then w.fds else (dst, obj) :: w.fds.filter (fun e => e.1 != dst),
      clock := w.clock + 1,
      trace := w.trace ++ [.dup2 src dst] } := by
  simp [sys_dup2, hE, h]

theorem sys_open_ok (env : Env) (hE : ∀ k, env.fails k = false) (w : World) (path : String)
    (flags : Nat) (h : env.can_open path flags = true) :
    sys_open env w path flags = some ({ w with
      fds := w.fds ++ [(lowest_free w.open_fds, .file path flags)],
      clock := w.clock + 1,
      trace := w.trace ++ [.open_ path flags (lowest_free w.open_fds)] },
      lowest_free w.open_fds) := by
  simp [sys_open, hE, h]

/-- With every system call succeeding, `connect_pipes` on an open pipe end
`fd` other than `data_stream` returns: `data_stream` then refers to what `fd`
referred to, `fd` is closed, every other descriptor is as before. -/
theorem connect_pipes_ok (env : Env) (hE : ∀ k, env.fails k = false) (w : World)
    (c pfd_end ds : Nat) (cn : command) (r wr : Nat) (obj : FileObj)
    (hc : w.heap[c]? = some cn) (hpfd : cn.pfd = some (r, wr))
    (hopen : w.fds.lookup (if pfd_end = 0 then r else wr) = some obj)
    (hne : (if pfd_end = 0 then r else wr) ≠ ds) :
    ∃ w1, connect_pipes env w c pfd_end ds = .ok w1 ∧ w1.heap = w.heap ∧
      w1.trace = w.trace ++ [.dup2 (if pfd_end = 0 then r else wr) ds,
                             .close (if pfd_end = 0 then r else wr)] ∧
      ∀ x, w1.fds.lookup x =
        if x = (if pfd_end = 0 then r else wr) then none
        else if x = ds then some obj else w.fds.lookup x := by
  generalize hfd : (if pfd_end = 0 then r else wr) = fd at hopen hne ⊢
  unfold connect_pipes
  simp only [hc, hpfd, hfd]
  rw [sys_dup2_ok env hE w fd ds obj hopen]
  simp only [if_neg hne]
  rw [sys_close_ok env hE _ fd (by
    rw [mem_open_fds_iff]
    simp only [lookup_cons_if, lookup_filter_ne, hne, if_false, hopen]
    simp)]
  refine ⟨_, rfl, rfl, by simp, ?_⟩
  intro x
  simp only [lookup_filter_ne, lookup_cons_if]
  by_cases h1 : x = fd
  · simp [h1]
  · by_cases h2 : x = ds
    · simp [h1, h2]
    · simp [h1, h2]

/-- With every system call succeeding and the file openable, `redir` returns:
`data_stream`, if it was open, then refers to the file, and every other
descriptor is as before. -/
theorem redir_ok (env : Env) (hE : ∀ k, env.fails k = false) (w : World) (path : String)
    (flags ds : Nat) (hopen : env.can_open path flags = true) :
    ∃ w1 fd, redir env w path flags ds = .ok w1 ∧ w1.heap = w.heap ∧
      w1.trace = w.trace ++ [.open_ path flags fd, .dup2 fd ds, .close fd] ∧
      (∀ x, x ≠ ds → w1.fds.lookup x = w.fds.lookup x) ∧
      (w.fds.lookup ds ≠ none → w1.fds.lookup ds = some (.file path flags)) := by
  have hfree : w.fds.lookup (lowest_free w.open_fds) = none := by
    by_contra h
    exact lowest_free_not_mem w.open_fds ((mem_open_fds_iff _ _).2 h)
  unfold redir
  rw [sys_open_ok env hE w path flags hopen]
  simp only
  rw [sys_dup2_ok env hE _ (lowest_free w.open_fds) ds (.file path flags)
    (by simp [lookup_snoc _ _ _ _ hfree])]
  simp only
  rw [sys_close_ok env hE _ (lowest_free w.open_fds) (by
    rw [mem_open_fds_iff]
    simp only
    split
    · simp [lookup_snoc _ _ _ _ hfree]
    · rename_i hne
      simp [lookup_cons_if, lookup_filter_ne, lookup_snoc _ _ _ _ hfree, hne])]
  refine ⟨_, lowest_free w.open_fds, rfl, rfl, by simp, ?_, ?_⟩
  · intro x hx
    simp only [lookup_filter_ne]
    by_cases h1 : x = lowest_free w.open_fds
    · simp [h1, hfree]
    · simp only [h1, if_false]
      split
      · simp [lookup_snoc _ _ _ _ hfree, h1]
      · simp only [lookup_cons_if, lookup_filter_ne, lookup_snoc _ _ _ _ hfree, h1, hx,
          if_false]
  · intro hds
    have hne : lowest_free w.open_fds ≠ ds := by
      intro h; rw [h] at hfree; exact hds hfree
    simp only [lookup_filter_ne, if_neg hne, if_neg (Ne.symm hne), lookup_cons_if, if_true]

/-! ### The child: pipes first, redirections afterwards (C11) -/

theorem redir_if_ok (env : Env) (hE : ∀ k, env.fails k = false) (w : World) (b : Bool)
    (path : String) (flags ds : Nat) (hopen : b = true → env.can_open path flags = true) :
    ∃ w1 fd, (if b = true then redir env w path flags ds else .ok w) = .ok w1 ∧
      w1.heap = w.heap ∧
      w1.trace = w.trace ++ (if b = true then redir_calls path flags ds fd else []) ∧
      (∀ x, x ≠ ds → w1.fds.lookup x = w.fds.lookup x) ∧
      (b = true → w.fds.lookup ds ≠ none → w1.fds.lookup ds = some (.file path flags)) := by
  cases b with
  | false => exact ⟨w, 0, by simp, rfl, by simp, fun _ _ => rfl, by simp⟩
  | true =>
    obtain ⟨w1, fd, h1, h2, h3, h4, h5⟩ := redir_ok env hE w path flags ds (hopen rfl)
    exact ⟨w1, fd, by simpa using h1, h2, by simpa [redir_calls] using h3, h4, fun _ => h5⟩

/-- Lines 149-152 in a child whose predecessor is ready: the read end of the
predecessor's pipe, when there is one, becomes standard input and is closed. -/
theorem wire_in_ok (env : Env) (hE : ∀ k, env.fails k = false) (w : World) (this : Nat)
    (n : command) (hprev : PrevReady w this n)
    (hpr : ∀ r, prev_read_end w n = some r → r ≠ STDIN_FILENO) :
    ∃ w1, (match n.prev with
        | none => Outcome.ok w
        | some p =>
          match w.heap[p]? with
          | none => Outcome.undef w
          | some pn =>
            if pn.link = TokType.PIPE then connect_pipes env w p 0 STDIN_FILENO
            else Outcome.ok w) = .ok w1 ∧
      w1.heap = w.heap ∧
      w1.trace = w.trace ++ (match prev_read_end w n with
        | some r => [.dup2 r STDIN_FILENO, .close r]
        | none => []) ∧
      ∀ x, w1.fds.lookup x =
        match prev_read_end w n with
        | some r => if x = r then none else if x = STDIN_FILENO then w.fds.lookup r
                    else w.fds.lookup x
        | none => w.fds.lookup x := by
  cases hp : n.prev with
  | none => exact ⟨w, rfl, rfl, by simp [prev_read_end, hp], by simp [prev_read_end, hp]⟩
  | some p =>
    obtain ⟨_, pn, hpn, hready⟩ := hprev p hp
    simp only [hpn]
    by_cases hl : pn.link = .PIPE
    · obtain ⟨r, wr, hpfd, hopen⟩ := hready hl
      have hpre : prev_read_end w n = some r := by simp [prev_read_end, hp, hpn, hl, hpfd]
      obtain ⟨obj, hobj⟩ := Option.ne_none_iff_exists'.1 ((mem_open_fds_iff w r).1 hopen)
      obtain ⟨w1, h1, h2, h3, h4⟩ := connect_pipes_ok env hE w p 0 STDIN_FILENO pn r wr obj hpn
        hpfd (by simpa using hobj) (by simpa using hpr r hpre)
      refine ⟨w1, by simpa [hl] using h1, h2, by simpa [hpre] using h3, ?_⟩
      intro x
      rw [h4 x, hpre]
      simp [hobj]
    · exact ⟨w, by simp [hl], rfl, by simp [prev_read_end, hp, hpn, hl],
        by simp [prev_read_end, hp, hpn, hl]⟩

/-- Lines 153-159 in a child whose own pipe, when its link is `PIPE`, has two
distinct open ends other than standard output: the write end becomes standard
output and both ends are closed. -/
theorem wire_out_ok (env : Env) (hE : ∀ k, env.fails k = false) (w : World) (this : Nat)
    (n : command) (hn : w.heap[this]? = some n)
    (hown : n.link = .PIPE → ∃ r wr, n.pfd = some (r, wr) ∧ w.fds.lookup r ≠ none ∧
      w.fds.lookup wr ≠ none ∧ r ≠ wr ∧ r ≠ STDOUT_FILENO ∧ wr ≠ STDOUT_FILENO) :
    ∃ w1, (if n.link = .PIPE then
          (connect_pipes env w this 1 STDOUT_FILENO).bind fun w2 =>
            match n.pfd with
            | none => Outcome.undef w2
            | some (r, _) =>
              match sys_close env w2 r with
              | none => error_msg w2
              | some w3 => Outcome.ok w3
        else Outcome.ok w) = .ok w1 ∧
      w1.heap = w.heap ∧
      w1.trace = w.trace ++ (if n.link = .PIPE then
        match n.pfd with
        | some (r, wr) => [.dup2 wr STDOUT_FILENO, .close wr, .close r]
        | none => []
        else []) ∧
      (∀ x, (n.link = .PIPE → ∀ r wr, n.pfd = some (r, wr) →
          x ≠ r ∧ x ≠ wr ∧ x ≠ STDOUT_FILENO) → w1.fds.lookup x = w.fds.lookup x) ∧
      (n.link = .PIPE → w1.fds.lookup STDOUT_FILENO ≠ none) := by
  by_cases hl : n.link = .PIPE
  · obtain ⟨r, wr, hpfd, hr, hwr, hne, hr1, hwr1⟩ := hown hl
    obtain ⟨obj, hobj⟩ := Option.ne_none_iff_exists'.1 hwr
    obtain ⟨w1, h1, h2, h3, h4⟩ := connect_pipes_ok env hE w this 1 STDOUT_FILENO n r wr obj hn
      hpfd (by simpa using hobj) (by simpa using hwr1)
    simp only [one_ne_zero, if_false] at h3 h4
    have hropen : r ∈ w1.open_fds := by
      rw [mem_open_fds_iff, h4 r]
      simp [hne, hr1, hr]
    simp only [hl, if_true, h1, Outcome.bind, hpfd]
    rw [sys_close_ok env hE w1 r hropen]
    refine ⟨_, rfl, h2, by simp [h3], ?_, ?_⟩
    · intro x hx
      obtain ⟨a, b, c⟩ := hx trivial r wr rfl
      simp only [lookup_filter_ne, a, if_false, h4 x, b, c]
    · intro _
      simp only [lookup_filter_ne, Ne.symm hr1, if_false, h4, Ne.symm hwr1, if_true]
      simp
  · exact ⟨w, by simp [hl], rfl, by simp [hl], fun _ _ => rfl, fun h => absurd h hl⟩

theorem Outcome.bind_of_ok {α β : Type} {o : Outcome α} {a : α} {f : α → Outcome β}
    {r : Outcome β} (h1 : o = .ok a) (h2 : f a = r) : o.bind f = r := by
  subst h1; exact h2

/-- The child of a command other than `cd`, started in a state in which its
predecessor is ready and its pipe ends are open, distinct and not standard
descriptors, with every system call succeeding and every file of a redirection
openable: it makes the pipe calls, then the calls of its redirections, and gets
to `execvp` (after which it is the program, or has left with `EXIT_FAILURE`
when the program cannot be executed); a standard stream that was wired to a
pipe and is redirected refers to the file. -/
theorem run_child_ok (env : Env) (hE : ∀ k, env.fails k = false) (w : World) (this : Nat)
    (m : Int) (n : command) (hn : w.heap[this]? = some n) (hcd : n.args[0]? ≠ some "cd")
    (hprev : PrevReady w this n)
    (hpr : ∀ r, prev_read_end w n = some r → STDERR_FILENO < r)
    (hown : n.link = .PIPE → ∃ r wr, n.pfd = some (r, wr) ∧ r ∈ w.open_fds ∧ wr ∈ w.open_fds ∧
      r ≠ wr ∧ STDERR_FILENO < r ∧ STDERR_FILENO < wr ∧
      prev_read_end w n ≠ some r ∧ prev_read_end w n ≠ some wr)
    (hin : n.in_ = true → env.can_open n.inpath O_RDONLY = true)
    (hout : n.out = true → env.can_open n.outpath (O_CREAT ||| O_WRONLY) = true)
    (herr : n.err = true → env.can_open n.errpath (O_WRONLY ||| O_CREAT ||| O_TRUNC) = true) :
    ∃ w1 f1 f2 f3,
      run_child env w this m =
        (if env.can_exec n.args = true then .execd n.args w1 else .exited EXIT_FAILURE w1) ∧
      w1.trace = w.trace ++ wiring_calls w n ++
        (if n.in_ = true then redir_calls n.inpath O_RDONLY STDIN_FILENO f1 else []) ++
        (if n.out = true then redir_calls n.outpath (O_CREAT ||| O_WRONLY) STDOUT_FILENO f2
         else []) ++
        (if n.err = true then
          redir_calls n.errpath (O_WRONLY ||| O_CREAT ||| O_TRUNC) STDERR_FILENO f3
         else []) ∧
      (n.in_ = true → (prev_read_end w n).isSome = true →
        w1.fds.lookup STDIN_FILENO = some (.file n.inpath O_RDONLY)) ∧
      (n.out = true → n.link = .PIPE →
        w1.fds.lookup STDOUT_FILENO = some (.file n.outpath (O_CREAT ||| O_WRONLY))) := by
  -- the pipe from the predecessor
  obtain ⟨wA, hA, hAh, hAt, hAf⟩ := wire_in_ok env hE w this n hprev (fun r hr => by
    have := hpr r hr
    simp only [STDERR_FILENO, STDIN_FILENO] at this ⊢
    omega)
  have hA0 : (prev_read_end w n).isSome = true → wA.fds.lookup STDIN_FILENO ≠ none := by
    intro h
    obtain ⟨r, hr⟩ := Option.isSome_iff_exists.1 h
    have h0 : STDIN_FILENO ≠ r := by
      have := hpr r hr
      simp only [STDERR_FILENO, STDIN_FILENO] at this ⊢
      omega
    obtain ⟨hopen, _⟩ : r ∈ w.open_fds ∧ True := by
      unfold prev_read_end at hr
      cases hp : n.prev with
      | none => simp [hp] at hr
      | some p =>
        obtain ⟨_, pn, hpn, hready⟩ := hprev p hp
        simp only [hp, hpn] at hr
        split at hr
        · rename_i hl
          obtain ⟨r2, wr2, hpfd, ho⟩ := hready hl
          simp only [hpfd, Option.map_some', Option.some.injEq] at hr
          subst hr
          exact ⟨ho, trivial⟩
        · simp at hr
    rw [hAf, hr]
    simp only [h0, if_false, if_true]
    exact (mem_open_fds_iff w r).1 hopen
  -- the node's own pipe
  obtain ⟨wB, hB, hBh, hBt, hBf, hB1⟩ := wire_out_ok env hE wA this n (by rw [hAh, hn]) (by
    intro hl
    obtain ⟨r, wr, hpfd, hr, hwr, hne, hr2, hwr2, hpr1, hpr2⟩ := hown hl
    refine ⟨r, wr, hpfd, ?_, ?_, hne, ?_, ?_⟩
    · rw [hAf]
      cases hp : prev_read_end w n with
      | none => exact (mem_open_fds_iff w r).1 hr
      | some r0 =>
        have h1 : r ≠ r0 := fun h => hpr1 (by rw [hp, h])
        have h2 : r ≠ STDIN_FILENO := by
          simp only [STDERR_FILENO, STDIN_FILENO] at hr2 ⊢; omega
        simp only [h1, h2, if_false]
        exact (mem_open_fds_iff w r).1 hr
    · rw [hAf]
      cases hp : prev_read_end w n with
      | none => exact (mem_open_fds_iff w wr).1 hwr
      | some r0 =>
        have h1 : wr ≠ r0 := fun h => hpr2 (by rw [hp, h])
        have h2 : wr ≠ STDIN_FILENO := by
          simp only [STDERR_FILENO, STDIN_FILENO] at hwr2 ⊢; omega
        simp only [h1, h2, if_false]
        exact (mem_open_fds_iff w wr).1 hwr
    · simp only [STDERR_FILENO, STDOUT_FILENO] at hr2 ⊢; omega
    · simp only [STDERR_FILENO, STDOUT_FILENO] at hwr2 ⊢; omega)
  have hB0 : wB.fds.lookup STDIN_FILENO = wA.fds.lookup STDIN_FILENO := by
    apply hBf
    intro hl r wr hpfd
    obtain ⟨r1, wr1, hpfd1, _, _, _, hr2, hwr2, _, _⟩ := hown hl
    rw [hpfd1] at hpfd
    simp only [Option.some.injEq, Prod.mk.injEq] at hpfd
    obtain ⟨rfl, rfl⟩ := hpfd
    simp only [STDERR_FILENO, STDIN_FILENO, STDOUT_FILENO] at hr2 hwr2 ⊢
    omega
  -- the redirections
  obtain ⟨wC, f1, hC, hCh, hCt, hCf, hC0⟩ :=
    redir_if_ok env hE wB n.in_ n.inpath O_RDONLY STDIN_FILENO hin
  obtain ⟨wD, f2, hD, hDh, hDt, hDf, hD1⟩ :=
    redir_if_ok env hE wC n.out n.outpath (O_CREAT ||| O_WRONLY) STDOUT_FILENO hout
  obtain ⟨wF, f3, hF, hFh, hFt, hFf, _⟩ :=
    redir_if_ok env hE wD n.err n.errpath (O_WRONLY ||| O_CREAT ||| O_TRUNC) STDERR_FILENO herr
  refine ⟨wF, f1, f2, f3, ?_, ?_, ?_, ?_⟩
  · unfold run_child
    rw [hn]
    simp only [if_neg hcd]
    refine Outcome.bind_of_ok (a := wF) ?_ rfl
    refine Outcome.bind_of_ok (a := wB) (Outcome.bind_of_ok hA hB) ?_
    exact Outcome.bind_of_ok hC (Outcome.bind_of_ok hD hF)
  · rw [hFt, hDt, hCt, hBt, hAt]
    simp only [wiring_calls, List.append_assoc]
  · intro hi hp
    rw [hFf _ (by decide), hDf _ (by decide)]
    apply hC0 hi
    rw [hB0]
    exact hA0 hp
  · intro ho hl
    rw [hFf _ (by decide)]
    apply hD1 ho
    rw [hCf _ (by decide)]
    exact hB1 hl

/-- The path of every command other than `cd` (lines 149-170): in the child
that `command::run` forks for such a command, in a launching process whose
three standard descriptors are open and whose pipe descriptors are other
descriptors, with every system call succeeding and the files of the
redirections openable, the child first makes the pipe calls (`dup2` of the
predecessor's read end onto standard input, of its own write end onto standard
output, with the closes) and only then the calls of its redirections, and it
gets to `execvp` (after which it is the program, or has left with
`EXIT_FAILURE` when the program cannot be executed); at that point standard
input refers to the file of the input redirection, not to the pipe, when the
predecessor's link is `PIPE` and the node has an input redirection, and
standard output refers to the file of the output redirection when the node's
link is `PIPE` and it has an output redirection. -/
theorem redirection_overrides_pipe (env : Env) (w : World) (i : Nat) (n : command)
    (hsys : ∀ k, env.fails k = false)
    (hn : w.heap[i]? = some n) (hpid : n.pid = -1) (hargs : n.args ≠ [])
    (hcd : n.args[0]? ≠ some "cd")
    (hprev : PrevReady w i n)
    (hstd : ∀ fd, fd ≤ STDERR_FILENO → fd ∈ w.open_fds)
    (hpr : ∀ r, prev_read_end w n = some r → STDERR_FILENO < r)
    (hin : n.in_ = true → env.can_open n.inpath O_RDONLY = true)
    (hout : n.out = true → env.can_open n.outpath (O_CREAT ||| O_WRONLY) = true)
    (herr : n.err = true → env.can_open n.errpath (O_WRONLY ||| O_CREAT ||| O_TRUNC) = true) :
    ∃ wc m nc w1 f1 f2 f3,
      child_start env w i = some (wc, m) ∧ wc.trace = [] ∧
      wc.heap[i]? = some nc ∧ nc.shape = n.shape ∧
      run_child env wc i m =
        (if env.can_exec n.args = true then .execd n.args w1 else .exited EXIT_FAILURE w1) ∧
      w1.trace = wiring_calls wc nc ++
        (if n.in_ = true then redir_calls n.inpath O_RDONLY STDIN_FILENO f1 else []) ++
        (if n.out = true then redir_calls n.outpath (O_CREAT ||| O_WRONLY) STDOUT_FILENO f2
         else []) ++
        (if n.err = true then
          redir_calls n.errpath (O_WRONLY ||| O_CREAT ||| O_TRUNC) STDERR_FILENO f3
         else []) ∧
      (∀ p pn, n.prev = some p → w.heap[p]? = some pn → pn.link = .PIPE → n.in_ = true →
        w1.fds.lookup STDIN_FILENO = some (.file n.inpath O_RDONLY) ∧
        w1.fds.lookup STDIN_FILENO ≠ some (.pipe_read p)) ∧
      (n.link = .PIPE → n.out = true →
        w1.fds.lookup STDOUT_FILENO = some (.file n.outpath (O_CREAT ||| O_WRONLY)) ∧
        w1.fds.lookup STDOUT_FILENO ≠ some (.pipe_write i)) := by
  obtain ⟨⟨wb, m⟩, hrun, hlp, hoth, hcase⟩ := Outcome.sat_ok
    (run_before_fork_ok env hsys w i n hn hpid ⟨hargs, fun h => absurd h hcd⟩)
  simp only at hlp hoth hcase
  -- the node and the descriptors at the fork
  obtain ⟨nc, hnc, hshape, hsub, hpfd⟩ : ∃ nc, wb.heap[i]? = some nc ∧ nc.shape = n.shape ∧
      (∀ x, x ∈ w.open_fds → x ∈ wb.open_fds) ∧
      (n.link = .PIPE → ∃ r wr, nc.pfd = some (r, wr) ∧ r ∉ w.open_fds ∧ wr ∉ w.open_fds ∧
        r ≠ wr ∧ r ∈ wb.open_fds ∧ wr ∈ wb.open_fds) := by
    rcases hcase with ⟨a, b, c⟩ | ⟨a, r, wr, b, hr, hwr, hne, c⟩
    · exact ⟨n, b, rfl, fun x hx => by simpa [World.open_fds, c] using hx, fun h => absurd h a⟩
    · refine ⟨_, b, rfl, fun x hx => ?_, fun _ => ⟨r, wr, rfl, hr, hwr, hne, ?_, ?_⟩⟩
      · simp only [World.open_fds, c, List.map_append, List.mem_append]
        exact Or.inl hx
      · simp [World.open_fds, c]
      · simp [World.open_fds, c]
  have hargs1 : nc.args = n.args :=
    show nc.shape.args = n.shape.args from congrArg command.args hshape
  have hlink1 : nc.link = n.link :=
    show nc.shape.link = n.shape.link from congrArg command.link hshape
  have hprev1 : nc.prev = n.prev :=
    show nc.shape.prev = n.shape.prev from congrArg command.prev hshape
  have hin1 : nc.in_ = n.in_ := show nc.shape.in_ = n.shape.in_ from congrArg command.in_ hshape
  have hout1 : nc.out = n.out := show nc.shape.out = n.shape.out from congrArg command.out hshape
  have herr1 : nc.err = n.err := show nc.shape.err = n.shape.err from congrArg command.err hshape
  have hip1 : nc.inpath = n.inpath :=
    show nc.shape.inpath = n.shape.inpath from congrArg command.inpath hshape
  have hop1 : nc.outpath = n.outpath :=
    show nc.shape.outpath = n.shape.outpath from congrArg command.outpath hshape
  have hep1 : nc.errpath = n.errpath :=
    show nc.shape.errpath = n.shape.errpath from congrArg command.errpath hshape
  -- the child's copy
  have hstart : child_start env w i = some
      ({ wb with last_pid := wb.last_pid + 1, clock := wb.clock + 1, trace := [] }, m) := by
    simp [child_start, hrun, sys_fork, hsys]
  have hpre : prev_read_end
      { wb with last_pid := wb.last_pid + 1, clock := wb.clock + 1, trace := [] } nc
      = prev_read_end w n := by
    unfold prev_read_end
    rw [hprev1]
    cases hp : n.prev with
    | none => rfl
    | some p =>
      obtain ⟨hpi, _⟩ := hprev p hp
      simp only [hoth p hpi]
  have hpopen : ∀ r, prev_read_end w n = some r → r ∈ w.open_fds := by
    intro r hr
    unfold prev_read_end at hr
    cases hp : n.prev with
    | none => simp [hp] at hr
    | some p =>
      obtain ⟨_, pn, hpn, hready⟩ := hprev p hp
      simp only [hp, hpn] at hr
      split at hr
      · rename_i hl
        obtain ⟨r2, wr2, hpfd2, ho⟩ := hready hl
        simp only [hpfd2, Option.map_some', Option.some.injEq] at hr
        subst hr
        exact ho
      · simp at hr
  have hbig : ∀ x, x ∉ w.open_fds → STDERR_FILENO < x := by
    intro x hx
    by_contra hle
    exact hx (hstd x (by omega))
  obtain ⟨w1, f1, f2, f3, hexe, htr, hI, hO⟩ := run_child_ok env hsys
    { wb with last_pid := wb.last_pid + 1, clock := wb.clock + 1, trace := [] } i m nc hnc
    (by rw [hargs1]; exact hcd)
    (by
      intro p hp
      rw [hprev1] at hp
      obtain ⟨hpi, pn, hpn, hready⟩ := hprev p hp
      refine ⟨hpi, pn, by simpa [hoth p hpi] using hpn, fun hl => ?_⟩
      obtain ⟨r, wr, h1, h2⟩ := hready hl
      exact ⟨r, wr, h1, hsub r h2⟩)
    (by rw [hpre]; exact hpr)
    (by
      intro hl
      rw [hlink1] at hl
      obtain ⟨r, wr, h1, h2, h3, h4, h5, h6⟩ := hpfd hl
      refine ⟨r, wr, h1, h5, h6, h4, hbig r h2, hbig wr h3, ?_, ?_⟩
      · rw [hpre]; exact fun h => h2 (hpopen r h)
      · rw [hpre]; exact fun h => h3 (hpopen wr h))
    (by rw [hin1, hip1]; exact hin) (by rw [hout1, hop1]; exact hout)
    (by rw [herr1, hep1]; exact herr)
  rw [hargs1] at hexe
  rw [hin1, hip1, hout1, hop1, herr1, hep1] at htr
  rw [hin1, hip1, hpre] at hI
  rw [hout1, hop1, hlink1] at hO
  refine ⟨_, m, nc, w1, f1, f2, f3, hstart, rfl, hnc, hshape, hexe, by simpa using htr, ?_, ?_⟩
  · intro p pn hp hpn hl hi
    have hsome : (prev_read_end w n).isSome = true := by
      obtain ⟨_, pn2, hpn2, hready⟩ := hprev p hp
      rw [hpn] at hpn2
      simp only [Option.some.injEq] at hpn2
      subst hpn2
      obtain ⟨r, wr, h1, _⟩ := hready hl
      simp [prev_read_end, hp, hpn, hl, h1]
    rw [hI hi hsome]
    exact ⟨rfl, by simp⟩
  · intro hl ho
    rw [hO ho hl]
    exact ⟨rfl, by simp⟩

/-- C11, at the line `a | cd /tmp < f`: the predecessor's link is `PIPE` and
the node has an input redirection, but the child forked for it leaves through
`_exit(EXIT_SUCCESS)` of the `cd` branch before any pipe or redirection call:
it never opens `f`, and its standard input is the terminal it inherited, not
the file.  On the line `a | cat < f`, which differs only in the command, the
child duplicates the pipe onto standard input, then applies the redirection,
and reaches `execvp` with standard input referring to `f`. -/
theorem cd_child_skips_redirection :
    parse_line [.word "a", .pipe, .word "cd", .word "/tmp", .redirect "<", .word "f"]
      = .ok cd_piped_line (some 0) ∧
    link_at cd_piped_line 0 = some .PIPE ∧
    (cd_piped_line[1]?).map (fun n => (n.prev, n.in_, n.inpath)) = some (some 0, true, "f") ∧
    ((command.run (calm_env fun _ => 0) { heap := cd_piped_line } 0).bind fun w1 =>
      match child_start (calm_env fun _ => 0) w1 1 with
      | some (wc, m) =>
        match run_child (calm_env fun _ => 0) wc 1 m with
        | .exited code w2 =>
          .ok (code, w2.trace, w2.fds.lookup STDIN_FILENO)
        | _ => .undef wc
      | none => .undef w1) = .ok (EXIT_SUCCESS, [], some .tty) ∧
    parse_line [.word "a", .pipe, .word "cat", .redirect "<", .word "f"]
      = .ok cat_piped_line (some 0) ∧
    ((command.run (calm_env fun _ => 0) { heap := cat_piped_line } 0).bind fun w1 =>
      match child_start (calm_env fun _ => 0) w1 1 with
      | some (wc, m) =>
        match run_child (calm_env fun _ => 0) wc 1 m with
        | .execd argv w2 =>
          .ok (argv, w2.trace, w2.fds.lookup STDIN_FILENO)
        | _ => .undef wc
      | none => .undef w1) =
      .ok (["cat"],
           [.dup2 3 STDIN_FILENO, .close 3,
            .open_ "f" O_RDONLY 3, .dup2 3 STDIN_FILENO, .close 3],
           some (.file "f" O_RDONLY)) := by
  decide

/-- The line `a | b < f > g | c`, node `b`, after node `a` has been launched:
the child of `b` ends with standard input on `f` and standard output on `g`. -/
theorem redirection_overrides_pipe_witness :
    parse_line [.word "a", .pipe, .word "b", .redirect "<", .word "f", .redirect ">",
      .word "g", .pipe, .word "c"] = .ok piped_line (some 0) ∧
    command.run (calm_env fun _ => 0) { heap := piped_line } 0 = .ok piped_line_started ∧
    ∃ wc m nc w1 f1 f2, ∃ _f3 : Nat,
      child_start (calm_env fun _ => 0) piped_line_started 1 = some (wc, m) ∧ wc.trace = [] ∧
      wc.heap[1]? = some nc ∧
      nc.shape = ({ args := ["b"], in_ := true, inpath := "f", out := true, outpath := "g",
                    link := .PIPE, prev := some 0, next := some 2 } : command).shape ∧
      run_child (calm_env fun _ => 0) wc 1 m = .execd ["b"] w1 ∧
      w1.trace = wiring_calls wc nc ++ redir_calls "f" O_RDONLY STDIN_FILENO f1 ++
        redir_calls "g" (O_CREAT ||| O_WRONLY) STDOUT_FILENO f2 ++ [] ∧
      (∀ p pn, some 0 = some p → piped_line_started.heap[p]? = some pn → pn.link = .PIPE →
        true = true →
        w1.fds.lookup STDIN_FILENO = some (.file "f" O_RDONLY) ∧
        w1.fds.lookup STDIN_FILENO ≠ some (.pipe_read p)) ∧
      (TokType.PIPE = .PIPE → true = true →
        w1.fds.lookup STDOUT_FILENO = some (.file "g" (O_CREAT ||| O_WRONLY)) ∧
        w1.fds.lookup STDOUT_FILENO ≠ some (.pipe_write 1)) :=
  ⟨by decide, by decide,
    redirection_overrides_pipe (calm_env fun _ => 0) piped_line_started 1
      { args := ["b"], in_ := true, inpath := "f", out := true, outpath := "g",
        link := .PIPE, prev := some 0, next := some 2 }
      (fun _ => rfl) (by decide) (by decide) (by decide) (by decide)
      (fun p hp => by
        simp only [Option.some.injEq] at hp
        subst hp
        exact ⟨by decide, _, rfl, fun _ => ⟨3, 4, rfl, by decide⟩⟩)
      (fun fd hfd => by
        simp only [STDERR_FILENO] at hfd
        interval_cases fd <;> decide)
      (fun r hr => by
        have : r = 3 := by
          have h : prev_read_end piped_line_started
            { args := ["b"], in_ := true, inpath := "f", out := true, outpath := "g",
              link := .PIPE, prev := some 0, next := some 2 } = some 3 := by decide
          rw [h] at hr
          exact (Option.some.inj hr).symm
        subst this
        decide)
      (fun _ => rfl) (fun _ => rfl) (fun h => by simp at h)⟩

/-! ### The launching process closes each pipe end once (C12) -/

theorem story_append (fds : List (Nat × FileObj)) (a b : List Event) :
    story fds (a ++ b) = story fds a ++ story (a.foldl table_step fds) b := by
  induction a generalizing fds with
  | nil => rfl
  | cons e t ih => simp [story, ih]

theorem acts_none (w : World) : Acts w w [] := ⟨[], by simp, rfl, rfl⟩

theorem acts_then {w w1 w2 : World} {L1 L2 : List Step} (h1 : Acts w w1 L1)
    (h2 : Acts w1 w2 L2) : Acts w w2 (L1 ++ L2) := by
  obtain ⟨e1, a1, b1, c1⟩ := h1
  obtain ⟨e2, a2, b2, c2⟩ := h2
  refine ⟨e1 ++ e2, by rw [a2, a1, List.append_assoc], ?_, ?_⟩
  · rw [story_append, b1, ← c1, b2]
  · rw [List.foldl_append, ← c1, c2]

/-- A change of the heap alone makes no step. -/
theorem acts_of_fields {w w1 : World} (ht : w1.trace = w.trace) (hf : w1.fds = w.fds) :
    Acts w w1 [] := ⟨[], by simp [ht], rfl, hf⟩

theorem filter_fresh (F : List (Nat × FileObj)) (fd : Nat) (h : fd ∉ F.map Prod.fst) :
    F.filter (fun e => e.1 != fd) = F := by
  rw [List.filter_eq_self]
  intro a ha
  have : a.1 ≠ fd := fun h2 => h (List.mem_map.2 ⟨a, ha, h2⟩)
  simpa using this

theorem lookup_fresh (F G : List (Nat × FileObj)) (fd : Nat) (h : fd ∉ F.map Prod.fst) :
    (F ++ G).lookup fd = G.lookup fd := by
  rw [List.lookup_append]
  have : F.lookup fd = none := by
    by_contra hne
    have hw := (mem_open_fds_iff { fds := F } fd).2 hne
    exact h hw
  simp [this]

theorem sys_pipe_acts (env : Env) (w w1 : World) (node : Nat)
    (h : sys_pipe env w node = some w1) :
    Acts w w1 [.piped node] ∧ ∃ r wr, r ∉ w.open_fds ∧ wr ∉ w.open_fds ∧ r ≠ wr ∧
      w1.fds = w.fds ++ [(r, .pipe_read node), (wr, .pipe_write node)] ∧
      w1.heap = poke w.heap node (fun n => { n with pfd := some (r, wr) }) ∧
      w1.last_pid = w.last_pid := by
  unfold sys_pipe at h
  split at h
  · simp at h
  · simp only [Option.some.injEq] at h
    subst h
    have hr := lowest_free_not_mem w.open_fds
    have hwr := lowest_free_not_mem (lowest_free w.open_fds :: w.open_fds)
    simp only [List.mem_cons, not_or] at hwr
    exact ⟨⟨[.pipe node _ _], rfl, rfl, rfl⟩, _, _, hr, hwr.2, Ne.symm hwr.1, rfl, rfl, rfl⟩

theorem sys_close_acts (env : Env) (w w1 : World) (fd : Nat) (obj : FileObj)
    (h : sys_close env w fd = some w1) (hl : w.fds.lookup fd = some obj) :
    Acts w w1 [.closed obj] ∧ w1.fds = w.fds.filter (fun e => e.1 != fd) ∧
      w1.heap = w.heap ∧ w1.last_pid = w.last_pid := by
  unfold sys_close at h
  split at h
  · simp at h
  · split at h
    · simp only [Option.some.injEq] at h
      subst h
      exact ⟨⟨[.close fd], rfl, by simp [story, step_of, hl], rfl⟩, rfl, rfl, rfl⟩
    · simp at h

theorem sys_fork_acts (env : Env) (w wp wc : World) (node pid : Nat)
    (h : sys_fork env w (Event.fork node) = some (pid, wp, wc)) :
    Acts w wp [.forked node] ∧ wp.fds = w.fds ∧ wp.heap = w.heap := by
  unfold sys_fork at h
  split at h
  · simp at h
  · simp only [Option.some.injEq, Prod.mk.injEq] at h
    obtain ⟨rfl, rfl, rfl⟩ := h
    exact ⟨⟨[.fork node _], rfl, rfl, rfl⟩, rfl, rfl⟩

theorem sys_chdir_acts (env : Env) (w : World) (path : String) :
    Acts w (sys_chdir env w path).1 [] := by
  unfold sys_chdir
  split
  · exact ⟨[.chdir path true], rfl, rfl, rfl⟩
  · exact ⟨[.chdir path false], rfl, rfl, rfl⟩

theorem sys_waitpid_acts (env : Env) (w w1 : World) (node pid st : Nat)
    (h : sys_waitpid env w node pid = some (w1, st)) :
    Acts w w1 [.waited node] ∧ w1.fds = w.fds ∧ w1.heap = w.heap := by
  unfold sys_waitpid at h
  split at h
  · simp at h
  · simp only [Option.some.injEq, Prod.mk.injEq] at h
    obtain ⟨rfl, rfl⟩ := h
    exact ⟨⟨[.waitpid node pid _], rfl, rfl, rfl⟩, rfl, rfl⟩

/-- Whenever the code before `fork()` gets through, it has created a pipe
exactly when the link of the node is `PIPE`. -/
theorem run_before_fork_acts (env : Env) (w : World) (i : Nat) (n : command)
    (hn : w.heap[i]? = some n) :
    (run_before_fork env w i).sat
      (fun r => BeforeFork w i n r.1 ∧
        Acts w r.1 (if n.link = .PIPE then [.piped i] else []))
      (fun _ => True) True := by
  unfold run_before_fork
  rw [hn]
  dsimp only
  by_cases hpid : n.pid ≠ -1
  · rw [if_pos hpid]; trivial
  rw [if_neg hpid]
  by_cases hlen : n.args.length = 0
  · rw [if_pos hlen]; trivial
  rw [if_neg hlen]
  apply Outcome.sat_bind (P := fun w1 => BeforeFork w i n w1 ∧
    Acts w w1 (if n.link = .PIPE then [.piped i] else []))
  · by_cases hp : n.link = .PIPE
    · simp only [if_pos hp]
      cases hsp : sys_pipe env w i with
      | none => trivial
      | some w1 =>
        obtain ⟨ha, r, wr, hr, hwr, hne, hf, hh, hl⟩ := sys_pipe_acts env w w1 i hsp
        simp only [Outcome.sat]
        refine ⟨⟨hl, ?_, Or.inr ⟨hp, r, wr, ?_, hr, hwr, hne, hf⟩⟩, ha⟩
        · intro k hk
          rw [hh]
          simp [poke_getElem?, hk]
        · rw [hh]
          simp [poke_getElem?, hn]
    · simp only [if_neg hp, Outcome.sat]
      exact ⟨⟨rfl, fun _ _ => rfl, Or.inl ⟨hp, hn, rfl⟩⟩, acts_none w⟩
  · rintro w1 ⟨hbf, ha⟩
    by_cases hcd : n.args[0]? = some "cd"
    · rw [if_pos hcd]
      cases hp1 : n.args[1]? with
      | none => trivial
      | some p =>
        obtain ⟨a, b, c, _⟩ := sys_chdir_fields env w1 p
        refine ⟨before_fork_of_fields w i n w1 _ hbf a b c, ?_⟩
        simpa using acts_then ha (sys_chdir_acts env w1 p)
    · rw [if_neg hcd]
      exact ⟨hbf, ha⟩

theorem filter_middle (A B : List (Nat × FileObj)) (fd : Nat) (o : FileObj)
    (hA : fd ∉ A.map Prod.fst) (hB : fd ∉ B.map Prod.fst) :
    (A ++ (fd, o) :: B).filter (fun e => e.1 != fd) = A ++ B := by
  rw [List.filter_append, filter_fresh A fd hA, List.filter_cons]
  simp [filter_fresh B fd hB]

/-- Whenever `command::run` returns, on a node whose predecessor's pipe (if its
link is `PIPE`) has its read end still open as the last entry of the table, the
launching process has created the node's pipe exactly when its link is `PIPE`,
forked, closed that read end, and closed the write end of the node's pipe; the
read end of the node's pipe is then the last entry of the table. -/
theorem run_acts (env : Env) (w : World) (j : Nat) (n : command) (F : List (Nat × FileObj))
    (pend : Option (Nat × Nat)) (hn : w.heap[j]? = some n)
    (hfds : w.fds = F ++ pending_entry pend)
    (hpend : ∀ p r0, pend = some (p, r0) → r0 ∉ F.map Prod.fst ∧ n.prev = some p ∧ p ≠ j ∧
      ∃ pn wr0, w.heap[p]? = some pn ∧ pn.link = .PIPE ∧ pn.pfd = some (r0, wr0))
    (hnone : pend = none → ∀ p pn, n.prev = some p → w.heap[p]? = some pn →
      p ≠ j ∧ pn.link ≠ .PIPE) :
    (command.run env w j).sat
      (fun w1 =>
        Acts w w1 ((if n.link = .PIPE then [.piped j] else []) ++ [.forked j] ++
          pending_close pend ++ (if n.link = .PIPE then [.closed (.pipe_write j)] else [])) ∧
        (n.link ≠ .PIPE → w1.fds = F) ∧
        (n.link = .PIPE → ∃ n1 r wr, w1.heap[j]? = some n1 ∧ n1.pfd = some (r, wr) ∧
          r ∉ F.map Prod.fst ∧ w1.fds = F ++ [(r, .pipe_read j)]))
      (fun _ => True) True := by
  unfold command.run
  apply Outcome.sat_bind (run_before_fork_acts env w j n hn)
  rintro ⟨wb, m⟩ ⟨⟨hlp, hoth, hcase⟩, hA⟩
  simp only at hlp hoth hcase hA ⊢
  cases hf : sys_fork env wb (Event.fork j) with
  | none => trivial
  | some res =>
    obtain ⟨pid, wp, wc⟩ := res
    obtain ⟨hAf, hfd, hhp⟩ := sys_fork_acts env wb wp wc j pid hf
    simp only
    -- the node and the table at the fork
    obtain ⟨nb, O, hnb, hlink, hprev, hwbf, hO⟩ : ∃ nb O, wb.heap[j]? = some nb ∧
        nb.link = n.link ∧ nb.prev = n.prev ∧ wb.fds = F ++ pending_entry pend ++ O ∧
        ((n.link ≠ .PIPE ∧ O = []) ∨
         (n.link = .PIPE ∧ ∃ r wr, nb.pfd = some (r, wr) ∧
            r ∉ (F ++ pending_entry pend).map Prod.fst ∧
            wr ∉ (F ++ pending_entry pend).map Prod.fst ∧ r ≠ wr ∧
            O = [(r, .pipe_read j), (wr, .pipe_write j)])) := by
      rcases hcase with ⟨a, b, c⟩ | ⟨a, r, wr, b, hr, hwr, hne, c⟩
      · exact ⟨n, [], b, rfl, rfl, by rw [c, hfds]; simp, Or.inl ⟨a, rfl⟩⟩
      · refine ⟨_, _, b, rfl, rfl, by rw [c, hfds], Or.inr ⟨a, r, wr, rfl, ?_, ?_, hne, rfl⟩⟩
        · rw [← hfds]; exact hr
        · rw [← hfds]; exact hwr
    have hA0 : Acts wp
        { wp with heap := poke wb.heap j (fun n => { n with pid := (pid : Int) }) } [] :=
      acts_of_fields rfl rfl
    unfold run_parent
    simp only [hhp, poke_getElem?, hnb, if_true, Option.map_some']
    rw [hprev, hlink]
    apply Outcome.sat_bind (P := fun w2 =>
      Acts wp w2 (pending_close pend) ∧
      w2.heap = poke wb.heap j (fun n => { n with pid := (pid : Int) }) ∧
      w2.fds = F ++ O)
    · -- the read end of the predecessor's pipe
      cases hpd : pend with
      | none =>
        have hfO : wp.fds = F ++ O := by rw [hfd, hwbf, hpd]; simp [pending_entry]
        cases hp : n.prev with
        | none => exact ⟨hA0, rfl, hfO⟩
        | some p =>
          simp only
          by_cases hpj : p = j
          · subst hpj
            exact absurd rfl (hnone hpd p n hp hn).1
          · simp only [hpj, if_false, hoth p hpj]
            cases hpn : w.heap[p]? with
            | none => trivial
            | some pn =>
              simp only [if_neg (hnone hpd p pn hp hpn).2]
              exact ⟨hA0, rfl, hfO⟩
      | some pr =>
        obtain ⟨p, r0⟩ := pr
        obtain ⟨hr0, hp, hpj, pn, wr0, hpn, hpl, hpfd⟩ := hpend p r0 hpd
        have hr0O : r0 ∉ O.map Prod.fst := by
          rcases hO with ⟨_, h⟩ | ⟨_, r, wr, _, hr, hwr, _, h⟩
          · simp [h]
          · subst h
            simp only [hpd, pending_entry, List.map_append, List.map_cons, List.map_nil,
              List.mem_append, List.mem_singleton, not_or] at hr hwr
            simp only [List.map_cons, List.map_nil, List.mem_cons, List.not_mem_nil, or_false,
              not_or]
            exact ⟨Ne.symm hr.2, Ne.symm hwr.2⟩
        have hfO : wp.fds = F ++ (r0, FileObj.pipe_read p) :: O := by
          rw [hfd, hwbf, hpd]; simp [pending_entry]
        simp only [hp, hpj, if_false, hoth p hpj, hpn, hpl, if_true, hpfd]
        cases hcl : sys_close env
            { wp with heap := poke wb.heap j (fun n => { n with pid := (pid : Int) }) } r0 with
        | none => trivial
        | some w2 =>
          have hlook : ((F ++ (r0, FileObj.pipe_read p) :: O).lookup r0)
              = some (FileObj.pipe_read p) := by
            rw [lookup_fresh F _ r0 hr0]; simp
          obtain ⟨hAc, hf2, hh2, _⟩ := sys_close_acts env _ w2 r0 _ hcl
            (show wp.fds.lookup r0 = _ by rw [hfO]; exact hlook)
          refine ⟨?_, hh2, ?_⟩
          · simpa [pending_close] using acts_then hA0 hAc
          · rw [hf2]
            show wp.fds.filter _ = _
            rw [hfO, filter_middle F O r0 _ hr0 hr0O]
    · -- the write end of the node's own pipe
      rintro w2 ⟨hA2, hh2, hf2⟩
      have hA3 : Acts w w2 ((if n.link = .PIPE then [.piped j] else []) ++ [.forked j] ++
          pending_close pend) := acts_then (acts_then hA hAf) hA2
      rcases hO with ⟨a, hO⟩ | ⟨a, r, wr, hpfd, hr, hwr, hne, hO⟩
      · simp only [if_neg a, Outcome.sat, List.append_nil] at hA3 ⊢
        refine ⟨hA3, fun _ => by rw [hf2, hO]; simp, fun h => absurd h a⟩
      · simp only [if_pos a, hpfd]
        have hrF : r ∉ F.map Prod.fst := by
          intro h; apply hr; simp [h]
        have hwrF : wr ∉ F.map Prod.fst := by
          intro h; apply hwr; simp [h]
        cases hcl : sys_close env w2 wr with
        | none => trivial
        | some w3 =>
          have hlook : ((F ++ [(r, FileObj.pipe_read j), (wr, FileObj.pipe_write j)]).lookup wr)
              = some (FileObj.pipe_write j) := by
            rw [lookup_fresh F _ wr hwrF]
            simp [lookup_cons_if, Ne.symm hne]
          obtain ⟨hAc, hf3, hh3, _⟩ := sys_close_acts env w2 w3 wr _ hcl
            (by rw [hf2, hO]; exact hlook)
          rw [hf2, hO] at hf3
          simp only [Outcome.sat]
          refine ⟨by simpa [if_pos a] using acts_then hA3 hAc, fun h => absurd a h,
            fun _ => ⟨{ nb with pid := (pid : Int) }, r, wr, ?_, hpfd, hrF, ?_⟩⟩
          · rw [hh3, hh2]; simp [poke_getElem?, hnb]
          · rw [hf3]
            have : F ++ [(r, FileObj.pipe_read j), (wr, FileObj.pipe_write j)]
                = (F ++ [(r, FileObj.pipe_read j)]) ++ (wr, FileObj.pipe_write j) :: [] := by
              simp
            rw [this, filter_middle _ [] wr _ (by
              simp only [List.map_append, List.map_cons, List.map_nil, List.mem_append,
                List.mem_singleton, not_or]
              exact ⟨hwrF, Ne.symm hne⟩) (by simp)]
            simp

/-- Whenever `run_pipeline` returns from the node `i + d` of the pipeline
`i .. i + len`, entered with the read end of the pipe of node `i + d - 1` as
the last entry of the table (for `0 < d`), the launching process has made the
steps of the nodes `i + d .. i + len` and the wait, and its table is `F`. -/
theorem run_pipeline_acts (env : Env) (S : List command) (e : Nat) (hch : Chain S e)
    (i len : Nat) (F : List (Nat × FileObj)) (hie : i + len ≤ e)
    (hpipes : ∀ k, i ≤ k → k < i + len → link_at S k = some .PIPE)
    (hlast : link_at S (i + len) ≠ some .PIPE)
    (hfirst : i = 0 ∨ link_at S (i - 1) ≠ some .PIPE) (rem : Nat) :
    ∀ (d fuel : Nat) (w : World) (pend : Option (Nat × Nat)), d + rem = len →
      w.heap.map command.shape = S → w.fds = F ++ pending_entry pend →
      (0 < d → ∃ r0, pend = some (i + d - 1, r0) ∧ r0 ∉ F.map Prod.fst ∧
        ∃ pn wr0, w.heap[i + d - 1]? = some pn ∧ pn.pfd = some (r0, wr0)) →
      (d = 0 → pend = none) →
      (run_pipeline env fuel w (some (i + d))).sat
        (fun r => Acts w r.1
            ((List.range' d (rem + 1)).flatMap (launch_steps i len) ++ [.waited (i + len)]) ∧
          r.1.fds = F ∧ r.2 = some (i + len))
        (fun _ => True) True := by
  induction rem with
  | zero =>
    intro d fuel w pend hd hS hfds hpos hzero
    simp only [Nat.add_zero] at hd
    subst hd
    cases fuel with
    | zero => simp [run_pipeline, Outcome.sat]
    | succ fuel =>
      obtain ⟨n, hn⟩ := chain_lookup hch hS (show i + d ≤ e by omega)
      have hnl : n.link ≠ .PIPE := by
        have := shape_link_at hS hn
        rw [this] at hlast
        simpa using hlast
      have hprevn := chain_prev hch hS hn (by omega)
      unfold run_pipeline
      rw [hn]
      dsimp only
      rw [if_neg hnl]
      refine Outcome.sat_bind
        (Outcome.sat_mono
          (Outcome.sat_and (run_did env w (i + d))
            (run_acts env w (i + d) n F pend hn hfds ?_ ?_))
          (fun _ h => h) (fun _ _ => trivial) (fun _ => trivial)) ?_
      · intro p r0 hp
        have hd0 : 0 < d := by
          by_contra h0
          have := hzero (by omega)
          rw [this] at hp
          cases hp
        obtain ⟨r1, hp1, hr1, pn, wr0, hpn, hpfd⟩ := hpos hd0
        rw [hp1] at hp
        simp only [Option.some.injEq, Prod.mk.injEq] at hp
        obtain ⟨rfl, rfl⟩ := hp
        refine ⟨hr1, ?_, by omega, pn, wr0, hpn, ?_, hpfd⟩
        · rw [hprevn, if_neg (by omega)]
        · have h1 := shape_link_at hS hpn
          rw [hpipes (i + d - 1) (by omega) (by omega)] at h1
          simpa using h1.symm
      · intro hp p pn hpp hpn
        have hd0 : d = 0 := by
          by_contra h0
          obtain ⟨r1, hp1, _⟩ := hpos (by omega)
          rw [hp1] at hp
          cases hp
        subst hd0
        simp only [Nat.add_zero] at hprevn hpp
        rw [hprevn] at hpp
        by_cases hi0 : i = 0
        · simp [hi0] at hpp
        · simp only [hi0, if_false, Option.some.injEq] at hpp
          subst hpp
          refine ⟨by omega, ?_⟩
          rcases hfirst with h | h
          · exact absurd h hi0
          · intro hl
            apply h
            rw [shape_link_at hS hpn, hl]
      · rintro w1 ⟨⟨pid, hdid⟩, hA, hF, _⟩
        cases hn1 : w1.heap[i + d]? with
        | none => trivial
        | some n1 =>
          dsimp only
          cases hwt : sys_waitpid env w1 (i + d) n1.pid.toNat with
          | none => trivial
          | some r =>
            obtain ⟨w2, st⟩ := r
            obtain ⟨hAw, hfw, _⟩ := sys_waitpid_acts env w1 w2 (i + d) _ st hwt
            simp only [Outcome.sat]
            refine ⟨?_, by rw [← hF hnl, ← hfw], trivial⟩
            have h3 : Acts w2
                { w2 with heap := poke w2.heap (i + d) (fun n => { n with status := st }) } [] :=
              acts_of_fields rfl rfl
            have := acts_then (acts_then hA hAw) h3
            simp only [if_neg hnl, List.nil_append, List.append_nil] at this
            have hpc : pending_close pend =
                if 0 < d then [Step.closed (.pipe_read (i + d - 1))] else [] := by
              by_cases hd0 : 0 < d
              · obtain ⟨r1, hp1, _⟩ := hpos hd0
                simp [hp1, pending_close, hd0]
              · have := hzero (by omega)
                simp [this, pending_close, hd0]
            simpa [List.range', launch_steps, hpc] using this
  | succ rem ih =>
    intro d fuel w pend hd hS hfds hpos hzero
    cases fuel with
    | zero => simp [run_pipeline, Outcome.sat]
    | succ fuel =>
      obtain ⟨n, hn⟩ := chain_lookup hch hS (show i + d ≤ e by omega)
      have hnl : n.link = .PIPE := by
        have := shape_link_at hS hn
        rw [hpipes (i + d) (by omega) (by omega)] at this
        simpa using this.symm
      have hprevn := chain_prev hch hS hn (by omega)
      unfold run_pipeline
      rw [hn]
      dsimp only
      rw [if_pos hnl]
      refine Outcome.sat_bind
        (Outcome.sat_mono
          (Outcome.sat_and (run_did env w (i + d))
            (run_acts env w (i + d) n F pend hn hfds ?_ ?_))
          (fun _ h => h) (fun _ _ => trivial) (fun _ => trivial)) ?_
      · intro p r0 hp
        have hd0 : 0 < d := by
          by_contra h0
          have := hzero (by omega)
          rw [this] at hp
          cases hp
        obtain ⟨r1, hp1, hr1, pn, wr0, hpn, hpfd⟩ := hpos hd0
        rw [hp1] at hp
        simp only [Option.some.injEq, Prod.mk.injEq] at hp
        obtain ⟨rfl, rfl⟩ := hp
        refine ⟨hr1, ?_, by omega, pn, wr0, hpn, ?_, hpfd⟩
        · rw [hprevn, if_neg (by omega)]
        · have h1 := shape_link_at hS hpn
          rw [hpipes (i + d - 1) (by omega) (by omega)] at h1
          simpa using h1.symm
      · intro hp p pn hpp hpn
        have hd0 : d = 0 := by
          by_contra h0
          obtain ⟨r1, hp1, _⟩ := hpos (by omega)
          rw [hp1] at hp
          cases hp
        subst hd0
        simp only [Nat.add_zero] at hprevn hpp
        rw [hprevn] at hpp
        by_cases hi0 : i = 0
        · simp [hi0] at hpp
        · simp only [hi0, if_false, Option.some.injEq] at hpp
          subst hpp
          refine ⟨by omega, ?_⟩
          rcases hfirst with h | h
          · exact absurd h hi0
          · intro hl
            apply h
            rw [shape_link_at hS hpn, hl]
      · rintro w1 ⟨⟨pid, hdid⟩, hA, _, hP⟩
        obtain ⟨n1, r, wr, hn1, hpfd1, hrF, hf1⟩ := hP hnl
        have hS1 : w1.heap.map command.shape = S := hdid.1.trans hS
        rw [hn1]
        dsimp only
        rw [chain_next hch hS1 hn1 (by omega), if_pos (by omega)]
        have := ih (d + 1) fuel w1 (some (i + d, r)) (by omega) hS1
          (by rw [hf1]; rfl)
          (fun _ => ⟨r, by simp, hrF, n1, wr, by simpa using hn1, hpfd1⟩)
          (fun h => by omega)
        rw [show i + (d + 1) = i + d + 1 by omega] at this
        refine Outcome.sat_mono this ?_ (fun _ h => h) (fun h => h)
        rintro ⟨w2, c2⟩ ⟨hA2, hF2, hc2⟩
        refine ⟨?_, hF2, hc2⟩
        have hall := acts_then hA hA2
        have hpc : pending_close pend =
            if 0 < d then [Step.closed (.pipe_read (i + d - 1))] else [] := by
          by_cases hd0 : 0 < d
          · obtain ⟨r1, hp1, _⟩ := hpos hd0
            simp [hp1, pending_close, hd0]
          · have := hzero (by omega)
            simp [this, pending_close, hd0]
        have hdl : d < len := by omega
        simp only [if_pos hnl, hpc] at hall
        rw [List.range'_succ, List.flatMap_cons]
        simpa [launch_steps, hdl] using hall

theorem steps_count_piped (i len k rem : Nat) :
    ∀ d, d + rem = len →
      ((List.range' d (rem + 1)).flatMap (launch_steps i len)).count (.piped k) =
        if i + d ≤ k ∧ k < i + len then 1 else 0 := by
  induction rem with
  | zero =>
    intro d hd
    have : ¬ d < len := by omega
    have h2 : ¬ (i + d ≤ k ∧ k < i + len) := by omega
    by_cases h0 : 0 < d <;> simp [List.range', launch_steps, this, h2, List.count_cons, h0]
  | succ rem ih =>
    intro d hd
    have hdl : d < len := by omega
    rw [List.range'_succ, List.flatMap_cons, List.count_append, ih (d + 1) (by omega)]
    simp only [launch_steps, hdl, if_true, List.count_append, List.count_cons, List.count_nil,
      beq_iff_eq, Step.piped.injEq]
    by_cases h0 : 0 < d <;> simp only [h0, if_true, if_false, List.count_cons, List.count_nil,
      beq_iff_eq] <;> split_ifs <;> simp_all <;> omega

theorem steps_count_write (i len k rem : Nat) :
    ∀ d, d + rem = len →
      ((List.range' d (rem + 1)).flatMap (launch_steps i len)).count
          (.closed (.pipe_write k)) =
        if i + d ≤ k ∧ k < i + len then 1 else 0 := by
  induction rem with
  | zero =>
    intro d hd
    have : ¬ d < len := by omega
    have h2 : ¬ (i + d ≤ k ∧ k < i + len) := by omega
    by_cases h0 : 0 < d <;> simp [List.range', launch_steps, this, h2, List.count_cons, h0]
  | succ rem ih =>
    intro d hd
    have hdl : d < len := by omega
    rw [List.range'_succ, List.flatMap_cons, List.count_append, ih (d + 1) (by omega)]
    simp only [launch_steps, hdl, if_true, List.count_append, List.count_cons, List.count_nil,
      beq_iff_eq]
    by_cases h0 : 0 < d <;> simp only [h0, if_true, if_false, List.count_cons, List.count_nil,
      beq_iff_eq] <;> split_ifs <;> simp_all <;> omega

theorem steps_count_read (i len k rem : Nat) :
    ∀ d, d + rem = len →
      ((List.range' d (rem + 1)).flatMap (launch_steps i len)).count
          (.closed (.pipe_read k)) =
        if i + (d - 1) ≤ k ∧ k < i + len then 1 else 0 := by
  induction rem with
  | zero =>
    intro d hd
    have : ¬ d < len := by omega
    by_cases h0 : 0 < d
    · simp only [List.range', List.flatMap_cons, List.flatMap_nil, launch_steps, this, h0,
        if_true, if_false, List.append_nil, List.nil_append, List.count_cons, List.count_nil,
        beq_iff_eq, List.count_append]
      split_ifs <;> simp_all <;> omega
    · have h2 : ¬ (i + (d - 1) ≤ k ∧ k < i + len) := by omega
      simp [List.range', launch_steps, this, h2, List.count_cons, h0]
  | succ rem ih =>
    intro d hd
    have hdl : d < len := by omega
    rw [List.range'_succ, List.flatMap_cons, List.count_append, ih (d + 1) (by omega)]
    clear ih
    simp only [launch_steps, hdl, if_true, List.count_append, List.count_cons, List.count_nil,
      beq_iff_eq, Step.closed.injEq, FileObj.pipe_read.injEq, reduceCtorEq, if_false,
      Nat.zero_add, Nat.add_zero, Nat.add_sub_cancel]
    by_cases h0 : 0 < d
    · simp only [h0, if_true, List.count_cons, List.count_nil, beq_iff_eq, Step.closed.injEq,
        FileObj.pipe_read.injEq, Nat.zero_add]
      split_ifs <;> omega
    · simp only [h0, if_false, List.count_nil, Nat.zero_add]
      split_ifs <;> omega

theorem pipeline_steps_count (i len : Nat) (a : Step) (ha : a ≠ .waited (i + len)) :
    (pipeline_steps i len).count a =
      ((List.range' 0 (len + 1)).flatMap (launch_steps i len)).count a := by
  have : ((Step.waited (i + len)) == a) = false := by
    simpa using Ne.symm ha
  simp [pipeline_steps, List.range_eq_range', List.count_cons, this]

/-- C12: for a pipeline of `len + 1` nodes, `i .. i + len`, of a chain (the
first `len` with link `PIPE`, the last with another link, the predecessor's
link not `PIPE`), in every outside world and from every state: whenever
`run_pipeline` returns, what the launching process did to processes and
descriptors is exactly, node after node, "create the node's pipe (unless it is
the last node), fork, close the read end of the predecessor's pipe (unless it
is the first node), close the write end of the node's pipe (unless it is the
last node)", and then the wait.  So a pipe is created for a node of the
pipeline exactly when its link is `PIPE`, exactly once; each end of each such
pipe is closed exactly once, the write end after the fork of its node and the
read end after the fork of the next node; and the descriptor table of the
launching process, hence its set of open descriptors, is the one before the
call.  With every system call succeeding and the nodes launchable and not yet
launched, `run_pipeline` does return. -/
theorem run_pipeline_closes_its_pipes (env : Env) (w : World) (e i len fuel : Nat)
    (hch : Chain w.heap e) (hie : i + len ≤ e)
    (hpipe : ∀ k, i ≤ k → k < i + len → link_at w.heap k = some .PIPE)
    (hlast : link_at w.heap (i + len) ≠ some .PIPE)
    (hfirst : i = 0 ∨ link_at w.heap (i - 1) ≠ some .PIPE) :
    (∀ w1 c, run_pipeline env fuel w (some i) = .ok (w1, c) →
      ∃ ev, w1.trace = w.trace ++ ev ∧
        story w.fds ev = pipeline_steps i len ∧
        (∀ k, Step.piped k ∈ story w.fds ev ↔
          i ≤ k ∧ k ≤ i + len ∧ link_at w.heap k = some .PIPE) ∧
        (∀ k, i ≤ k → k ≤ i + len → link_at w.heap k = some .PIPE →
          (story w.fds ev).count (.piped k) = 1 ∧
          (story w.fds ev).count (.closed (.pipe_write k)) = 1 ∧
          (story w.fds ev).count (.closed (.pipe_read k)) = 1) ∧
        w1.fds = w.fds ∧ w1.open_fds = w.open_fds) ∧
    ((∀ k, env.fails k = false) →
      (∀ (k : Nat) (n : command), i ≤ k → k ≤ i + len → w.heap[k]? = some n →
        Launchable n ∧ n.pid = -1) →
      len + 1 ≤ fuel →
      ∃ w1, run_pipeline env fuel w (some i) = .ok (w1, some (i + len))) := by
  have hrange : ∀ k, (i ≤ k ∧ k ≤ i + len ∧ link_at w.heap k = some .PIPE) ↔
      (i + 0 ≤ k ∧ k < i + len) := by
    intro k
    constructor
    · rintro ⟨h1, h2, h3⟩
      refine ⟨by omega, ?_⟩
      by_contra hk
      have : k = i + len := by omega
      subst this
      exact hlast h3
    · rintro ⟨h1, h2⟩
      exact ⟨by omega, by omega, hpipe k (by omega) h2⟩
  constructor
  · intro w1 c hrun
    have h := run_pipeline_acts env (w.heap.map command.shape) e (chain_shape hch) i len w.fds
      hie (fun k h1 h2 => by rw [link_at_shape]; exact hpipe k h1 h2)
      (by rw [link_at_shape]; exact hlast)
      (by rw [link_at_shape]; exact hfirst) len 0 fuel w none (by omega) rfl
      (by simp [pending_entry]) (fun h => absurd h (by omega)) (fun _ => rfl)
    simp only [Nat.add_zero] at h
    rw [hrun] at h
    obtain ⟨⟨ev, htr, hst, _⟩, hfds, _⟩ := h
    have hL : story w.fds ev = pipeline_steps i len := by
      rw [hst, pipeline_steps, List.range_eq_range']
    refine ⟨ev, htr, hL, ?_, ?_, hfds, by rw [World.open_fds, hfds]; rfl⟩
    · intro k
      rw [hL, ← List.count_pos_iff, pipeline_steps_count _ _ _ (by simp),
        steps_count_piped i len k len 0 (by omega), hrange k]
      split_ifs <;> simp_all
    · intro k h1 h2 h3
      have hk := (hrange k).1 ⟨h1, h2, h3⟩
      rw [hL, pipeline_steps_count _ _ _ (by simp), pipeline_steps_count _ _ _ (by simp),
        pipeline_steps_count _ _ _ (by simp), steps_count_piped i len k len 0 (by omega),
        steps_count_write i len k len 0 (by omega), steps_count_read i len k len 0 (by omega),
        if_pos hk]
      exact ⟨rfl, rfl, rfl⟩
  · intro hsys hnodes hfuel
    have h := run_pipeline_ok env hsys (w.heap.map command.shape) e (chain_shape hch) len fuel
      w i rfl hie (fun k n h1 h2 hk => (hnodes k n h1 h2 hk).1)
      (fun k h1 h2 => by rw [link_at_shape]; exact hpipe k h1 h2)
      (by rw [link_at_shape]; exact hlast)
      (fun k n h1 h2 hk => (hnodes k n h1 h2 hk).2)
      (prev_ready_of_first w rfl hch (by omega) hfirst)
    obtain ⟨⟨w1, c1⟩, hrun, hc, _⟩ :=
      Outcome.sat_ok (Outcome.sat_mono h (fun _ h => h) (fun _ h => h) (fun h => by omega))
    simp only at hc
    subst hc
    exact ⟨w1, hrun⟩

/-- A use of C12 at the line `a | b | c`: the descriptor number 4 is closed
twice, first as the write end of the pipe of `a`, then as the read end of the
pipe of `b`. -/
theorem run_pipeline_closes_its_pipes_witness :
    parse_line [.word "a", .pipe, .word "b", .pipe, .word "c"] = .ok abc_line (some 0) ∧
    (∃ w1, run_pipeline (calm_env fun _ => 0) 3 { heap := abc_line } (some 0)
        = .ok (w1, some 2) ∧
      ∃ ev, w1.trace = ({ heap := abc_line } : World).trace ++ ev ∧
        story ({ heap := abc_line } : World).fds ev = pipeline_steps 0 2 ∧
        (∀ k, Step.piped k ∈ story ({ heap := abc_line } : World).fds ev ↔
          0 ≤ k ∧ k ≤ 0 + 2 ∧ link_at abc_line k = some .PIPE) ∧
        (∀ k, 0 ≤ k → k ≤ 0 + 2 → link_at abc_line k = some .PIPE →
          (story ({ heap := abc_line } : World).fds ev).count (.piped k) = 1 ∧
          (story ({ heap := abc_line } : World).fds ev).count (.closed (.pipe_write k)) = 1 ∧
          (story ({ heap := abc_line } : World).fds ev).count (.closed (.pipe_read k)) = 1) ∧
        w1.fds = ({ heap := abc_line } : World).fds ∧
        w1.open_fds = ({ heap := abc_line } : World).open_fds) ∧
    pipeline_steps 0 2 =
      [.piped 0, .forked 0, .closed (.pipe_write 0),
       .piped 1, .forked 1, .closed (.pipe_read 0), .closed (.pipe_write 1),
       .forked 2, .closed (.pipe_read 1), .waited 2] ∧
    ((run_pipeline (calm_env fun _ => 0) 3 { heap := abc_line } (some 0)).final Prod.fst).map
      (fun w1 => w1.trace) =
      some [.pipe 0 3 4, .fork 0 1, .close 4, .pipe 1 4 5, .fork 1 2, .close 3, .close 5,
            .fork 2 3, .close 4, .waitpid 2 3 0] := by
  have T := run_pipeline_closes_its_pipes (calm_env fun _ => 0) { heap := abc_line } 2 0 2 3
    (chain_of_ok (by decide)) (by decide)
    (fun k h1 h2 => by
      have : k = 0 ∨ k = 1 := by omega
      rcases this with rfl | rfl <;> decide)
    (by decide) (Or.inl rfl)
  obtain ⟨w1, hw1⟩ := T.2 (fun _ => rfl)
    (fun k n _ _ hk => all_nodes (P := fun n => Launchable n ∧ n.pid = -1) (by decide) k n hk)
    (by decide)
  exact ⟨by decide, ⟨w1, hw1, T.1 w1 _ hw1⟩, by decide, by decide⟩

/-! ### `cd` without an argument (C13) -/

/-- C13, at the line `cd`: `parse_line` returns one node whose argument list is
`["cd"]`; the node meets both assertions of `command::run` (its pid is -1, its
argument list is not empty), and `command::run` then evaluates `args[1]`, an
index that is not within the list: the run ends in undefined behaviour, before
any system call. -/
theorem cd_alone_reads_missing_argument :
    parse_line [.word "cd"] = .ok [{ args := ["cd"] }] (some 0) ∧
    ({ args := ["cd"] } : command).pid = -1 ∧
    ({ args := ["cd"] } : command).args.length = 1 ∧
    ({ args := ["cd"] } : command).args[1]? = none ∧
    run_before_fork (calm_env fun _ => 0) { heap := [{ args := ["cd"] }] } 0
      = .undef { heap := [{ args := ["cd"] }] } ∧
    command.run (calm_env fun _ => 0) { heap := [{ args := ["cd"] }] } 0
      = .undef { heap := [{ args := ["cd"] }] } := by
  decide

end Sh61
